import Mathlib

/-!
# WDSP Dugan automixer: a shallow embedding of `DuganProcessor`

The definitions below follow `WDSPExtension/DSP/DuganProcessor.{h,cpp}`.

Modelling conventions.

* `float` values are elements of a linearly ordered field `α` (exact arithmetic:
  no rounding, no NaN, no infinities).  The C library functions the code calls
  (`std::sqrt`, `std::pow`, `std::log10`, `std::exp`, `logf`) are the fields of a
  record `LibM α`, so every definition is a computable function of that record;
  `LibM.real` interprets them as the real functions.  Where the rounding of the
  operations decides a statement (the limit of the gain smoothing, the order of the
  statistics), the operations are also given in binary32 (`roundF32`, `smoothGain32`,
  `averageGainReduction32`).
* `channels[kMaxChannels]` is a function `Fin 4 → Channel α`.  A loop
  `for (ch = 0; ch < numChannels; ++ch)` over the channel array is a left fold over
  `0, 1, 2, 3` whose body runs when `ch < numChannels` (the only caller passes
  `numChannels ≤ kMaxChannels`).
* A sample buffer is a function `Nat → α` (the cells behind the pointer), a null
  pointer is `none`, and distinct buffers do not overlap.
* `int` and `size_t` are `Int` and `Nat`; no count in the code comes near their range
  for a sample rate and block size a host can supply.
* The thread-local scratch vector of the vectorised level update is a size and the
  outcome of growing it (`ThreadLocalBuffer`); `processCall` is a call of `process` with
  it.
* Atomics and `statsMutex` are not modelled: every operation is run to completion on
  its own.  A method that guards its statements with `processMutex` has two
  definitions: its statements (`reset`, `setAttackTime`, ...) and its call
  (`resetCall`, `setAttackTimeCall`, ...), which does not return when the calling
  thread already owns the mutex.
-/

namespace WDSP

/-! ## Constants (`DuganProcessor.h`) -/

/-- The constant `kMinLevel = 1e-6f`. -/
def kMinLevel {α : Type} [LinearOrderedField α] : α := 1e-6

/-- The constant `kNoiseFloorThreshold = -60.0f`. -/
def kNoiseFloorThreshold {α : Type} [LinearOrderedField α] : α := -60

/-- The constant `kMaxChannels = 4`. -/
def kMaxChannels : Nat := 4

/-- The constant `kDefaultAttackTime = 0.01f`. -/
def kDefaultAttackTime {α : Type} [LinearOrderedField α] : α := 0.01

/-- The constant `kDefaultReleaseTime = 0.1f`. -/
def kDefaultReleaseTime {α : Type} [LinearOrderedField α] : α := 0.1

/-- The constant `kSmoothingTime = 0.05f`. -/
def kSmoothingTime {α : Type} [LinearOrderedField α] : α := 0.05

/-! ## Library functions -/

/-- The `<cmath>` functions used by the processor. -/
structure LibM (α : Type) where
  /-- The function `std::sqrt`. -/
  sqrt : α → α
  /-- The function `std::pow`. -/
  pow : α → α → α
  /-- The function `std::log10`. -/
  log10 : α → α
  /-- The function `std::exp`. -/
  exp : α → α
  /-- The function `logf`. -/
  log : α → α

/-- The real-number reading of the `<cmath>` functions. -/
noncomputable def LibM.real : LibM ℝ where
  sqrt := Real.sqrt
  pow := fun x y => x ^ y
  log10 := Real.logb 10
  exp := Real.exp
  log := Real.log

/-- The function `std::clamp(v, lo, hi)`: `(v < lo) ? lo : (hi < v) ? hi : v`. -/
def clamp {α : Type} [LinearOrderedField α] (v lo hi : α) : α :=
  if v < lo then lo else if hi < v then hi else v

/-- The conversion `static_cast<int>(x)` of a float: truncation toward zero. -/
def truncToInt {α : Type} [LinearOrderedField α] [FloorRing α] (x : α) : Int :=
  if 0 ≤ x then ⌊x⌋ else ⌈x⌉

/-! ## Data model -/

/-- The private `struct Channel` of `DuganProcessor`. -/
structure Channel (α : Type) where
  inputLevel : α
  gainReduction : α
  weight : α
  autoEnabled : Bool
  overrideEnabled : Bool
  envelope : α
  smoothedGain : α
  active : Bool
  peakLevel : α
  peakHoldCounter : Int
  lastRMS : α

/-- The public `struct Statistics`. -/
structure Statistics (α : Type) where
  averageGainReduction : α
  peakGainReduction : α
  averageInputLevel : α
  activeChannels : Int
  processingLoad : α

/-- The data members of `class DuganProcessor` that the code reads or writes. -/
structure DuganProcessor (α : Type) where
  adaptiveThreshold : α
  masterGain : α
  totalWeightedLevel : α
  activeChannelCount : Int
  masterGainReduction : α
  bypassEnabled : Bool
  attackCoeff : α
  releaseCoeff : α
  smoothingCoeff : α
  currentStats : Statistics α
  processingLoad : α
  sampleRate : α
  channels : Fin 4 → Channel α

/-- The compiler macros that select the vectorised code paths. -/
structure Target where
  armNeon : Bool
  sse : Bool
  avx : Bool
  apple : Bool

/-- The macro `HAVE_SIMD`, defined when `__ARM_NEON` or `__SSE__` is. -/
def Target.haveSimd (t : Target) : Bool := t.armNeon || t.sse

/-- An array of per-channel sample pointers: `none` is a null pointer. -/
abbrev Buffers (α : Type) := Nat → Option (Nat → α)

/-- The exceptions `std::vector<float>::resize` can throw. -/
inductive ResizeError where
  /-- The exception `std::length_error`: the new size is above `max_size()`. -/
  | lengthError
  /-- The exception `std::bad_alloc`: the allocation of the new storage fails. -/
  | badAlloc
  deriving DecidableEq, Repr

/-- The ways `process` can fail to return normally. -/
inductive ProcessError where
  /-- The exception `std::invalid_argument("Null input/output pointers")`. -/
  | invalidArgument
  /-- A read through a null pointer array (undefined behaviour in C++). -/
  | nullArrayAccess
  /-- An exception of `threadLocalBuffer.resize(numSamples)` in `updateLevelsOptimized`. -/
  | resizeFailed (e : ResizeError)
  deriving DecidableEq, Repr

/-- The `thread_local std::vector<float> threadLocalBuffer` of the thread that calls
`process`: its size, and what a `resize` to a larger size does on that thread at the time
of the call (`none`: it succeeds).  No statement reads the elements. -/
structure ThreadLocalBuffer where
  size : Nat
  resize : Nat → Option ResizeError

section Code

variable {α : Type} [LinearOrderedField α]

/-! ## One-pole filters -/

/-- The method `computeEnvelope`. -/
def computeEnvelope (input envelope coeff : α) : α :=
  envelope * coeff + input * (1 - coeff)

/-- The method `smoothGain`. -/
def smoothGain (currentGain targetGain coeff : α) : α :=
  currentGain * coeff + targetGain * (1 - coeff)

/-! ## Level update -/

/-- The sample loop of `updateLevels`: running `sumSquared` and `peakSample`. -/
def scanScalar (input : Nat → α) (numSamples : Nat) : α × α :=
  (List.range numSamples).foldl
    (fun acc i =>
      let sample := input i
      let absSample := |sample|
      (acc.1 + sample * sample, max acc.2 absSample))
    (0, 0)

/-- The 4-lane accumulators `sum4` and `peak4` of `updateLevelsOptimized`
after the vector loop `for (; i + 3 < numSamples; i += 4)`. -/
def scanVectorLoop (input : Nat → α) (numSamples : Nat) : (Fin 4 → α) × (Fin 4 → α) :=
  (List.range (numSamples / 4)).foldl
    (fun acc k =>
      let i := 4 * k
      (fun l => acc.1 l + input (i + l.val) * input (i + l.val),
       fun l => max (acc.2 l) |input (i + l.val)|))
    (fun _ => 0, fun _ => 0)

/-- The sample scan of `updateLevelsOptimized`: vector loop, horizontal reduction,
then the scalar loop over the remaining samples. -/
def scanOptimized (input : Nat → α) (numSamples : Nat) : α × α :=
  let v := scanVectorLoop input numSamples
  let sumSquared := v.1 0 + v.1 1 + v.1 2 + v.1 3
  let peakSample := max (max (v.2 0) (v.2 1)) (max (v.2 2) (v.2 3))
  ((List.range (numSamples % 4)).map (fun j => 4 * (numSamples / 4) + j)).foldl
    (fun acc i =>
      let sample := input i
      (acc.1 + sample * sample, max acc.2 |sample|))
    (sumSquared, peakSample)

variable [FloorRing α]

/-- The part of the channel loop body of `updateLevels` that follows the sample scan
(the same statements close the body of `updateLevelsOptimized`). -/
def updateChannelLevel (M : LibM α) (p : DuganProcessor α) (c : Channel α)
    (sumSquared peakSample : α) (numSamples : Nat) : Channel α :=
  let envelope := c.envelope
  let rms := if numSamples > 0 then M.sqrt (sumSquared / (numSamples : α)) else 0
  let coeff := if rms > envelope then p.attackCoeff else p.releaseCoeff
  let envelope1 := computeEnvelope rms envelope coeff
  let levelDb := clamp (20 * M.log10 (max envelope1 kMinLevel)) kNoiseFloorThreshold 0
  let peakDb := clamp (20 * M.log10 (max peakSample kMinLevel)) kNoiseFloorThreshold 0
  let currentPeak := c.peakLevel
  let c1 := { c with lastRMS := rms, envelope := envelope1, inputLevel := levelDb }
  if peakDb > currentPeak then
    { c1 with
      peakLevel := peakDb
      peakHoldCounter := truncToInt (2 * p.sampleRate / (numSamples : α)) }
  else if c1.peakHoldCounter > 0 then
    { c1 with peakHoldCounter := c1.peakHoldCounter - 1 }
  else
    { c1 with peakLevel := max (currentPeak - 3) levelDb }

/-- The body of the channel loop of the level update for channel `ch`, with the
sample scan as a parameter: a null input is skipped. -/
def updateLevelsStep (scan : (Nat → α) → Nat → α × α) (M : LibM α) (inputs : Buffers α)
    (numSamples : Nat) (q : DuganProcessor α) (ch : Fin 4) : DuganProcessor α :=
  match inputs ch.val with
  | none => q
  | some input =>
    let r := scan input numSamples
    let c := updateChannelLevel M q (q.channels ch) r.1 r.2 numSamples
    { q with channels := Function.update q.channels ch c }

/-- The channel loop shared by both level updates. -/
def updateLevelsWith (scan : (Nat → α) → Nat → α × α) (M : LibM α) (p : DuganProcessor α)
    (inputs : Buffers α) (numChannels numSamples : Nat) : DuganProcessor α :=
  (List.finRange 4).foldl
    (fun q ch =>
      if ch.val < numChannels then updateLevelsStep scan M inputs numSamples q ch else q)
    p

/-- The method `updateLevels`. -/
def updateLevels (M : LibM α) (p : DuganProcessor α) (inputs : Buffers α)
    (numChannels numSamples : Nat) : DuganProcessor α :=
  updateLevelsWith scanScalar M p inputs numChannels numSamples

/-- The method `updateLevelsOptimized` (the NEON and the SSE bodies are the same
computation), on a thread whose `threadLocalBuffer` holds `numSamples` elements already;
`updateLevelsOptimizedCall` adds the `threadLocalBuffer.resize` at the head of the loop
body, which can throw. -/
def updateLevelsOptimized (M : LibM α) (p : DuganProcessor α) (inputs : Buffers α)
    (numChannels numSamples : Nat) : DuganProcessor α :=
  updateLevelsWith scanOptimized M p inputs numChannels numSamples

/-! ## Gain computation -/

/-- The values the first loop of `computeGains` accumulates. -/
structure GainTotals (α : Type) where
  totalWeightedLevel : α
  activeChannelCount : Int
  anyOverride : Bool

/-- The first loop of `computeGains`. -/
def computeGainsFirstPass (M : LibM α) (p : DuganProcessor α) (numChannels : Nat) :
    GainTotals α :=
  (List.finRange 4).foldl
    (fun t ch =>
      if ch.val < numChannels then
        let channel := p.channels ch
        let t1 := if channel.overrideEnabled then { t with anyOverride := true } else t
        if channel.autoEnabled then
          let linearLevel := M.pow 10 (channel.inputLevel / 20)
          { t1 with
            totalWeightedLevel := t1.totalWeightedLevel + linearLevel * channel.weight
            activeChannelCount :=
              if channel.inputLevel > p.adaptiveThreshold then t1.activeChannelCount + 1
              else t1.activeChannelCount }
        else t1
      else t)
    { totalWeightedLevel := 0, activeChannelCount := 0, anyOverride := false }

/-- The local `targetGain` of the second loop of `computeGains`, master gain applied.
`p` carries the members `totalWeightedLevel` and `activeChannelCount` the first loop
has set. -/
def targetGain (M : LibM α) (p : DuganProcessor α) (anyOverride : Bool)
    (channel : Channel α) : α :=
  let targetGain : α :=
    if anyOverride then
      if channel.overrideEnabled then 1 else 0.1
    else if !channel.autoEnabled then 1
    else
      let linearLevel := M.pow 10 (channel.inputLevel / 20)
      let weight := channel.weight
      let g := M.sqrt ((linearLevel * weight) / p.totalWeightedLevel)
      if p.activeChannelCount > 1 then g * 0.9 else g
  let masterGainMultiplier := M.pow 10 (p.masterGain / 20)
  targetGain * masterGainMultiplier

/-- The state of the second loop of `computeGains`: the processor and the three local
statistics accumulators. -/
structure GainPass (α : Type) where
  proc : DuganProcessor α
  totalGainReduction : α
  maxGainReduction : α
  totalInputLevel : α

/-- The assignments the body of the second loop of `computeGains` makes to its
channel: target gain, smoothing, and the gain reduction stored for metering. -/
def updateChannelGain (M : LibM α) (p : DuganProcessor α) (anyOverride : Bool)
    (channel : Channel α) : Channel α :=
  let target := targetGain M p anyOverride channel
  let smoothed := smoothGain channel.smoothedGain target p.smoothingCoeff
  let gainReduction := -20 * M.log10 (max smoothed kMinLevel)
  let clampedGainReduction := clamp gainReduction (-30) 0
  { channel with smoothedGain := smoothed, gainReduction := clampedGainReduction }

/-- The body of the second loop of `computeGains` for channel `ch`. -/
def computeGainsStep (M : LibM α) (anyOverride : Bool) (q : GainPass α) (ch : Fin 4) :
    GainPass α :=
  let channel1 := updateChannelGain M q.proc anyOverride (q.proc.channels ch)
  { proc := { q.proc with channels := Function.update q.proc.channels ch channel1 }
    totalGainReduction := q.totalGainReduction + channel1.gainReduction
    maxGainReduction := min q.maxGainReduction channel1.gainReduction
    totalInputLevel := q.totalInputLevel + channel1.inputLevel }

/-- The second loop of `computeGains`. -/
def computeGainsSecondPass (M : LibM α) (anyOverride : Bool) (p : DuganProcessor α)
    (numChannels : Nat) : GainPass α :=
  (List.finRange 4).foldl
    (fun q ch => if ch.val < numChannels then computeGainsStep M anyOverride q ch else q)
    { proc := p, totalGainReduction := 0, maxGainReduction := 0, totalInputLevel := 0 }

/-- The method `computeGains`. -/
def computeGains (M : LibM α) (p : DuganProcessor α) (numChannels : Nat) :
    DuganProcessor α :=
  let t := computeGainsFirstPass M p numChannels
  let p1 := { p with
    totalWeightedLevel := max t.totalWeightedLevel kMinLevel
    activeChannelCount := t.activeChannelCount }
  let r := computeGainsSecondPass M t.anyOverride p1 numChannels
  let stats : Statistics α :=
    { r.proc.currentStats with
      averageGainReduction :=
        if numChannels > 0 then r.totalGainReduction / (numChannels : α) else 0
      peakGainReduction := r.maxGainReduction
      averageInputLevel :=
        if numChannels > 0 then r.totalInputLevel / (numChannels : α)
        else kNoiseFloorThreshold
      activeChannels := r.proc.activeChannelCount }
  { r.proc with currentStats := stats }

/-! ## Gain application -/

/-- The sample loop `for (i = lo; i < numSamples; ++i) output[i] = input[i] * gain`. -/
def scaleFrom (lo : Nat) (input output : Nat → α) (gain : α) (numSamples : Nat) : Nat → α :=
  ((List.range (numSamples - lo)).map (fun j => lo + j)).foldl
    (fun out i => Function.update out i (input i * gain))
    output

/-- The vector loop of `applyGainsOptimized`: each iteration loads `vectorSize` samples
at `i`, multiplies them by the gain and stores them at `i`. -/
def scaleVectors (vectorSize : Nat) (input output : Nat → α) (gain : α) (numSamples : Nat) :
    Nat → α :=
  (List.range (numSamples / vectorSize)).foldl
    (fun out k =>
      let i := k * vectorSize
      fun j => if i ≤ j ∧ j < i + vectorSize then input j * gain else out j)
    output

/-- A vectorised branch of `applyGainsOptimized`: the vector loop up to
`vectorizedLength`, then the scalar loop over the remaining samples. -/
def scaleVectorised (vectorSize : Nat) (input output : Nat → α) (gain : α)
    (numSamples : Nat) : Nat → α :=
  let vectorizedLength := (numSamples / vectorSize) * vectorSize
  scaleFrom vectorizedLength input
    (scaleVectors vectorSize input output gain numSamples) gain numSamples

/-- The body of the channel loop of `applyGainsRegular` and `applyGainsOptimized` for
channel `ch`, with the per-channel sample kernel as a parameter: a channel with a null
input or output is skipped. -/
def applyGainsStep (kernel : (Nat → α) → (Nat → α) → α → Nat → Nat → α)
    (p : DuganProcessor α) (inputs : Buffers α) (numSamples : Nat) (outs : Buffers α)
    (ch : Fin 4) : Buffers α :=
  match inputs ch.val, outs ch.val with
  | some input, some output =>
    let gain := (p.channels ch).smoothedGain
    Function.update outs ch.val (some (kernel input output gain numSamples))
  | _, _ => outs

/-- The channel loop of `applyGainsRegular` and `applyGainsOptimized`. -/
def applyGainsWith (kernel : (Nat → α) → (Nat → α) → α → Nat → Nat → α)
    (p : DuganProcessor α) (inputs outputs : Buffers α) (numChannels numSamples : Nat) :
    Buffers α :=
  (List.finRange 4).foldl
    (fun outs ch =>
      if ch.val < numChannels then applyGainsStep kernel p inputs numSamples outs ch
      else outs)
    outputs

/-- The method `applyGainsRegular`. -/
def applyGainsRegular (p : DuganProcessor α) (inputs outputs : Buffers α)
    (numChannels numSamples : Nat) : Buffers α :=
  applyGainsWith (scaleFrom 0) p inputs outputs numChannels numSamples

/-- The method `applyGainsOptimized`: the preprocessor picks the AVX, SSE, NEON or
scalar sample kernel. -/
def applyGainsOptimized (t : Target) (p : DuganProcessor α) (inputs outputs : Buffers α)
    (numChannels numSamples : Nat) : Buffers α :=
  let kernel : (Nat → α) → (Nat → α) → α → Nat → Nat → α :=
    if t.avx then scaleVectorised 8
    else if t.sse then scaleVectorised 4
    else if t.apple && t.armNeon then scaleVectorised 4
    else scaleFrom 0
  applyGainsWith kernel p inputs outputs numChannels numSamples

/-- The method `applyGains`. -/
def applyGains (t : Target) (p : DuganProcessor α) (inputs outputs : Buffers α)
    (numChannels numSamples : Nat) : Buffers α :=
  if t.apple || t.sse || t.avx then applyGainsOptimized t p inputs outputs numChannels numSamples
  else applyGainsRegular p inputs outputs numChannels numSamples

/-! ## The block entry point -/

/-- The method `setBypass`. -/
def setBypass (p : DuganProcessor α) (bypass : Bool) : DuganProcessor α :=
  { p with bypassEnabled := bypass }

/-- The call `memcpy(outputs[ch], inputs[ch], numSamples * sizeof(float))`. -/
def memcpy (output input : Nat → α) (numSamples : Nat) : Nat → α :=
  fun i => if i < numSamples then input i else output i

/-- The body of the bypass loop of `process` for channel `ch`. -/
def bypassStep (inputs : Buffers α) (numSamples : Nat) (outs : Buffers α) (ch : Nat) :
    Buffers α :=
  match inputs ch, outs ch with
  | some input, some output => Function.update outs ch (some (memcpy output input numSamples))
  | _, _ => outs

/-- The bypass loop of `process`. -/
def bypassCopy (inputs outputs : Buffers α) (numChannels numSamples : Nat) : Buffers α :=
  (List.range numChannels).foldl (bypassStep inputs numSamples) outputs

/-- The level update `process` calls: `updateLevelsOptimized` under `HAVE_SIMD`,
`updateLevels` otherwise. -/
def processLevels (t : Target) (M : LibM α) (p : DuganProcessor α) (inputs : Buffers α)
    (numChannels numSamples : Nat) : DuganProcessor α :=
  if t.haveSimd then updateLevelsOptimized M p inputs numChannels numSamples
  else updateLevels M p inputs numChannels numSamples

/-- The method `process`.  `inputs` and `outputs` are the two pointer arrays (`none`
when the array pointer itself is null); `duration` is the measured running time of the
call in microseconds.  The result is the processor afterwards together with the
contents of the output buffers.  This is the call on a thread whose `threadLocalBuffer`
needs no growing; `processCall` is the call on any thread, with the exception a failed
`resize` of that buffer raises. -/
def process (t : Target) (M : LibM α) (p : DuganProcessor α)
    (inputs outputs : Option (Buffers α)) (numChannels numSamples : Nat) (duration : Int) :
    Except ProcessError (DuganProcessor α × Option (Buffers α)) :=
  if p.bypassEnabled then
    if numChannels = 0 then .ok (p, outputs)
    else
      match inputs, outputs with
      | some ins, some outs => .ok (p, some (bypassCopy ins outs numChannels numSamples))
      | _, _ => .error .nullArrayAccess
  else
    match inputs, outputs with
    | some ins, some outs =>
      let numChannels := min numChannels kMaxChannels
      if numChannels = 0 ∨ numSamples = 0 then .ok (p, some outs)
      else
        let p1 := processLevels t M p ins numChannels numSamples
        let p2 := computeGains M p1 numChannels
        let outs1 := applyGains t p2 ins outs numChannels numSamples
        let processingTimeMs : α := (duration : α) / 1000
        let bufferTimeMs : α := ((numSamples : α) / p2.sampleRate) * 1000
        let loadPercentage := (processingTimeMs / bufferTimeMs) * 100
        .ok ({ p2 with
                processingLoad := loadPercentage
                currentStats := { p2.currentStats with processingLoad := loadPercentage } },
             some outs1)
    | _, _ => .error .invalidArgument

/-- The method `getChannelGainReduction`. -/
def getChannelGainReduction (p : DuganProcessor α) (channel : Nat) : α :=
  if h : channel < 4 then (p.channels ⟨channel, h⟩).gainReduction else 0

/-- The method `getChannelPeakLevel`. -/
def getChannelPeakLevel (p : DuganProcessor α) (channel : Nat) : α :=
  if h : channel < 4 then (p.channels ⟨channel, h⟩).peakLevel else kNoiseFloorThreshold

/-- The method `getChannelInputLevel`. -/
def getChannelInputLevel (p : DuganProcessor α) (channel : Nat) : α :=
  if h : channel < 4 then (p.channels ⟨channel, h⟩).inputLevel else kNoiseFloorThreshold

/-- The statements of the method `setSmoothingTime`. -/
def setSmoothingTime (M : LibM α) (p : DuganProcessor α) (timeInSeconds : α) :
    DuganProcessor α :=
  let time := clamp timeInSeconds 0.001 0.5
  { p with smoothingCoeff := M.exp (-1 / (time * p.sampleRate)) }

/-- The statements of the method `reset`. -/
def reset (p : DuganProcessor α) : DuganProcessor α :=
  { p with
    channels := (List.finRange 4).foldl
      (fun chs ch =>
        Function.update chs ch
          { chs ch with
            weight := 1
            autoEnabled := true
            overrideEnabled := false
            inputLevel := kNoiseFloorThreshold
            gainReduction := 0
            peakLevel := kNoiseFloorThreshold
            envelope := kMinLevel
            smoothedGain := 1
            lastRMS := kMinLevel
            peakHoldCounter := 0
            active := false })
      p.channels
    currentStats :=
      { averageGainReduction := 0, peakGainReduction := 0, averageInputLevel := 0,
        activeChannels := 0, processingLoad := 0 } }

/-! ## Sequences of blocks -/

/-- The arguments of one call of `process`. -/
structure Block (α : Type) where
  inputs : Option (Buffers α)
  outputs : Option (Buffers α)
  numChannels : Nat
  numSamples : Nat
  duration : Int

/-- The processor after one call of `process` (left as it was when the call throws). -/
def processState (t : Target) (M : LibM α) (p : DuganProcessor α) (b : Block α) :
    DuganProcessor α :=
  match process t M p b.inputs b.outputs b.numChannels b.numSamples b.duration with
  | .ok r => r.1
  | .error _ => p

/-- The processor after the first `k` blocks of a stream of `process` calls. -/
def stateAfter (t : Target) (M : LibM α) (p : DuganProcessor α) (blocks : Nat → Block α) :
    Nat → DuganProcessor α
  | 0 => p
  | k + 1 => processState t M (stateAfter t M p blocks k) (blocks k)

/-- What the first loop leaves in `totalWeightedLevel` before flooring. -/
def weightedLevelSum (M : LibM α) (p : DuganProcessor α) (n : Nat) : α :=
  ∑ ch : Fin 4, if ch.val < n ∧ (p.channels ch).autoEnabled = true then
    M.pow 10 ((p.channels ch).inputLevel / 20) * (p.channels ch).weight else 0

/-- The number of channels the first loop counts as active. -/
def activeCount (p : DuganProcessor α) (n : Nat) : Nat :=
  (Finset.univ.filter (fun ch : Fin 4 => ch.val < n ∧ (p.channels ch).autoEnabled = true ∧
    p.adaptiveThreshold < (p.channels ch).inputLevel)).card

/-- Whether a processed channel is in override. -/
def anyOverrideIn (p : DuganProcessor α) (n : Nat) : Bool :=
  decide (∃ ch : Fin 4, ch.val < n ∧ (p.channels ch).overrideEnabled = true)

/-- The processor the second loop of `computeGains` starts from. -/
def afterFirstPass (M : LibM α) (p : DuganProcessor α) (n : Nat) : DuganProcessor α :=
  { p with
    totalWeightedLevel := max (weightedLevelSum M p n) kMinLevel
    activeChannelCount := (activeCount p n : Int) }

/-- The value the level update leaves in a channel whose loop body runs. -/
def levelOf (scan : (Nat → α) → Nat → α × α) (M : LibM α) (p : DuganProcessor α)
    (inputs : Buffers α) (B : Nat) (ch : Fin 4) : Channel α :=
  match inputs ch.val with
  | none => p.channels ch
  | some input => updateChannelLevel M p (p.channels ch) (scan input B).1 (scan input B).2 B

/-- The configuration of a processor: everything a block leaves alone. -/
structure SameConfig (p q : DuganProcessor α) : Prop where
  adaptiveThreshold : q.adaptiveThreshold = p.adaptiveThreshold
  masterGain : q.masterGain = p.masterGain
  bypassEnabled : q.bypassEnabled = p.bypassEnabled
  attackCoeff : q.attackCoeff = p.attackCoeff
  releaseCoeff : q.releaseCoeff = p.releaseCoeff
  smoothingCoeff : q.smoothingCoeff = p.smoothingCoeff
  sampleRate : q.sampleRate = p.sampleRate
  weight : ∀ ch, (q.channels ch).weight = (p.channels ch).weight
  autoEnabled : ∀ ch, (q.channels ch).autoEnabled = (p.channels ch).autoEnabled
  overrideEnabled : ∀ ch, (q.channels ch).overrideEnabled = (p.channels ch).overrideEnabled
  active : ∀ ch, (q.channels ch).active = (p.channels ch).active

/-- The buffer a sample kernel leaves behind: the first `numSamples` cells hold the
scaled input, the cells after them are as they were. -/
def scaled (input output : Nat → α) (gain : α) (numSamples : Nat) : Nat → α :=
  fun i => if i < numSamples then input i * gain else output i

/-- The output pointer of channel `ch` after its iteration of the channel loop of
`applyGains`. -/
def gainedCell (kernel : (Nat → α) → (Nat → α) → α → Nat → Nat → α)
    (p : DuganProcessor α) (inputs outputs : Buffers α) (numSamples : Nat) (ch : Fin 4) :
    Option (Nat → α) :=
  match inputs ch.val, outputs ch.val with
  | some input, some output =>
    some (kernel input output (p.channels ch).smoothedGain numSamples)
  | _, _ => outputs ch.val

/-- The output pointer of channel `ch` after its iteration of the bypass loop. -/
def copiedCell (inputs outputs : Buffers α) (numSamples : Nat) (ch : Nat) :
    Option (Nat → α) :=
  match inputs ch, outputs ch with
  | some input, some output => some (memcpy output input numSamples)
  | _, _ => outputs ch

/-- The sample scan of the level update `process` runs. -/
def processScan (t : Target) : (Nat → α) → Nat → α × α :=
  if t.haveSimd then scanOptimized else scanScalar

/-- The method `setChannelAutoEnabled`. -/
def setChannelAutoEnabled (p : DuganProcessor α) (channel : Nat) (enabled : Bool) :
    DuganProcessor α :=
  if h : channel < 4 then
    let c : Channel α := { p.channels ⟨channel, h⟩ with autoEnabled := enabled }
    { p with channels := Function.update p.channels ⟨channel, h⟩ c }
  else p

/-- The method `setChannelOverride`. -/
def setChannelOverride (p : DuganProcessor α) (channel : Nat) (override : Bool) :
    DuganProcessor α :=
  if h : channel < 4 then
    let c : Channel α := { p.channels ⟨channel, h⟩ with overrideEnabled := override }
    { p with channels := Function.update p.channels ⟨channel, h⟩ c }
  else p

/-! ## Example data -/

/-- A channel as `reset` leaves it. -/
def exampleChannel : Channel α where
  inputLevel := kNoiseFloorThreshold
  gainReduction := 0
  weight := 1
  autoEnabled := true
  overrideEnabled := false
  envelope := kMinLevel
  smoothedGain := 1
  active := false
  peakLevel := kNoiseFloorThreshold
  peakHoldCounter := 0
  lastRMS := kMinLevel

/-- A processor at 48 kHz with the default threshold and master gain, every channel as
`reset` leaves it, and the three filter coefficients at one half. -/
def exampleProcessor : DuganProcessor α where
  adaptiveThreshold := -40
  masterGain := 0
  totalWeightedLevel := 0
  activeChannelCount := 0
  masterGainReduction := 0
  bypassEnabled := false
  attackCoeff := 1 / 2
  releaseCoeff := 1 / 2
  smoothingCoeff := 1 / 2
  currentStats :=
    { averageGainReduction := 0, peakGainReduction := 0, averageInputLevel := 0,
      activeChannels := 0, processingLoad := 0 }
  processingLoad := 0
  sampleRate := 48000
  channels := fun _ => exampleChannel

/-- Four non-null buffers of silence. -/
def silentBuffers : Buffers α := fun _ => some (fun _ => 0)

/-- A build without any of the vector instruction sets. -/
def scalarTarget : Target := { armNeon := false, sse := false, avx := false, apple := false }

/-- The sample buffers of a stream whose first block is at full scale and whose later
blocks are silent. -/
def impulseBuffer (k : Nat) : Nat → α := fun _ => if k = 0 then 1 else 0

/-- A stream of one-sample, one-channel blocks: full scale first, silence afterwards. -/
def impulseBlocks (k : Nat) : Block α :=
  { inputs := some (fun _ => some (impulseBuffer k)), outputs := some silentBuffers,
    numChannels := 1, numSamples := 1, duration := 0 }

/-! ## Parameter setters and getters -/

/-- The method `setChannelWeight`. -/
def setChannelWeight (p : DuganProcessor α) (channel : Nat) (weight : α) :
    DuganProcessor α :=
  if h : channel < 4 then
    let c : Channel α := { p.channels ⟨channel, h⟩ with weight := max 0 (min 10 weight) }
    { p with channels := Function.update p.channels ⟨channel, h⟩ c }
  else p

/-- The method `getChannelWeight`. -/
def getChannelWeight (p : DuganProcessor α) (channel : Nat) : α :=
  if h : channel < 4 then (p.channels ⟨channel, h⟩).weight else 1

/-- The method `isChannelAutoEnabled`. -/
def isChannelAutoEnabled (p : DuganProcessor α) (channel : Nat) : Bool :=
  if h : channel < 4 then (p.channels ⟨channel, h⟩).autoEnabled else false

/-- The method `isChannelOverride`. -/
def isChannelOverride (p : DuganProcessor α) (channel : Nat) : Bool :=
  if h : channel < 4 then (p.channels ⟨channel, h⟩).overrideEnabled else false

/-- The method `setAdaptiveThreshold`. -/
def setAdaptiveThreshold (p : DuganProcessor α) (threshold : α) : DuganProcessor α :=
  { p with adaptiveThreshold := max (-60) (min (-20) threshold) }

/-- The method `getAdaptiveThreshold`. -/
def getAdaptiveThreshold (p : DuganProcessor α) : α := p.adaptiveThreshold

/-- The statements of the method `setMasterGain`. -/
def setMasterGain (p : DuganProcessor α) (gain : α) : DuganProcessor α :=
  { p with masterGain := clamp gain (-12) 12 }

/-- The method `getMasterGain`. -/
def getMasterGain (p : DuganProcessor α) : α := p.masterGain

/-- The statements of the method `setAttackTime`. -/
def setAttackTime (M : LibM α) (p : DuganProcessor α) (timeInSeconds : α) :
    DuganProcessor α :=
  let time := clamp timeInSeconds 0.001 1.0
  { p with attackCoeff := M.exp (-1 / (time * p.sampleRate)) }

/-- The statements of the method `setReleaseTime`. -/
def setReleaseTime (M : LibM α) (p : DuganProcessor α) (timeInSeconds : α) :
    DuganProcessor α :=
  let time := clamp timeInSeconds 0.01 2.0
  { p with releaseCoeff := M.exp (-1 / (time * p.sampleRate)) }

/-- The method `getAttackTime`. -/
def getAttackTime (M : LibM α) (p : DuganProcessor α) : α :=
  if p.attackCoeff > 0 ∧ p.attackCoeff < 1 then
    -1000 * M.log (1 - p.attackCoeff) / p.sampleRate
  else 10

/-- The method `getReleaseTime`. -/
def getReleaseTime (M : LibM α) (p : DuganProcessor α) : α :=
  if p.releaseCoeff > 0 ∧ p.releaseCoeff < 1 then
    -1000 * M.log (1 - p.releaseCoeff) / p.sampleRate
  else 100

/-- The statements of the method `DuganProcessor::initialize`, its `lock_guard` and
those of its callees left out. -/
def initializeStatements (M : LibM α) (p : DuganProcessor α) (sampleRate : α) :
    DuganProcessor α :=
  let p0 := { p with sampleRate := sampleRate }
  let p1 := setAttackTime M p0 kDefaultAttackTime
  let p2 := setReleaseTime M p1 kDefaultReleaseTime
  let p3 := setSmoothingTime M p2 kSmoothingTime
  reset p3

/-- The members of a `Channel` as their default member initialisers leave them. -/
def defaultChannel : Channel α where
  inputLevel := -60
  gainReduction := 0
  weight := 1
  autoEnabled := true
  overrideEnabled := false
  envelope := 0
  smoothedGain := 1
  active := false
  peakLevel := -60
  peakHoldCounter := 0
  lastRMS := 0

/-- The constructor `DuganProcessor(float sampleRate)`. -/
def construct (M : LibM α) (sampleRate : α) : DuganProcessor α :=
  let p0 : DuganProcessor α :=
    { adaptiveThreshold := -40
      masterGain := 0
      totalWeightedLevel := 0
      activeChannelCount := 0
      masterGainReduction := 0
      bypassEnabled := false
      attackCoeff := 0
      releaseCoeff := 0
      smoothingCoeff := 0
      currentStats :=
        { averageGainReduction := 0, peakGainReduction := 0, averageInputLevel := 0,
          activeChannels := 0, processingLoad := 0 }
      processingLoad := 0
      sampleRate := sampleRate
      channels := fun _ => defaultChannel }
  let p1 := setAttackTime M p0 kDefaultAttackTime
  let p2 := setReleaseTime M p1 kDefaultReleaseTime
  let p3 := setSmoothingTime M p2 kSmoothingTime
  let p4 := reset p3
  { p4 with currentStats :=
      { averageGainReduction := 0, peakGainReduction := 0, averageInputLevel := 0,
        activeChannels := 0, processingLoad := 0 } }

/-! ## The lock on `processMutex`

`processMutex` is a `std::mutex`: a thread that locks it while it owns it never gets
the lock (undefined behaviour, in practice a deadlock).  A call is modelled as a partial
function of the state, with `none` for a call that never returns; `held` says whether
the calling thread owns `processMutex` when it makes the call. -/

/-- A `std::lock_guard<std::mutex> lock(processMutex)` at the head of a method whose
remaining statements are `body`. -/
def lockGuard {σ : Type} (held : Bool) (body : Option σ) : Option σ :=
  if held then none else body

/-- A call of `setAttackTime`. -/
def setAttackTimeCall (M : LibM α) (held : Bool) (p : DuganProcessor α) (timeInSeconds : α) :
    Option (DuganProcessor α) :=
  lockGuard held (some (setAttackTime M p timeInSeconds))

/-- A call of `setReleaseTime`. -/
def setReleaseTimeCall (M : LibM α) (held : Bool) (p : DuganProcessor α)
    (timeInSeconds : α) : Option (DuganProcessor α) :=
  lockGuard held (some (setReleaseTime M p timeInSeconds))

/-- A call of `setSmoothingTime`. -/
def setSmoothingTimeCall (M : LibM α) (held : Bool) (p : DuganProcessor α)
    (timeInSeconds : α) : Option (DuganProcessor α) :=
  lockGuard held (some (setSmoothingTime M p timeInSeconds))

/-- A call of `setMasterGain`. -/
def setMasterGainCall (held : Bool) (p : DuganProcessor α) (gain : α) :
    Option (DuganProcessor α) :=
  lockGuard held (some (setMasterGain p gain))

/-- A call of `reset`. -/
def resetCall (held : Bool) (p : DuganProcessor α) : Option (DuganProcessor α) :=
  lockGuard held (some (reset p))

/-- A call of `DuganProcessor::initialize`: it takes the lock, stores the sample rate,
and calls the three time setters and `reset` while it holds the lock. -/
def initializeCall (M : LibM α) (held : Bool) (p : DuganProcessor α) (sampleRate : α) :
    Option (DuganProcessor α) :=
  lockGuard held
    ((setAttackTimeCall M true { p with sampleRate := sampleRate } kDefaultAttackTime).bind
      fun p1 => (setReleaseTimeCall M true p1 kDefaultReleaseTime).bind
        fun p2 => (setSmoothingTimeCall M true p2 kSmoothingTime).bind
          fun p3 => resetCall true p3)

/-! ## The kernel's parameter interface (`WDSPKernel.cpp`) -/

/-- The data members of `WDSPKernel` that its parameter interface reads or writes;
`processor` is `none` for a null pointer. -/
structure WDSPKernel (α : Type) where
  processor : Option (DuganProcessor α)
  sampleRate : α
  bypassState : Bool
  dspLoad : α
  processingActive : Bool

/-- The method `WDSPKernel::setTimeConstants`. -/
def WDSPKernel.setTimeConstants (M : LibM α) (k : WDSPKernel α) (attackTime releaseTime : α) :
    Option (WDSPKernel α) :=
  match k.processor with
  | none => some k
  | some p =>
    (if attackTime ≥ 0 then setAttackTimeCall M false p (attackTime / 1000) else some p).bind
      fun p1 =>
        (if releaseTime ≥ 0 then setReleaseTimeCall M false p1 (releaseTime / 1000)
          else some p1).bind
          fun p2 => some { k with processor := some p2 }

/-- The method `WDSPKernel::setAdaptiveThreshold`. -/
def WDSPKernel.setAdaptiveThreshold (k : WDSPKernel α) (threshold : α) : WDSPKernel α :=
  match k.processor with
  | none => k
  | some p => { k with processor := some (WDSP.setAdaptiveThreshold p threshold) }

/-- The method `WDSPKernel::setMasterGain`. -/
def WDSPKernel.setMasterGain (k : WDSPKernel α) (gain : α) : Option (WDSPKernel α) :=
  match k.processor with
  | none => some k
  | some p => (setMasterGainCall false p gain).map fun p1 => { k with processor := some p1 }

/-- The channel loop of a case of `WDSPKernel::applyPreset`. -/
def presetChannels (p : DuganProcessor α) (weightOf : Nat → α) (overrideOf : Nat → Bool) :
    DuganProcessor α :=
  (List.range kMaxChannels).foldl
    (fun q ch =>
      setChannelOverride (setChannelAutoEnabled (setChannelWeight q ch (weightOf ch)) ch true)
        ch (overrideOf ch))
    p

/-- The four global setter calls that close a case of `WDSPKernel::applyPreset`. -/
def presetGlobals (M : LibM α) (p : DuganProcessor α) (attack release threshold : α) :
    Option (DuganProcessor α) :=
  (setAttackTimeCall M false p attack).bind fun p1 =>
    (setReleaseTimeCall M false p1 release).bind fun p2 =>
      setMasterGainCall false (WDSP.setAdaptiveThreshold p2 threshold) 0

/-- The method `WDSPKernel::applyPreset`. -/
def WDSPKernel.applyPreset (M : LibM α) (k : WDSPKernel α) (presetIndex : Int) :
    Option (WDSPKernel α) :=
  match k.processor with
  | none => some k
  | some p =>
    let done : Option (DuganProcessor α) :=
      if presetIndex = 0 then
        presetGlobals M (presetChannels p (fun _ => 1) (fun _ => false)) 0.01 0.1 (-40)
      else if presetIndex = 1 then
        presetGlobals M (presetChannels p (fun _ => 1) (fun _ => false)) 0.005 0.05 (-45)
      else if presetIndex = 2 then
        presetGlobals M (presetChannels p (fun _ => 1) (fun _ => false)) 0.02 0.2 (-35)
      else if presetIndex = 3 then
        presetGlobals M
          (presetChannels p (fun ch => if ch = 0 then 1.5 else 0.8) (fun ch => ch = 0))
          0.01 0.15 (-40)
      else some p
    done.map fun p1 => { k with processor := some p1 }

/-- The method `WDSPKernel::setParameter`. -/
def WDSPKernel.setParameter (M : LibM α) (k : WDSPKernel α) (address : Nat) (value : α) :
    Option (WDSPKernel α) :=
  match k.processor with
  | none => some k
  | some p =>
    let channel := address / 5
    let param := address % 5
    if address ≥ 20 then
      if address = 20 then k.setMasterGain value
      else if address = 21 then k.setTimeConstants M (value * 1000) (-1)
      else if address = 22 then k.setTimeConstants M (-1) (value * 1000)
      else if address = 23 then some (k.setAdaptiveThreshold value)
      else if address = 24 then k.applyPreset M (truncToInt value)
      else some k
    else if channel ≥ kMaxChannels then some k
    else if param = 0 then some { k with processor := some (setChannelWeight p channel value) }
    else if param = 1 then
      some { k with processor := some (setChannelAutoEnabled p channel (decide (value ≥ 0.5))) }
    else if param = 2 then
      some { k with processor := some (setChannelOverride p channel (decide (value ≥ 0.5))) }
    else some k

/-- The method `WDSPKernel::getParameter`. -/
def WDSPKernel.getParameter (M : LibM α) (k : WDSPKernel α) (address : Nat) : α :=
  match k.processor with
  | none => 0
  | some p =>
    if address ≥ 20 then
      if address = 20 then getMasterGain p
      else if address = 21 then getAttackTime M p / 1000
      else if address = 22 then getReleaseTime M p / 1000
      else if address = 23 then getAdaptiveThreshold p
      else 0
    else
      let channel := address / 5
      let param := address % 5
      if channel ≥ kMaxChannels then 0
      else if param = 0 then getChannelWeight p channel
      else if param = 1 then (if isChannelAutoEnabled p channel then 1 else 0)
      else if param = 2 then (if isChannelOverride p channel then 1 else 0)
      else if param = 3 then getChannelInputLevel p channel
      else if param = 4 then getChannelGainReduction p channel
      else 0

/-- A kernel that owns the example processor. -/
def exampleKernel : WDSPKernel α :=
  { processor := some exampleProcessor, sampleRate := 48000, bypassState := false,
    dspLoad := 0, processingActive := false }

/-! ## Reachable states -/

/-- The states of a processor constructed with `sampleRate` and then driven by any
sequence of setter calls, `reset`, `setBypass` and `process` calls on blocks of at least
one sample; every call is made by a thread that does not own `processMutex`. -/
inductive Reachable (M : LibM α) (sampleRate : α) : DuganProcessor α → Prop
  | constructed : Reachable M sampleRate (construct M sampleRate)
  | afterSetChannelWeight {p : DuganProcessor α} (channel : Nat) (weight : α) :
      Reachable M sampleRate p → Reachable M sampleRate (setChannelWeight p channel weight)
  | afterSetChannelAutoEnabled {p : DuganProcessor α} (channel : Nat) (enabled : Bool) :
      Reachable M sampleRate p →
      Reachable M sampleRate (setChannelAutoEnabled p channel enabled)
  | afterSetChannelOverride {p : DuganProcessor α} (channel : Nat) (override : Bool) :
      Reachable M sampleRate p →
      Reachable M sampleRate (setChannelOverride p channel override)
  | afterSetAttackTime {p q : DuganProcessor α} (timeInSeconds : α) :
      Reachable M sampleRate p → setAttackTimeCall M false p timeInSeconds = some q →
      Reachable M sampleRate q
  | afterSetReleaseTime {p q : DuganProcessor α} (timeInSeconds : α) :
      Reachable M sampleRate p → setReleaseTimeCall M false p timeInSeconds = some q →
      Reachable M sampleRate q
  | afterSetSmoothingTime {p q : DuganProcessor α} (timeInSeconds : α) :
      Reachable M sampleRate p → setSmoothingTimeCall M false p timeInSeconds = some q →
      Reachable M sampleRate q
  | afterSetAdaptiveThreshold {p : DuganProcessor α} (threshold : α) :
      Reachable M sampleRate p → Reachable M sampleRate (setAdaptiveThreshold p threshold)
  | afterSetMasterGain {p q : DuganProcessor α} (gain : α) :
      Reachable M sampleRate p → setMasterGainCall false p gain = some q →
      Reachable M sampleRate q
  | afterReset {p q : DuganProcessor α} :
      Reachable M sampleRate p → resetCall false p = some q → Reachable M sampleRate q
  | afterSetBypass {p : DuganProcessor α} (bypass : Bool) :
      Reachable M sampleRate p → Reachable M sampleRate (setBypass p bypass)
  | afterProcess {p q : DuganProcessor α} (t : Target) (inputs outputs : Option (Buffers α))
      (numChannels numSamples : Nat) (duration : Int) (outputs1 : Option (Buffers α)) :
      Reachable M sampleRate p → 0 < numSamples →
      process t M p inputs outputs numChannels numSamples duration = .ok (q, outputs1) →
      Reachable M sampleRate q

/-- The ranges of the channel fields: weight in `[0, 10]`, input level and peak level in
`[-60, 0]`, smoothed gain at least `0`. -/
def Channel.InRange (c : Channel α) : Prop :=
  (0 ≤ c.weight ∧ c.weight ≤ 10) ∧ (-60 ≤ c.inputLevel ∧ c.inputLevel ≤ 0) ∧
    (-60 ≤ c.peakLevel ∧ c.peakLevel ≤ 0) ∧ 0 ≤ c.smoothedGain

/-- The scalar sample loop of the level update over the samples `lo, ..., lo + len - 1`,
continued from the accumulators `acc`. -/
def scanFrom (input : Nat → α) (lo len : Nat) (acc : α × α) : α × α :=
  ((List.range len).map (fun j => lo + j)).foldl
    (fun acc i => (acc.1 + input i * input i, max acc.2 |input i|))
    acc

/-- The method `getStatistics`. -/
def getStatistics (p : DuganProcessor α) : Statistics α := p.currentStats

/-- The method `getActiveChannelCount`. -/
def getActiveChannelCount (p : DuganProcessor α) : Int :=
  (List.finRange 4).foldl (fun count ch => if (p.channels ch).active then count + 1 else count) 0

/-- The method `getTotalWeightedLevel`. -/
def getTotalWeightedLevel (p : DuganProcessor α) : α := p.totalWeightedLevel

/-- The method `getMasterGainReduction`. -/
def getMasterGainReduction (p : DuganProcessor α) : α := p.masterGainReduction

/-- The value the running minimum `maxGainReduction` of the second loop of
`computeGains` ends with, for the gain reductions `g` of the channels below `n`. -/
def runningMin (g : Fin 4 → α) (n : Nat) : α :=
  (List.finRange 4).foldl (fun m ch => if ch.val < n then min m (g ch) else m) 0

/-- The method `WDSPKernel::initialize`: a new processor is constructed when the sample
rate differs from the stored one or the processor pointer is null, and the processor at
hand is re-initialised otherwise. -/
def WDSPKernel.initializeCall (M : LibM α) (k : WDSPKernel α) (sampleRate : α) :
    Option (WDSPKernel α) :=
  if k.sampleRate ≠ sampleRate ∨ k.processor.isNone = true then
    some { k with sampleRate := sampleRate, processor := some (construct M sampleRate) }
  else
    match k.processor with
    | none => some k
    | some p =>
      (WDSP.initializeCall M false p sampleRate).map fun p1 => { k with processor := some p1 }

/-- The method `WDSPKernel::getStatistics`: the entries of the map it returns. -/
def WDSPKernel.getStatistics (k : WDSPKernel α) : List (String × α) :=
  [("dsp_load", k.dspLoad), ("sample_rate", k.sampleRate)] ++
    match k.processor with
    | none => []
    | some p =>
      [("active_channels", ((getActiveChannelCount p : Int) : α)),
        ("master_reduction", getMasterGainReduction p),
        ("adaptive_threshold", getAdaptiveThreshold p),
        ("total_weighted_level", getTotalWeightedLevel p)] ++
      (List.range kMaxChannels).flatMap fun ch =>
        let stem := "ch" ++ toString (ch + 1) ++ "_"
        [(stem ++ "input", getChannelInputLevel p ch),
          (stem ++ "gain", getChannelGainReduction p ch),
          (stem ++ "weight", getChannelWeight p ch),
          (stem ++ "auto", if isChannelAutoEnabled p ch then 1 else 0),
          (stem ++ "override", if isChannelOverride p ch then 1 else 0),
          (stem ++ "peak", getChannelPeakLevel p ch)]

/-- A processor constructed at 48 kHz whose attack time is then set to 1 ms. -/
def fastAttackProcessor (M : LibM α) : DuganProcessor α :=
  setAttackTime M (construct M 48000) 0.001

/-- The example processor with channel 3 put in override. -/
def overrideThreeProcessor : DuganProcessor α := setChannelOverride exampleProcessor 3 true

/-- The body of the channel loop of `updateLevelsOptimized` for channel `ch`, with its
`threadLocalBuffer.resize`: a null input is skipped; otherwise the thread-local buffer
`s.2` is grown to `numSamples` elements when it is shorter, which can throw, and then the
channel is updated.  An exception carries the processor as it is when thrown. -/
def updateLevelsOptimizedStep (M : LibM α) (inputs : Buffers α) (numSamples : Nat)
    (s : DuganProcessor α × ThreadLocalBuffer) (ch : Fin 4) :
    Except (ProcessError × DuganProcessor α) (DuganProcessor α × ThreadLocalBuffer) :=
  match inputs ch.val with
  | none => .ok s
  | some _ =>
    if s.2.size < numSamples then
      match s.2.resize numSamples with
      | some e => .error (.resizeFailed e, s.1)
      | none =>
        .ok (updateLevelsStep scanOptimized M inputs numSamples s.1 ch,
          { s.2 with size := numSamples })
    else .ok (updateLevelsStep scanOptimized M inputs numSamples s.1 ch, s.2)

/-- The body of the loop `for (ch = 0; ch < numChannels; ++ch)` of
`updateLevelsOptimized`, for any `ch` below `kMaxChannels`. -/
def updateLevelsOptimizedLoop (M : LibM α) (inputs : Buffers α) (numChannels numSamples : Nat)
    (s : DuganProcessor α × ThreadLocalBuffer) (ch : Fin 4) :
    Except (ProcessError × DuganProcessor α) (DuganProcessor α × ThreadLocalBuffer) :=
  if ch.val < numChannels then updateLevelsOptimizedStep M inputs numSamples s ch else .ok s

/-- A call of `updateLevelsOptimized` on a thread with the thread-local buffer `buffer`. -/
def updateLevelsOptimizedCall (M : LibM α) (p : DuganProcessor α) (buffer : ThreadLocalBuffer)
    (inputs : Buffers α) (numChannels numSamples : Nat) :
    Except (ProcessError × DuganProcessor α) (DuganProcessor α × ThreadLocalBuffer) :=
  (List.finRange 4).foldlM (updateLevelsOptimizedLoop M inputs numChannels numSamples)
    (p, buffer)

/-- The statements of `process` that follow the level update: gain computation, gain
application and the load metric. -/
def processFinish (t : Target) (M : LibM α) (p1 : DuganProcessor α) (ins outs : Buffers α)
    (numChannels numSamples : Nat) (duration : Int) : DuganProcessor α × Option (Buffers α) :=
  let p2 := computeGains M p1 numChannels
  let outs1 := applyGains t p2 ins outs numChannels numSamples
  let processingTimeMs : α := (duration : α) / 1000
  let bufferTimeMs : α := ((numSamples : α) / p2.sampleRate) * 1000
  let loadPercentage := (processingTimeMs / bufferTimeMs) * 100
  ({ p2 with
      processingLoad := loadPercentage
      currentStats := { p2.currentStats with processingLoad := loadPercentage } },
    some outs1)

/-- A call of the method `process` on a thread with the thread-local buffer `buffer`:
the statements of `process`, with the `threadLocalBuffer.resize` of
`updateLevelsOptimized` on a `HAVE_SIMD` build.  The result is the processor, the output
buffers and the thread-local buffer afterwards; an exception carries the processor as it
is when thrown. -/
def processCall (t : Target) (M : LibM α) (buffer : ThreadLocalBuffer) (p : DuganProcessor α)
    (inputs outputs : Option (Buffers α)) (numChannels numSamples : Nat) (duration : Int) :
    Except (ProcessError × DuganProcessor α)
      ((DuganProcessor α × Option (Buffers α)) × ThreadLocalBuffer) :=
  if p.bypassEnabled then
    if numChannels = 0 then .ok ((p, outputs), buffer)
    else
      match inputs, outputs with
      | some ins, some outs =>
        .ok ((p, some (bypassCopy ins outs numChannels numSamples)), buffer)
      | _, _ => .error (.nullArrayAccess, p)
  else
    match inputs, outputs with
    | some ins, some outs =>
      let numChannels := min numChannels kMaxChannels
      if numChannels = 0 ∨ numSamples = 0 then .ok ((p, some outs), buffer)
      else if t.haveSimd then
        match updateLevelsOptimizedCall M p buffer ins numChannels numSamples with
        | .error e => .error e
        | .ok r => .ok (processFinish t M r.1 ins outs numChannels numSamples duration, r.2)
      else
        .ok (processFinish t M (updateLevels M p ins numChannels numSamples) ins outs
          numChannels numSamples duration, buffer)
    | _, _ => .error (.invalidArgument, p)

/-- A build with SSE and none of the other vector instruction sets. -/
def sseTarget : Target := { armNeon := false, sse := true, avx := false, apple := false }

/-- An empty thread-local buffer on a thread where every allocation fails. -/
def exhaustedBuffer : ThreadLocalBuffer := { size := 0, resize := fun _ => some .badAlloc }

/-! ## Binary32 arithmetic

The definitions above take `float` operations as exact.  The definitions below render
the two places where the rounding of the operations decides a claim, `smoothGain` and the
statistics of `computeGains`, with every operation rounded to the nearest binary32
value (IEEE 754 round to nearest, ties to even; no fused multiply-add).  Values are
rationals; overflow to infinity is not modelled. -/

/-- The integer nearest to `x`, the even one of the two when `x` is half-way. -/
def roundHalfEven (x : ℚ) : ℤ :=
  if x - ⌊x⌋ < 1 / 2 then ⌊x⌋
  else if 1 / 2 < x - ⌊x⌋ then ⌊x⌋ + 1
  else if ⌊x⌋ % 2 = 0 then ⌊x⌋ else ⌊x⌋ + 1

/-- The binary32 value nearest to `x`: 24 significant bits, exponent at least `-126`
(below it the spacing is that of the subnormal numbers). -/
def roundF32 (x : ℚ) : ℚ :=
  if x = 0 then 0
  else (roundHalfEven (x / 2 ^ (max (Int.log 2 |x|) (-126) - 23)) : ℚ) *
    2 ^ (max (Int.log 2 |x|) (-126) - 23)

/-- The statistic `averageGainReduction` of `computeGains` in binary32, for the clamped
gain reductions `g` of the processed channels in loop order:
`totalGainReduction += clampedGainReduction` for each, then
`totalGainReduction / numChannels`. -/
def averageGainReduction32 (g : List ℚ) : ℚ :=
  roundF32 (g.foldl (fun total x => roundF32 (total + x)) 0 / (g.length : ℚ))

/-- The statistic `peakGainReduction` of `computeGains`, for the clamped gain reductions
`g` of the processed channels: `maxGainReduction = std::min(maxGainReduction, ...)` from
`0.0f` (no rounding is involved). -/
def peakGainReduction32 (g : List ℚ) : ℚ :=
  g.foldl (fun m x => min m x) 0

end Code

/-! ## Lemmas on the gain computation -/

section GainLemmas

set_option linter.unusedSectionVars false

variable {α : Type} [LinearOrderedField α]

theorem kMinLevel_pos : (0 : α) < kMinLevel := by
  unfold kMinLevel; norm_num

theorem clamp_eq_max_min (v lo hi : α) (h : lo ≤ hi) : clamp v lo hi = max lo (min v hi) := by
  unfold clamp
  split_ifs with h1 h2
  · rw [max_eq_left]; exact le_trans (min_le_left _ _) h1.le
  · rw [min_eq_right h2.le, max_eq_right h]
  · push_neg at h1 h2
    rw [min_eq_left h2, max_eq_right h1]

theorem clamp_mem (v lo hi : α) (h : lo ≤ hi) : lo ≤ clamp v lo hi ∧ clamp v lo hi ≤ hi := by
  unfold clamp
  split_ifs with h1 h2
  · exact ⟨le_refl _, h⟩
  · exact ⟨h, le_refl _⟩
  · push_neg at h1 h2
    exact ⟨h1, h2⟩

/-- The first loop of `computeGains` over any list of channels. -/
theorem firstPass_foldl (M : LibM α) (p : DuganProcessor α) (n : Nat) (l : List (Fin 4))
    (t : GainTotals α) :
    l.foldl
      (fun t ch =>
        if ch.val < n then
          let channel := p.channels ch
          let t1 := if channel.overrideEnabled then { t with anyOverride := true } else t
          if channel.autoEnabled then
            let linearLevel := M.pow 10 (channel.inputLevel / 20)
            { t1 with
              totalWeightedLevel := t1.totalWeightedLevel + linearLevel * channel.weight
              activeChannelCount :=
                if channel.inputLevel > p.adaptiveThreshold then t1.activeChannelCount + 1
                else t1.activeChannelCount }
          else t1
        else t) t =
    { totalWeightedLevel := t.totalWeightedLevel +
        (l.map (fun ch => if ch.val < n ∧ (p.channels ch).autoEnabled = true then
          M.pow 10 ((p.channels ch).inputLevel / 20) * (p.channels ch).weight else 0)).sum
      activeChannelCount := t.activeChannelCount +
        (l.map (fun ch => if ch.val < n ∧ (p.channels ch).autoEnabled = true ∧
          p.adaptiveThreshold < (p.channels ch).inputLevel then (1 : Int) else 0)).sum
      anyOverride := t.anyOverride || l.any (fun ch => decide (ch.val < n) && (p.channels ch).overrideEnabled) } := by
  induction l generalizing t with
  | nil => simp
  | cons a l ih =>
    rw [List.foldl_cons, ih]
    by_cases hn : a.val < n <;> by_cases ho : (p.channels a).overrideEnabled = true <;>
      by_cases ha : (p.channels a).autoEnabled = true <;>
      by_cases hl : p.adaptiveThreshold < (p.channels a).inputLevel <;>
      simp [hn, ho, ha, hl, add_assoc]

/-- The second loop of `computeGains` over any duplicate-free list of channels: each
listed channel below `n` is rewritten once, from its own previous value. -/
theorem secondPass_foldl (M : LibM α) (ao : Bool) (n : Nat) (l : List (Fin 4))
    (hl : l.Nodup) (q : GainPass α) :
    (l.foldl (fun q ch => if ch.val < n then computeGainsStep M ao q ch else q) q).proc =
      { q.proc with channels := fun ch =>
          if ch ∈ l ∧ ch.val < n then updateChannelGain M q.proc ao (q.proc.channels ch)
          else q.proc.channels ch } := by
  induction l generalizing q with
  | nil => simp
  | cons a l ih =>
    rw [List.foldl_cons, ih (List.nodup_cons.mp hl).2]
    have hal : a ∉ l := (List.nodup_cons.mp hl).1
    by_cases hn : a.val < n
    · simp only [hn, if_true, computeGainsStep]
      congr 1
      funext ch
      by_cases hca : ch = a
      · subst hca
        simp [hal, hn]
      · by_cases hcl : ch ∈ l
        · simp [hcl, hca, Function.update_noteq, updateChannelGain, targetGain]
        · simp [hcl, hca, Function.update_noteq]
    · simp only [hn, if_false]
      congr 1
      funext ch
      by_cases hca : ch = a
      · subst hca
        simp [hal, hn]
      · simp [hca]

theorem secondPass_proc (M : LibM α) (ao : Bool) (p : DuganProcessor α) (n : Nat) :
    (computeGainsSecondPass M ao p n).proc =
      { p with channels := fun ch =>
          if ch.val < n then updateChannelGain M p ao (p.channels ch) else p.channels ch } := by
  unfold computeGainsSecondPass
  rw [secondPass_foldl M ao n _ (List.nodup_finRange 4)]
  simp

theorem firstPass_eq (M : LibM α) (p : DuganProcessor α) (n : Nat) :
    computeGainsFirstPass M p n =
      { totalWeightedLevel := weightedLevelSum M p n
        activeChannelCount := (activeCount p n : Int)
        anyOverride := anyOverrideIn p n } := by
  unfold computeGainsFirstPass
  rw [firstPass_foldl]
  congr 1
  · simp [weightedLevelSum, Fin.sum_univ_def]
  · rw [zero_add, activeCount, Finset.card_filter, Nat.cast_sum, Fin.sum_univ_def]
    congr 1
    apply List.map_congr_left
    intro ch _
    split_ifs <;> simp
  · simp only [Bool.false_or, anyOverrideIn]
    rw [Bool.eq_iff_iff]
    simp [List.any_eq_true]

theorem computeGains_channels (M : LibM α) (p : DuganProcessor α) (n : Nat) (ch : Fin 4) :
    (computeGains M p n).channels ch =
      if ch.val < n then
        updateChannelGain M (afterFirstPass M p n) (anyOverrideIn p n) (p.channels ch)
      else p.channels ch := by
  simp only [computeGains, secondPass_proc, firstPass_eq, afterFirstPass]


theorem computeGains_scalars (M : LibM α) (p : DuganProcessor α) (n : Nat) :
    (computeGains M p n).totalWeightedLevel = max (weightedLevelSum M p n) kMinLevel ∧
    (computeGains M p n).activeChannelCount = (activeCount p n : Int) ∧
    (computeGains M p n).masterGain = p.masterGain ∧
    (computeGains M p n).smoothingCoeff = p.smoothingCoeff ∧
    (computeGains M p n).adaptiveThreshold = p.adaptiveThreshold ∧
    (computeGains M p n).bypassEnabled = p.bypassEnabled ∧
    (computeGains M p n).attackCoeff = p.attackCoeff ∧
    (computeGains M p n).releaseCoeff = p.releaseCoeff ∧
    (computeGains M p n).sampleRate = p.sampleRate := by
  simp [computeGains, secondPass_proc, firstPass_eq]

theorem targetGain_congr (M : LibM α) (p q : DuganProcessor α) (ao : Bool) (c : Channel α)
    (h1 : p.totalWeightedLevel = q.totalWeightedLevel)
    (h2 : p.activeChannelCount = q.activeChannelCount)
    (h3 : p.masterGain = q.masterGain) :
    targetGain M p ao c = targetGain M q ao c := by
  simp only [targetGain, h1, h2, h3]

theorem SameConfig.refl (p : DuganProcessor α) : SameConfig p p :=
  ⟨rfl, rfl, rfl, rfl, rfl, rfl, rfl, fun _ => rfl, fun _ => rfl, fun _ => rfl, fun _ => rfl⟩

theorem SameConfig.trans {p q r : DuganProcessor α} (h1 : SameConfig p q)
    (h2 : SameConfig q r) : SameConfig p r :=
  ⟨h2.1.trans h1.1, h2.2.trans h1.2, h2.3.trans h1.3, h2.4.trans h1.4, h2.5.trans h1.5,
   h2.6.trans h1.6, h2.7.trans h1.7, fun ch => (h2.8 ch).trans (h1.8 ch),
   fun ch => (h2.9 ch).trans (h1.9 ch), fun ch => (h2.10 ch).trans (h1.10 ch),
   fun ch => (h2.11 ch).trans (h1.11 ch)⟩

theorem updateChannelGain_frame (M : LibM α) (p : DuganProcessor α) (ao : Bool)
    (c : Channel α) :
    (updateChannelGain M p ao c).weight = c.weight ∧
    (updateChannelGain M p ao c).autoEnabled = c.autoEnabled ∧
    (updateChannelGain M p ao c).overrideEnabled = c.overrideEnabled ∧
    (updateChannelGain M p ao c).active = c.active ∧
    (updateChannelGain M p ao c).inputLevel = c.inputLevel ∧
    (updateChannelGain M p ao c).peakLevel = c.peakLevel ∧
    (updateChannelGain M p ao c).peakHoldCounter = c.peakHoldCounter ∧
    (updateChannelGain M p ao c).envelope = c.envelope ∧
    (updateChannelGain M p ao c).lastRMS = c.lastRMS :=
  ⟨rfl, rfl, rfl, rfl, rfl, rfl, rfl, rfl, rfl⟩

theorem computeGains_sameConfig (M : LibM α) (p : DuganProcessor α) (n : Nat) :
    SameConfig p (computeGains M p n) := by
  obtain ⟨-, -, h3, h4, h5, h6, h7, h8, h9⟩ := computeGains_scalars M p n
  refine ⟨h5, h3, h6, h7, h8, h4, h9, ?_, ?_, ?_, ?_⟩ <;> intro ch <;>
    rw [computeGains_channels] <;> split_ifs <;> rfl

theorem updateChannelGain_smoothedGain (M : LibM α) (p : DuganProcessor α) (ao : Bool)
    (c : Channel α) :
    (updateChannelGain M p ao c).smoothedGain =
      smoothGain c.smoothedGain (targetGain M p ao c) p.smoothingCoeff := rfl

theorem anyOverrideIn_eq_false (p : DuganProcessor α) (n : Nat)
    (hno : ∀ ch : Fin 4, ch.val < n → (p.channels ch).overrideEnabled = false) :
    anyOverrideIn p n = false := by
  unfold anyOverrideIn
  rw [decide_eq_false_iff_not]
  rintro ⟨ch, h1, h2⟩
  rw [hno ch h1] at h2
  exact Bool.false_ne_true h2

theorem anyOverrideIn_eq_true (p : DuganProcessor α) (n : Nat)
    (hany : ∃ ch : Fin 4, ch.val < n ∧ (p.channels ch).overrideEnabled = true) :
    anyOverrideIn p n = true := by
  unfold anyOverrideIn
  exact decide_eq_true hany

/-- The target gain the second loop computes for a processed channel, and the smoothed
gain it stores. -/
theorem computeGains_smoothedGain (M : LibM α) (p : DuganProcessor α) (n : Nat) (c : Fin 4)
    (hc : c.val < n) :
    targetGain M (computeGains M p n) (computeGainsFirstPass M p n).anyOverride (p.channels c) =
      targetGain M (afterFirstPass M p n) (anyOverrideIn p n) (p.channels c) ∧
    ((computeGains M p n).channels c).smoothedGain =
      smoothGain (p.channels c).smoothedGain
        (targetGain M (afterFirstPass M p n) (anyOverrideIn p n) (p.channels c))
        p.smoothingCoeff := by
  obtain ⟨h1, h2, h3, -⟩ := computeGains_scalars M p n
  constructor
  · rw [firstPass_eq]
    exact targetGain_congr M _ _ _ _ h1 h2 h3
  · rw [computeGains_channels, if_pos hc, updateChannelGain_smoothedGain]
    rfl

/-- C1. In `computeGains`, when no processed channel has `overrideEnabled`, an
auto-enabled processed channel `c` gets the target gain `sqrt(L_c * w_c / T) * k * M`,
where `L_c = 10^(inputLevel_c / 20)`, `w_c` is its weight, `T` is the sum of `L * w`
over the auto-enabled processed channels floored at `1e-6`, `k` is `0.9` when more than
one auto-enabled processed channel is above the adaptive threshold and `1` otherwise,
and `M = 10^(masterGain / 20)`.  `T` is strictly positive, it is what the method leaves
in `totalWeightedLevel`, and the channel's smoothed gain moves from its previous value
towards that target. -/
theorem computeGains_auto_target (M : LibM α) (p : DuganProcessor α) (n : Nat) (c : Fin 4)
    (hc : c.val < n)
    (hno : ∀ ch : Fin 4, ch.val < n → (p.channels ch).overrideEnabled = false)
    (hauto : (p.channels c).autoEnabled = true) :
    let L : Fin 4 → α := fun ch => M.pow 10 ((p.channels ch).inputLevel / 20)
    let T : α := max (∑ ch : Fin 4,
      if ch.val < n ∧ (p.channels ch).autoEnabled = true then L ch * (p.channels ch).weight
      else 0) 1e-6
    let k : α := if 1 < (Finset.univ.filter (fun ch : Fin 4 =>
      ch.val < n ∧ (p.channels ch).autoEnabled = true ∧
        p.adaptiveThreshold < (p.channels ch).inputLevel)).card then 0.9 else 1
    let Mg : α := M.pow 10 (p.masterGain / 20)
    let g : α := M.sqrt (L c * (p.channels c).weight / T) * k * Mg
    0 < T ∧
    (computeGains M p n).totalWeightedLevel = T ∧
    targetGain M (computeGains M p n) (computeGainsFirstPass M p n).anyOverride
      (p.channels c) = g ∧
    ((computeGains M p n).channels c).smoothedGain =
      smoothGain (p.channels c).smoothedGain g p.smoothingCoeff := by
  intro L T k Mg g
  have hT : (0 : α) < T := lt_of_lt_of_le (by norm_num) (le_max_right _ _)
  have hg : targetGain M (afterFirstPass M p n) (anyOverrideIn p n) (p.channels c) = g := by
    rw [anyOverrideIn_eq_false p n hno]
    simp only [targetGain, hauto, afterFirstPass, weightedLevelSum, activeCount, kMinLevel,
      Bool.false_eq_true, if_false, Bool.not_true, Nat.one_lt_cast]
    split_ifs <;> simp [g, k, T, L, *]
  obtain ⟨h1, h2⟩ := computeGains_smoothedGain M p n c hc
  refine ⟨hT, ?_, ?_, ?_⟩
  · exact (computeGains_scalars M p n).1
  · rw [h1, hg]
  · rw [h2, hg]


/-- C2. In `computeGains`, when some processed channel has `overrideEnabled`, a
processed channel in override gets the target gain `1.0 * M` and any other processed
channel gets `0.1 * M`, with `M = 10^(masterGain / 20)`, whatever its level, weight and
`autoEnabled` flag are: the override test comes before the auto/manual test. -/
theorem computeGains_override_target (M : LibM α) (p : DuganProcessor α) (n : Nat) (c : Fin 4)
    (hc : c.val < n)
    (hany : ∃ ch : Fin 4, ch.val < n ∧ (p.channels ch).overrideEnabled = true) :
    let Mg : α := M.pow 10 (p.masterGain / 20)
    let g : α := if (p.channels c).overrideEnabled = true then 1.0 * Mg else 0.1 * Mg
    targetGain M (computeGains M p n) (computeGainsFirstPass M p n).anyOverride
      (p.channels c) = g ∧
    ((computeGains M p n).channels c).smoothedGain =
      smoothGain (p.channels c).smoothedGain g p.smoothingCoeff := by
  intro Mg g
  have hg : targetGain M (afterFirstPass M p n) (anyOverrideIn p n) (p.channels c) = g := by
    rw [anyOverrideIn_eq_true p n hany]
    simp only [targetGain, afterFirstPass, if_true, g, Mg]
    split_ifs <;> norm_num
  obtain ⟨h1, h2⟩ := computeGains_smoothedGain M p n c hc
  exact ⟨by rw [h1, hg], by rw [h2, hg]⟩

theorem targetGain_manual (M : LibM α) (p : DuganProcessor α) (c : Channel α)
    (hman : c.autoEnabled = false) :
    targetGain M p false c = M.pow 10 (p.masterGain / 20) := by
  simp [targetGain, hman]

/-- The target gain of an auto-enabled channel when no processed channel is in
override. -/
theorem targetGain_auto (M : LibM α) (p : DuganProcessor α) (n : Nat) (c : Channel α)
    (hauto : c.autoEnabled = true) :
    targetGain M (afterFirstPass M p n) false c =
      M.sqrt (M.pow 10 (c.inputLevel / 20) * c.weight /
          max (weightedLevelSum M p n) kMinLevel) *
        (if 1 < activeCount p n then 0.9 else 1) * M.pow 10 (p.masterGain / 20) := by
  simp only [targetGain, hauto, afterFirstPass, Bool.false_eq_true, if_false, Bool.not_true,
    Nat.one_lt_cast]
  split_ifs <;> simp

theorem card_below (N : Nat) (hN : N ≤ 4) :
    (Finset.univ.filter (fun ch : Fin 4 => ch.val < N)).card = N := by
  interval_cases N <;> decide

/-- The weighted level sum of `N` auto-enabled channels at one level and weight. -/
theorem weightedLevelSum_equal (M : LibM α) (p : DuganProcessor α) (N : Nat) (lvl w : α)
    (hN : N ≤ 4)
    (h : ∀ ch : Fin 4, ch.val < N → (p.channels ch).autoEnabled = true ∧
      (p.channels ch).inputLevel = lvl ∧ (p.channels ch).weight = w) :
    weightedLevelSum M p N = N * (M.pow 10 (lvl / 20) * w) := by
  unfold weightedLevelSum
  have : ∀ ch : Fin 4, (if ch.val < N ∧ (p.channels ch).autoEnabled = true then
      M.pow 10 ((p.channels ch).inputLevel / 20) * (p.channels ch).weight else 0) =
      if ch.val < N then M.pow 10 (lvl / 20) * w else 0 := by
    intro ch
    by_cases hch : ch.val < N
    · obtain ⟨h1, h2, h3⟩ := h ch hch
      simp [hch, h1, h2, h3]
    · simp [hch]
  simp only [this]
  rw [← Finset.sum_filter, Finset.sum_const, card_below N hN, nsmul_eq_mul]

theorem activeCount_equal (p : DuganProcessor α) (N : Nat) (lvl : α) (hN : N ≤ 4)
    (h : ∀ ch : Fin 4, ch.val < N → (p.channels ch).autoEnabled = true ∧
      (p.channels ch).inputLevel = lvl) :
    activeCount p N = if p.adaptiveThreshold < lvl then N else 0 := by
  unfold activeCount
  have : (Finset.univ.filter (fun ch : Fin 4 => ch.val < N ∧
      (p.channels ch).autoEnabled = true ∧ p.adaptiveThreshold < (p.channels ch).inputLevel)) =
      if p.adaptiveThreshold < lvl then Finset.univ.filter (fun ch : Fin 4 => ch.val < N)
      else ∅ := by
    ext ch
    by_cases hch : ch.val < N
    · obtain ⟨h1, h2⟩ := h ch hch
      split_ifs with hl <;> simp [hch, h1, h2, hl]
    · split_ifs <;> simp [hch]
  rw [this]
  split_ifs
  · exact card_below N hN
  · rfl

theorem foldl_update_scale (input : Nat → α) (g : α) (l : List Nat) (out : Nat → α)
    (j : Nat) :
    (l.foldl (fun out i => Function.update out i (input i * g)) out) j =
      if j ∈ l then input j * g else out j := by
  induction l generalizing out with
  | nil => simp
  | cons a l ih =>
    rw [List.foldl_cons, ih]
    by_cases hjl : j ∈ l
    · simp [hjl]
    · by_cases hja : j = a
      · subst hja
        simp [hjl]
      · simp [hjl, hja, Function.update_noteq hja]

theorem scaleFrom_apply (lo : Nat) (input output : Nat → α) (g : α) (B j : Nat) :
    scaleFrom lo input output g B j =
      if lo ≤ j ∧ j < B then input j * g else output j := by
  unfold scaleFrom
  rw [foldl_update_scale]
  have : j ∈ List.map (fun k => lo + k) (List.range (B - lo)) ↔ lo ≤ j ∧ j < B := by
    simp only [List.mem_map, List.mem_range]
    constructor
    · rintro ⟨k, hk, rfl⟩
      omega
    · rintro ⟨h1, h2⟩
      exact ⟨j - lo, by omega, by omega⟩
  simp only [this]

theorem scaleVectors_foldl (vs : Nat) (input output : Nat → α) (g : α) (m j : Nat) :
    ((List.range m).foldl
      (fun out k =>
        let i := k * vs
        fun j => if i ≤ j ∧ j < i + vs then input j * g else out j)
      output) j = if j < m * vs then input j * g else output j := by
  induction m generalizing j with
  | zero => simp
  | succ m ih =>
    rw [List.range_succ, List.foldl_append, List.foldl_cons, List.foldl_nil]
    simp only
    rw [ih]
    have hm : (m + 1) * vs = m * vs + vs := by ring
    by_cases h1 : j < m * vs
    · have h2 : j < (m + 1) * vs := by omega
      have h3 : ¬ (m * vs ≤ j ∧ j < m * vs + vs) := by omega
      simp [h1, h2, h3]
    · by_cases h2 : j < (m + 1) * vs
      · have h3 : m * vs ≤ j ∧ j < m * vs + vs := by omega
        simp [h2, h3]
      · have h3 : ¬ (m * vs ≤ j ∧ j < m * vs + vs) := by omega
        simp [h1, h2, h3]

/-- A vectorised sample kernel writes what the scalar loop writes. -/
theorem scaleVectorised_eq (vs : Nat) (input output : Nat → α) (g : α) (B : Nat) :
    scaleVectorised vs input output g B = scaled input output g B := by
  funext j
  unfold scaleVectorised scaled
  rw [scaleFrom_apply]
  unfold scaleVectors
  rw [scaleVectors_foldl]
  have hle : B / vs * vs ≤ B := Nat.div_mul_le_self B vs
  by_cases h1 : j < B / vs * vs
  · have h2 : j < B := by omega
    have h3 : ¬ (B / vs * vs ≤ j ∧ j < B) := by omega
    simp [h1, h2, h3]
  · by_cases h2 : j < B
    · have h3 : B / vs * vs ≤ j ∧ j < B := by omega
      simp [h2, h3]
    · have h3 : ¬ (B / vs * vs ≤ j ∧ j < B) := by omega
      simp [h1, h2, h3]

theorem scaleFrom_zero_eq (input output : Nat → α) (g : α) (B : Nat) :
    scaleFrom 0 input output g B = scaled input output g B := by
  funext j
  rw [scaleFrom_apply]
  simp [scaled]

theorem applyGainsStep_eq (kernel : (Nat → α) → (Nat → α) → α → Nat → Nat → α)
    (p : DuganProcessor α) (inputs : Buffers α) (B : Nat) (outs : Buffers α) (ch : Fin 4) :
    applyGainsStep kernel p inputs B outs ch =
      Function.update outs ch.val (gainedCell kernel p inputs outs B ch) := by
  unfold applyGainsStep gainedCell
  cases inputs ch.val <;> cases hout : outs ch.val <;> simp [← hout]

theorem gainedCell_congr (kernel : (Nat → α) → (Nat → α) → α → Nat → Nat → α)
    (p : DuganProcessor α) (inputs outs outs1 : Buffers α) (B : Nat) (ch : Fin 4)
    (h : outs ch.val = outs1 ch.val) :
    gainedCell kernel p inputs outs B ch = gainedCell kernel p inputs outs1 B ch := by
  unfold gainedCell
  rw [h]

/-- The channel loop of `applyGains` over any duplicate-free list of channels. -/
theorem applyGains_foldl (kernel : (Nat → α) → (Nat → α) → α → Nat → Nat → α)
    (p : DuganProcessor α) (inputs : Buffers α) (n B : Nat) (l : List (Fin 4))
    (hl : l.Nodup) (outputs : Buffers α) (i : Nat) :
    (l.foldl
      (fun outs ch => if ch.val < n then applyGainsStep kernel p inputs B outs ch else outs)
      outputs) i =
    if h : i < 4 then
      if (⟨i, h⟩ : Fin 4) ∈ l ∧ i < n then gainedCell kernel p inputs outputs B ⟨i, h⟩
      else outputs i
    else outputs i := by
  induction l generalizing outputs with
  | nil => simp
  | cons a l ih =>
    rw [List.foldl_cons, ih (List.nodup_cons.mp hl).2]
    have hal : a ∉ l := (List.nodup_cons.mp hl).1
    by_cases hi : i < 4
    · simp only [hi, dite_true, List.mem_cons]
      by_cases hia : (⟨i, hi⟩ : Fin 4) = a
      · subst hia
        simp only [hal, false_and, if_false, true_or, true_and]
        by_cases hn : i < n
        · simp [hn, applyGainsStep_eq]
        · simp only [hn, if_false]
      · have hne : i ≠ a.val := fun h => hia (Fin.ext h)
        simp only [hia, false_or]
        by_cases hn : a.val < n
        · simp only [hn, if_true, applyGainsStep_eq, Function.update_noteq hne]
          split_ifs
          · apply gainedCell_congr
            exact Function.update_noteq hne _ _
          · rfl
        · simp only [hn, if_false]
    · simp only [hi, dite_false]
      have hne : i ≠ a.val := fun h => hi (h ▸ a.isLt)
      by_cases hn : a.val < n
      · simp only [hn, if_true, applyGainsStep_eq, Function.update_noteq hne]
      · simp only [hn, if_false]

theorem applyGainsWith_apply (kernel : (Nat → α) → (Nat → α) → α → Nat → Nat → α)
    (p : DuganProcessor α) (inputs outputs : Buffers α) (n B : Nat) (i : Nat) :
    applyGainsWith kernel p inputs outputs n B i =
      if h : i < 4 then
        if i < n then gainedCell kernel p inputs outputs B ⟨i, h⟩ else outputs i
      else outputs i := by
  unfold applyGainsWith
  rw [applyGains_foldl kernel p inputs n B _ (List.nodup_finRange 4)]
  simp

/-- Every build of `applyGains` runs the channel loop with a kernel that writes what
the scalar loop writes. -/
theorem applyGains_apply (t : Target) (p : DuganProcessor α) (inputs outputs : Buffers α)
    (n B : Nat) (i : Nat) :
    applyGains t p inputs outputs n B i =
      if h : i < 4 then
        if i < n then gainedCell scaled p inputs outputs B ⟨i, h⟩ else outputs i
      else outputs i := by
  have h0 : scaleFrom 0 = (scaled : (Nat → α) → (Nat → α) → α → Nat → Nat → α) := by
    funext input output g B
    exact scaleFrom_zero_eq input output g B
  have h8 : scaleVectorised 8 = (scaled : (Nat → α) → (Nat → α) → α → Nat → Nat → α) := by
    funext input output g B
    exact scaleVectorised_eq 8 input output g B
  have h4 : scaleVectorised 4 = (scaled : (Nat → α) → (Nat → α) → α → Nat → Nat → α) := by
    funext input output g B
    exact scaleVectorised_eq 4 input output g B
  unfold applyGains applyGainsOptimized applyGainsRegular
  simp only [h0, h8, h4, ite_self]
  exact applyGainsWith_apply scaled p inputs outputs n B i

theorem bypassStep_eq (inputs : Buffers α) (B : Nat) (outs : Buffers α) (ch : Nat) :
    bypassStep inputs B outs ch = Function.update outs ch (copiedCell inputs outs B ch) := by
  unfold bypassStep copiedCell
  cases inputs ch <;> cases hout : outs ch <;> simp [← hout]

/-- The bypass loop of `process`. -/
theorem bypassCopy_apply (inputs outputs : Buffers α) (n B : Nat) (i : Nat) :
    bypassCopy inputs outputs n B i =
      if i < n then copiedCell inputs outputs B i else outputs i := by
  unfold bypassCopy
  induction n with
  | zero => simp
  | succ n ih =>
    rw [List.range_succ, List.foldl_append, List.foldl_cons, List.foldl_nil, bypassStep_eq]
    by_cases hin : i = n
    · subst hin
      simp only [Function.update_same, Nat.lt_succ_self, if_true]
      unfold copiedCell
      rw [ih]
      simp
    · rw [Function.update_noteq hin, ih]
      by_cases h1 : i < n
      · simp [h1, Nat.lt_succ_of_lt h1]
      · have h2 : ¬ i < n + 1 := by omega
        simp [h1, h2]

/-- The scalar sample loop accumulates the sum of the squares and the largest
magnitude. -/
theorem scanScalar_fst (input : Nat → α) (B : Nat) :
    (scanScalar input B).1 = ∑ i in Finset.range B, input i ^ 2 := by
  unfold scanScalar
  induction B with
  | zero => simp
  | succ B ih =>
    rw [List.range_succ, List.foldl_append, List.foldl_cons, List.foldl_nil,
      Finset.sum_range_succ]
    simp only
    rw [ih]
    ring

theorem computeEnvelope_between (rms env c : α) (h0 : 0 ≤ c) (h1 : c ≤ 1) :
    min env rms ≤ computeEnvelope rms env c ∧ computeEnvelope rms env c ≤ max env rms := by
  unfold computeEnvelope
  have h2 : 0 ≤ 1 - c := by linarith
  constructor
  · have a1 : min env rms * c ≤ env * c := mul_le_mul_of_nonneg_right (min_le_left _ _) h0
    have a2 : min env rms * (1 - c) ≤ rms * (1 - c) :=
      mul_le_mul_of_nonneg_right (min_le_right _ _) h2
    linarith
  · have a1 : env * c ≤ max env rms * c := mul_le_mul_of_nonneg_right (le_max_left _ _) h0
    have a2 : rms * (1 - c) ≤ max env rms * (1 - c) :=
      mul_le_mul_of_nonneg_right (le_max_right _ _) h2
    linarith

/-- A scalar sample loop over cells that all hold zero leaves the peak at zero. -/
theorem scan_foldl_silent (input : Nat → α) (l : List Nat) (h : ∀ i ∈ l, input i = 0)
    (s : α) :
    (l.foldl
      (fun (acc : α × α) i => (acc.1 + input i * input i, max acc.2 |input i|))
      (s, 0)).2 = 0 := by
  induction l generalizing s with
  | nil => rfl
  | cons a l ih =>
    rw [List.foldl_cons]
    have ha : input a = 0 := h a (List.mem_cons_self a l)
    simp only [ha, abs_zero, max_self, mul_zero, add_zero]
    exact ih (fun i hi => h i (List.mem_cons_of_mem a hi)) s

theorem scanScalar_silent (input : Nat → α) (B : Nat) (h : ∀ i, i < B → input i = 0) :
    (scanScalar input B).2 = 0 := by
  unfold scanScalar
  exact scan_foldl_silent input _ (fun i hi => h i (List.mem_range.mp hi)) 0

theorem scanVectorLoop_foldl_silent (input : Nat → α) (l : List Nat)
    (h : ∀ k ∈ l, ∀ j : Fin 4, input (4 * k + j.val) = 0) (s : Fin 4 → α) :
    (l.foldl
      (fun (acc : (Fin 4 → α) × (Fin 4 → α)) k =>
        let i := 4 * k
        (fun j => acc.1 j + input (i + j.val) * input (i + j.val),
         fun j => max (acc.2 j) |input (i + j.val)|))
      (s, fun _ => 0)).2 = fun _ => 0 := by
  induction l generalizing s with
  | nil => rfl
  | cons a l ih =>
    rw [List.foldl_cons]
    have ha : ∀ j : Fin 4, input (4 * a + j.val) = 0 := h a (List.mem_cons_self a l)
    simp only [ha, abs_zero, max_self, mul_zero, add_zero]
    exact ih (fun k hk => h k (List.mem_cons_of_mem a hk)) s

theorem scanOptimized_silent (input : Nat → α) (B : Nat) (h : ∀ i, i < B → input i = 0) :
    (scanOptimized input B).2 = 0 := by
  unfold scanOptimized
  have hv : (scanVectorLoop input B).2 = fun _ => 0 := by
    unfold scanVectorLoop
    apply scanVectorLoop_foldl_silent
    intro k hk j
    apply h
    have hk1 : k < B / 4 := List.mem_range.mp hk
    have := j.isLt
    have := Nat.div_mul_le_self B 4
    omega
  simp only [hv, max_self]
  apply scan_foldl_silent
  intro i hi
  obtain ⟨j, hj, rfl⟩ := List.mem_map.mp hi
  apply h
  have hj1 : j < B % 4 := List.mem_range.mp hj
  have := Nat.div_add_mod B 4
  omega

theorem processScan_silent (t : Target) (input : Nat → α) (B : Nat)
    (h : ∀ i, i < B → input i = 0) : (processScan t input B).2 = 0 := by
  unfold processScan
  split_ifs
  · exact scanOptimized_silent input B h
  · exact scanScalar_silent input B h

theorem targetGain_override (M : LibM α) (p : DuganProcessor α) (c : Channel α) :
    targetGain M p true c =
      (if c.overrideEnabled = true then 1 else 0.1) * M.pow 10 (p.masterGain / 20) := by
  simp only [targetGain, if_true]

/-- The gain reduction the second loop stores in a processed channel. -/
theorem computeGains_gainReduction (M : LibM α) (p : DuganProcessor α) (n : Nat) (c : Fin 4)
    (hc : c.val < n) :
    ((computeGains M p n).channels c).gainReduction =
      clamp (-20 * M.log10 (max ((computeGains M p n).channels c).smoothedGain kMinLevel))
        (-30) 0 := by
  rw [computeGains_channels, if_pos hc]
  rfl

theorem max_min_swap (lo hi x : α) (h : lo ≤ hi) : max lo (min hi x) = min hi (max lo x) := by
  rw [max_min_distrib_left, max_eq_right h]

theorem clamp_eq_min_max (v lo hi : α) (h : lo ≤ hi) : clamp v lo hi = min hi (max lo v) := by
  rw [clamp_eq_max_min v lo hi h, min_comm v hi, max_min_swap lo hi v h]

theorem lockGuard_free {σ : Type} (body : Option σ) : lockGuard false body = body := rfl

theorem lockGuard_held {σ : Type} (body : Option σ) : lockGuard true body = none := rfl

/-- The channel every iteration of the loop of `reset` writes. -/
theorem reset_channels (p : DuganProcessor α) (ch : Fin 4) :
    (reset p).channels ch = exampleChannel := by
  have hfold : ∀ (c0 : Channel α) (l : List (Fin 4)) (chs : Fin 4 → Channel α),
      (l.foldl (fun chs ch => Function.update chs ch c0) chs) ch =
        if ch ∈ l then c0 else chs ch := by
    intro c0 l
    induction l with
    | nil => intro chs; simp
    | cons a l ih =>
      intro chs
      rw [List.foldl_cons, ih]
      by_cases hl : ch ∈ l
      · simp [hl]
      · by_cases ha : ch = a
        · subst ha
          simp [hl]
        · simp [hl, ha, Function.update_noteq ha]
  have h := hfold exampleChannel (List.finRange 4) p.channels
  simp only [List.mem_finRange, if_true] at h
  exact h

/-- C12. For a channel index `ch < 4` and any `w`, after `setChannelWeight(ch, w)`
`getChannelWeight(ch)` returns `min(10, max(0, w))` (so `-5` gives `0` and `50` gives
`10`), and the processor differs from the previous one in that weight only; for
`ch ≥ 4` the setter changes nothing and `getChannelWeight(ch)` returns `1`. -/
theorem setChannelWeight_clamps (p : DuganProcessor α) (ch : Nat) (w : α) :
    (∀ h : ch < 4,
      getChannelWeight (setChannelWeight p ch w) ch = min 10 (max 0 w) ∧
      setChannelWeight p ch w =
        { p with channels := (Function.update p.channels ⟨ch, h⟩
            { p.channels ⟨ch, h⟩ with weight := min 10 (max 0 w) }) }) ∧
    (4 ≤ ch → setChannelWeight p ch w = p ∧ getChannelWeight (setChannelWeight p ch w) ch = 1) ∧
    (ch < 4 → getChannelWeight (setChannelWeight p ch (-5)) ch = 0 ∧
      getChannelWeight (setChannelWeight p ch 50) ch = 10) := by
  have hsw : ∀ x : α, max (0 : α) (min 10 x) = min 10 (max 0 x) :=
    fun x => max_min_swap 0 10 x (by norm_num)
  refine ⟨fun h => ?_, fun h => ?_, fun h => ?_⟩
  · constructor
    · simp [getChannelWeight, setChannelWeight, h, hsw]
    · simp [setChannelWeight, h, hsw]
  · have h4 : ¬ ch < 4 := by omega
    simp [getChannelWeight, setChannelWeight, h4]
  · constructor
    · simp [getChannelWeight, setChannelWeight, h]
    · simp [getChannelWeight, setChannelWeight, h]
      norm_num

/-- C13. Global writes are clamped, not rejected: after `setAdaptiveThreshold(x)`
`getAdaptiveThreshold()` returns `min(-20, max(-60, x))`, a call of `setMasterGain(x)`
returns and afterwards `getMasterGain()` returns `min(12, max(-12, x))`; each setter
changes its own field only. -/
theorem global_setters_clamp (p : DuganProcessor α) (x : α) :
    getAdaptiveThreshold (setAdaptiveThreshold p x) = min (-20) (max (-60) x) ∧
    setAdaptiveThreshold p x = { p with adaptiveThreshold := min (-20) (max (-60) x) } ∧
    setMasterGainCall false p x = some (setMasterGain p x) ∧
    getMasterGain (setMasterGain p x) = min 12 (max (-12) x) ∧
    setMasterGain p x = { p with masterGain := min 12 (max (-12) x) } := by
  have h1 : max (-60 : α) (min (-20) x) = min (-20) (max (-60) x) :=
    max_min_swap (-60) (-20) x (by norm_num)
  have h2 : clamp x (-12 : α) 12 = min 12 (max (-12) x) :=
    clamp_eq_min_max x (-12) 12 (by norm_num)
  refine ⟨?_, ?_, rfl, ?_, ?_⟩
  · simp [getAdaptiveThreshold, setAdaptiveThreshold, h1]
  · simp [setAdaptiveThreshold, h1]
  · simp [getMasterGain, setMasterGain, h2]
  · simp [setMasterGain, h2]

/-- C16. A call of `reset()` returns, from any prior state; afterwards each of the
4 channels has weight 1, `autoEnabled` true, `overrideEnabled` false, input level and
peak level -60, gain reduction 0, smoothed gain 1, envelope and last RMS `1e-6`, hold
counter 0 and `active` false, the statistics snapshot is all zero, and the sample rate,
the three coefficients, the adaptive threshold, the master gain and the bypass flag are
as before. -/
theorem reset_state (p : DuganProcessor α) :
    resetCall false p = some (reset p) ∧
    (∀ ch : Fin 4,
      ((reset p).channels ch).weight = 1 ∧
      ((reset p).channels ch).autoEnabled = true ∧
      ((reset p).channels ch).overrideEnabled = false ∧
      ((reset p).channels ch).inputLevel = -60 ∧
      ((reset p).channels ch).peakLevel = -60 ∧
      ((reset p).channels ch).gainReduction = 0 ∧
      ((reset p).channels ch).smoothedGain = 1 ∧
      ((reset p).channels ch).envelope = 1e-6 ∧
      ((reset p).channels ch).lastRMS = 1e-6 ∧
      ((reset p).channels ch).peakHoldCounter = 0 ∧
      ((reset p).channels ch).active = false) ∧
    (reset p).currentStats =
      { averageGainReduction := 0, peakGainReduction := 0, averageInputLevel := 0,
        activeChannels := 0, processingLoad := 0 } ∧
    (reset p).sampleRate = p.sampleRate ∧
    (reset p).attackCoeff = p.attackCoeff ∧
    (reset p).releaseCoeff = p.releaseCoeff ∧
    (reset p).smoothingCoeff = p.smoothingCoeff ∧
    (reset p).adaptiveThreshold = p.adaptiveThreshold ∧
    (reset p).masterGain = p.masterGain ∧
    (reset p).bypassEnabled = p.bypassEnabled := by
  refine ⟨rfl, fun ch => ?_, rfl, rfl, rfl, rfl, rfl, rfl, rfl, rfl⟩
  rw [reset_channels]
  exact ⟨rfl, rfl, rfl, rfl, rfl, rfl, rfl, rfl, rfl, rfl, rfl⟩

/-- C17. `reset` is idempotent: for every processor state, the state after
`reset(); reset()` is the state after one `reset()`. -/
theorem reset_idempotent (p : DuganProcessor α) :
    reset (reset p) = reset p ∧
    (resetCall false p).bind (resetCall false) = resetCall false p := by
  have h : reset (reset p) = reset p := by
    have hc : (reset (reset p)).channels = (reset p).channels := by
      funext ch
      rw [reset_channels, reset_channels]
    have hr : ∀ q : DuganProcessor α, reset q =
        { q with channels := (reset q).channels, currentStats := (reset q).currentStats } :=
      fun q => rfl
    rw [hr (reset p), hc]
    rfl
  refine ⟨h, ?_⟩
  show (some (reset p)).bind (resetCall false) = some (reset p)
  rw [Option.some_bind]
  show some (reset (reset p)) = some (reset p)
  rw [h]

/-- C18. The claim that after `initialize(sr)` the sample rate is `sr` and the
channels and statistics are as after `reset()`, evaluated on the code: a call of
`initialize` takes `processMutex` and then calls `setAttackTime`, which locks the same
mutex, so the call never returns, from any state.  The statements of `initialize`
themselves would give the state the claim describes. -/
theorem initialize_never_returns (M : LibM α) (p : DuganProcessor α) (sampleRate : α) :
    initializeCall M false p sampleRate = none ∧
    (initializeStatements M p sampleRate).sampleRate = sampleRate ∧
    (initializeStatements M p sampleRate).channels = (reset p).channels ∧
    (initializeStatements M p sampleRate).currentStats = (reset p).currentStats ∧
    (initializeStatements M p sampleRate).adaptiveThreshold = p.adaptiveThreshold ∧
    (initializeStatements M p sampleRate).masterGain = p.masterGain ∧
    (initializeStatements M p sampleRate).bypassEnabled = p.bypassEnabled := by
  refine ⟨rfl, rfl, ?_, rfl, rfl, rfl, rfl⟩
  funext ch
  rw [reset_channels]
  exact reset_channels _ ch

theorem scanScalar_eq_scanFrom (input : Nat → α) (B : Nat) :
    scanScalar input B = scanFrom input 0 B (0, 0) := by
  unfold scanScalar scanFrom
  have : (List.range B).map (fun j => 0 + j) = List.range B := by
    simp
  rw [this]

theorem scanFrom_add (input : Nat → α) (lo a b : Nat) (acc : α × α) :
    scanFrom input lo (a + b) acc = scanFrom input (lo + a) b (scanFrom input lo a acc) := by
  unfold scanFrom
  rw [List.range_add, List.map_append, List.foldl_append, List.map_map]
  congr 2
  funext j
  simp [Nat.add_assoc]

theorem scanFrom_four (input : Nat → α) (lo : Nat) (acc : α × α) :
    scanFrom input lo 4 acc =
      (acc.1 + input lo * input lo + input (lo + 1) * input (lo + 1) +
          input (lo + 2) * input (lo + 2) + input (lo + 3) * input (lo + 3),
        max (max (max (max acc.2 |input lo|) |input (lo + 1)|) |input (lo + 2)|)
          |input (lo + 3)|) := by
  simp [scanFrom, List.range_succ]

/-- After `m` iterations of the vector loop the four lanes together hold what the
scalar loop holds after `4 * m` samples. -/
theorem scanVectorLoop_lanes (input : Nat → α) (m : Nat) :
    let v := (List.range m).foldl
      (fun (acc : (Fin 4 → α) × (Fin 4 → α)) k =>
        let i := 4 * k
        (fun l => acc.1 l + input (i + l.val) * input (i + l.val),
         fun l => max (acc.2 l) |input (i + l.val)|))
      (fun _ => 0, fun _ => 0)
    (v.1 0 + v.1 1 + v.1 2 + v.1 3, max (max (v.2 0) (v.2 1)) (max (v.2 2) (v.2 3))) =
      scanFrom input 0 (4 * m) (0, 0) := by
  induction m with
  | zero => simp [scanFrom]
  | succ m ih =>
    simp only at ih ⊢
    rw [List.range_succ, List.foldl_append, List.foldl_cons, List.foldl_nil]
    have h4 : 4 * (m + 1) = 4 * m + 4 := by ring
    rw [h4, scanFrom_add, ← ih, scanFrom_four]
    simp only [Fin.val_zero, Fin.val_one, Fin.val_two, add_zero, zero_add]
    have h3 : ((3 : Fin 4) : Nat) = 3 := rfl
    rw [h3]
    refine Prod.ext ?_ ?_
    · simp only
      ring
    · simp only [max_assoc, max_comm, max_left_comm]

/-- The vectorised sample scan computes what the scalar sample scan computes. -/
theorem scanOptimized_eq_scanScalar (input : Nat → α) (B : Nat) :
    scanOptimized input B = scanScalar input B := by
  have hB : B = 4 * (B / 4) + B % 4 := (Nat.div_add_mod B 4).symm
  have hl := scanVectorLoop_lanes input (B / 4)
  simp only at hl
  rw [scanScalar_eq_scanFrom]
  conv_rhs => rw [hB, scanFrom_add, ← hl]
  rw [Nat.zero_add]
  rfl

theorem updateChannelGain_congr (M : LibM α) (p q : DuganProcessor α) (ao : Bool)
    (c : Channel α) (h1 : p.totalWeightedLevel = q.totalWeightedLevel)
    (h2 : p.activeChannelCount = q.activeChannelCount) (h3 : p.masterGain = q.masterGain)
    (h4 : p.smoothingCoeff = q.smoothingCoeff) :
    updateChannelGain M p ao c = updateChannelGain M q ao c := by
  simp only [updateChannelGain, targetGain, h1, h2, h3, h4]

/-- The three accumulators of the second loop of `computeGains` over any duplicate-free
list of channels. -/
theorem secondPass_accumulators (M : LibM α) (ao : Bool) (n : Nat) (l : List (Fin 4))
    (hl : l.Nodup) (q : GainPass α) :
    let r := l.foldl (fun q ch => if ch.val < n then computeGainsStep M ao q ch else q) q
    let G := fun ch => updateChannelGain M q.proc ao (q.proc.channels ch)
    r.totalGainReduction = q.totalGainReduction +
      (l.map (fun ch => if ch.val < n then (G ch).gainReduction else 0)).sum ∧
    r.maxGainReduction =
      l.foldl (fun m ch => if ch.val < n then min m (G ch).gainReduction else m)
        q.maxGainReduction ∧
    r.totalInputLevel = q.totalInputLevel +
      (l.map (fun ch => if ch.val < n then (G ch).inputLevel else 0)).sum := by
  induction l generalizing q with
  | nil => simp
  | cons a l ih =>
    have hal : a ∉ l := (List.nodup_cons.mp hl).1
    have ih1 := ih (List.nodup_cons.mp hl).2
    simp only [List.foldl_cons, List.map_cons, List.sum_cons]
    by_cases hn : a.val < n
    · simp only [hn, if_true]
      obtain ⟨e1, e2, e3⟩ := ih1 (computeGainsStep M ao q a)
      have hG : ∀ ch ∈ l,
          updateChannelGain M (computeGainsStep M ao q a).proc ao
            ((computeGainsStep M ao q a).proc.channels ch) =
          updateChannelGain M q.proc ao (q.proc.channels ch) := by
        intro ch hch
        have hne : ch ≠ a := fun h => hal (h ▸ hch)
        have hc : (computeGainsStep M ao q a).proc.channels ch = q.proc.channels ch := by
          simp [computeGainsStep, Function.update_noteq hne]
        rw [hc]
        exact updateChannelGain_congr M _ _ ao _ rfl rfl rfl rfl
      have hm1 : l.map (fun ch => if ch.val < n then
            (updateChannelGain M (computeGainsStep M ao q a).proc ao
              ((computeGainsStep M ao q a).proc.channels ch)).gainReduction else 0) =
          l.map (fun ch => if ch.val < n then
            (updateChannelGain M q.proc ao (q.proc.channels ch)).gainReduction else 0) :=
        List.map_congr_left (fun ch hch => by rw [hG ch hch])
      have hm3 : l.map (fun ch => if ch.val < n then
            (updateChannelGain M (computeGainsStep M ao q a).proc ao
              ((computeGainsStep M ao q a).proc.channels ch)).inputLevel else 0) =
          l.map (fun ch => if ch.val < n then
            (updateChannelGain M q.proc ao (q.proc.channels ch)).inputLevel else 0) :=
        List.map_congr_left (fun ch hch => by rw [hG ch hch])
      have hm2 : ∀ m0 : α, l.foldl (fun m ch => if ch.val < n then
            min m (updateChannelGain M (computeGainsStep M ao q a).proc ao
              ((computeGainsStep M ao q a).proc.channels ch)).gainReduction else m) m0 =
          l.foldl (fun m ch => if ch.val < n then
            min m (updateChannelGain M q.proc ao (q.proc.channels ch)).gainReduction else m)
            m0 := by
        intro m0
        apply List.foldl_ext
        intro m ch hch
        rw [hG ch hch]
      simp only at e1 e2 e3
      rw [e1, e2, e3, hm1, hm2, hm3]
      refine ⟨?_, rfl, ?_⟩
      · simp only [computeGainsStep]
        ring
      · simp only [computeGainsStep]
        ring
    · simp only [hn, if_false, zero_add]
      exact ih1 q

theorem runningMin_foldl_le (g : Fin 4 → α) (n : Nat) (l : List (Fin 4)) (m0 : α) :
    l.foldl (fun m ch => if ch.val < n then min m (g ch) else m) m0 ≤ m0 ∧
    (∀ ch ∈ l, ch.val < n →
      l.foldl (fun m ch => if ch.val < n then min m (g ch) else m) m0 ≤ g ch) ∧
    (l.foldl (fun m ch => if ch.val < n then min m (g ch) else m) m0 = m0 ∨
      ∃ ch ∈ l, ch.val < n ∧
        l.foldl (fun m ch => if ch.val < n then min m (g ch) else m) m0 = g ch) := by
  induction l generalizing m0 with
  | nil => simp
  | cons a l ih =>
    simp only [List.foldl_cons, List.mem_cons]
    by_cases hn : a.val < n
    · simp only [hn, if_true]
      obtain ⟨i1, i2, i3⟩ := ih (min m0 (g a))
      refine ⟨le_trans i1 (min_le_left _ _), ?_, ?_⟩
      · rintro ch (rfl | hch) hc
        · exact le_trans i1 (min_le_right _ _)
        · exact i2 ch hch hc
      · rcases i3 with h | ⟨ch, hch, hc, h⟩
        · rcases min_choice m0 (g a) with hm | hm
          · left; rw [h, hm]
          · right; exact ⟨a, Or.inl rfl, hn, by rw [h, hm]⟩
        · right; exact ⟨ch, Or.inr hch, hc, h⟩
    · simp only [hn, if_false]
      obtain ⟨i1, i2, i3⟩ := ih m0
      refine ⟨i1, ?_, ?_⟩
      · rintro ch (rfl | hch) hc
        · exact absurd hc hn
        · exact i2 ch hch hc
      · rcases i3 with h | ⟨ch, hch, hc, h⟩
        · left; exact h
        · right; exact ⟨ch, Or.inr hch, hc, h⟩

/-- The running minimum is the least of `0` and the values of the channels below `n`. -/
theorem runningMin_spec (g : Fin 4 → α) (n : Nat) :
    runningMin g n ≤ 0 ∧ (∀ ch : Fin 4, ch.val < n → runningMin g n ≤ g ch) ∧
    (runningMin g n = 0 ∨ ∃ ch : Fin 4, ch.val < n ∧ runningMin g n = g ch) := by
  obtain ⟨h1, h2, h3⟩ := runningMin_foldl_le g n (List.finRange 4) 0
  refine ⟨h1, fun ch hc => h2 ch (List.mem_finRange ch) hc, ?_⟩
  rcases h3 with h | ⟨ch, -, hc, h⟩
  · left; exact h
  · right; exact ⟨ch, hc, h⟩

/-- The statistics snapshot `computeGains` writes. -/
theorem computeGains_stats (M : LibM α) (p : DuganProcessor α) (n : Nat) :
    (computeGains M p n).currentStats.averageGainReduction =
      (if n > 0 then
        (∑ ch : Fin 4, if ch.val < n then ((computeGains M p n).channels ch).gainReduction
          else 0) / (n : α)
      else 0) ∧
    (computeGains M p n).currentStats.peakGainReduction =
      runningMin (fun ch => ((computeGains M p n).channels ch).gainReduction) n ∧
    (computeGains M p n).currentStats.averageInputLevel =
      (if n > 0 then
        (∑ ch : Fin 4, if ch.val < n then ((computeGains M p n).channels ch).inputLevel
          else 0) / (n : α)
      else kNoiseFloorThreshold) ∧
    (computeGains M p n).currentStats.activeChannels = (activeCount p n : Int) ∧
    (computeGains M p n).currentStats.processingLoad = p.currentStats.processingLoad := by
  have hacc := secondPass_accumulators M (anyOverrideIn p n) n (List.finRange 4)
    (List.nodup_finRange 4)
    { proc := afterFirstPass M p n, totalGainReduction := 0, maxGainReduction := 0,
      totalInputLevel := 0 }
  simp only [zero_add] at hacc
  obtain ⟨e1, e2, e3⟩ := hacc
  have hG : ∀ ch : Fin 4, ch.val < n →
      (computeGains M p n).channels ch =
        updateChannelGain M (afterFirstPass M p n) (anyOverrideIn p n)
          ((afterFirstPass M p n).channels ch) := by
    intro ch hc
    rw [computeGains_channels, if_pos hc]
    rfl
  have hs1 : (∑ ch : Fin 4, if ch.val < n then
      ((computeGains M p n).channels ch).gainReduction else 0) =
      ((List.finRange 4).map (fun ch => if ch.val < n then
        (updateChannelGain M (afterFirstPass M p n) (anyOverrideIn p n)
          ((afterFirstPass M p n).channels ch)).gainReduction else 0)).sum := by
    rw [Fin.sum_univ_def]
    congr 1
    apply List.map_congr_left
    intro ch _
    by_cases hc : ch.val < n
    · simp only [hc, if_true, hG ch hc]
    · simp only [hc, if_false]
  have hs3 : (∑ ch : Fin 4, if ch.val < n then
      ((computeGains M p n).channels ch).inputLevel else 0) =
      ((List.finRange 4).map (fun ch => if ch.val < n then
        (updateChannelGain M (afterFirstPass M p n) (anyOverrideIn p n)
          ((afterFirstPass M p n).channels ch)).inputLevel else 0)).sum := by
    rw [Fin.sum_univ_def]
    congr 1
    apply List.map_congr_left
    intro ch _
    by_cases hc : ch.val < n
    · simp only [hc, if_true, hG ch hc]
    · simp only [hc, if_false]
  have hs2 : runningMin (fun ch => ((computeGains M p n).channels ch).gainReduction) n =
      (List.finRange 4).foldl (fun m ch => if ch.val < n then
        min m (updateChannelGain M (afterFirstPass M p n) (anyOverrideIn p n)
          ((afterFirstPass M p n).channels ch)).gainReduction else m) 0 := by
    unfold runningMin
    apply List.foldl_ext
    intro m ch _
    by_cases hc : ch.val < n
    · simp only [hc, if_true, hG ch hc]
    · simp only [hc, if_false]
  rw [hs1, hs2, hs3, ← e1, ← e2, ← e3]
  have hproc := secondPass_proc M (anyOverrideIn p n) (afterFirstPass M p n) n
  have hcs : (computeGainsSecondPass M (anyOverrideIn p n) (afterFirstPass M p n)
      n).proc.currentStats = p.currentStats := by rw [hproc]; rfl
  have hac : (computeGainsSecondPass M (anyOverrideIn p n) (afterFirstPass M p n)
      n).proc.activeChannelCount = (activeCount p n : Int) := by rw [hproc]; rfl
  have hcg : (computeGains M p n).currentStats =
      { (computeGainsSecondPass M (anyOverrideIn p n) (afterFirstPass M p n)
          n).proc.currentStats with
        averageGainReduction :=
          if n > 0 then (computeGainsSecondPass M (anyOverrideIn p n) (afterFirstPass M p n)
            n).totalGainReduction / (n : α) else 0
        peakGainReduction := (computeGainsSecondPass M (anyOverrideIn p n)
          (afterFirstPass M p n) n).maxGainReduction
        averageInputLevel :=
          if n > 0 then (computeGainsSecondPass M (anyOverrideIn p n) (afterFirstPass M p n)
            n).totalInputLevel / (n : α) else kNoiseFloorThreshold
        activeChannels := (computeGainsSecondPass M (anyOverrideIn p n)
          (afterFirstPass M p n) n).proc.activeChannelCount } := by
    simp only [computeGains, firstPass_eq]
    rfl
  rw [hcg]
  refine ⟨rfl, rfl, rfl, hac, ?_⟩
  show (computeGainsSecondPass M (anyOverrideIn p n) (afterFirstPass M p n)
      n).proc.currentStats.processingLoad = _
  rw [hcs]

theorem lt_min_four (ch : Fin 4) (n : Nat) : ch.val < min n 4 ↔ ch.val < n := by
  have := ch.isLt
  omega

/-- Bounds on the sum of a quantity over the `N` processed channels. -/
theorem sum_below_bounds (x : Fin 4 → α) (N : Nat) (hN : N ≤ 4) (lo hi : α)
    (h : ∀ ch : Fin 4, ch.val < N → lo ≤ x ch ∧ x ch ≤ hi) :
    (N : α) * lo ≤ (∑ ch : Fin 4, if ch.val < N then x ch else 0) ∧
    (∑ ch : Fin 4, if ch.val < N then x ch else 0) ≤ (N : α) * hi := by
  rw [← Finset.sum_filter]
  have hcard := card_below N hN
  constructor
  · have := Finset.card_nsmul_le_sum (Finset.univ.filter (fun ch : Fin 4 => ch.val < N)) x lo
      (fun ch hch => (h ch (Finset.mem_filter.mp hch).2).1)
    rw [hcard, nsmul_eq_mul] at this
    exact this
  · have := Finset.sum_le_card_nsmul (Finset.univ.filter (fun ch : Fin 4 => ch.val < N)) x hi
      (fun ch hch => (h ch (Finset.mem_filter.mp hch).2).2)
    rw [hcard, nsmul_eq_mul] at this
    exact this

theorem activeCount_le (p : DuganProcessor α) (n : Nat) (hn : n ≤ 4) : activeCount p n ≤ n := by
  unfold activeCount
  calc (Finset.univ.filter (fun ch : Fin 4 => ch.val < n ∧ (p.channels ch).autoEnabled = true ∧
        p.adaptiveThreshold < (p.channels ch).inputLevel)).card
      ≤ (Finset.univ.filter (fun ch : Fin 4 => ch.val < n)).card := by
        apply Finset.card_le_card
        intro ch hch
        simp only [Finset.mem_filter, Finset.mem_univ, true_and] at hch ⊢
        exact hch.1
    _ = n := card_below n hn

theorem scanScalar_succ (input : Nat → α) (B : Nat) :
    scanScalar input (B + 1) =
      ((scanScalar input B).1 + input B * input B, max (scanScalar input B).2 |input B|) := by
  simp [scanScalar, List.range_succ, List.foldl_append]

/-- The running peak of the sample loop is at least the magnitude of every sample. -/
theorem scanScalar_snd_ge (input : Nat → α) (B : Nat) :
    0 ≤ (scanScalar input B).2 ∧ ∀ i, i < B → |input i| ≤ (scanScalar input B).2 := by
  induction B with
  | zero =>
    refine ⟨le_of_eq rfl, fun i hi => absurd hi (Nat.not_lt_zero i)⟩
  | succ B ih =>
    rw [scanScalar_succ]
    refine ⟨le_trans ih.1 (le_max_left _ _), fun i hi => ?_⟩
    rcases Nat.lt_succ_iff_lt_or_eq.1 hi with h | h
    · exact le_trans (ih.2 i h) (le_max_left _ _)
    · subst h
      exact le_max_right _ _

end GainLemmas

/-! ## Lemmas on the level update and on `process` -/

section BlockLemmas

set_option linter.unusedSectionVars false

variable {α : Type} [LinearOrderedField α] [FloorRing α]

theorem updateLevelsStep_eq (scan : (Nat → α) → Nat → α × α) (M : LibM α)
    (inputs : Buffers α) (B : Nat) (q : DuganProcessor α) (ch : Fin 4) :
    updateLevelsStep scan M inputs B q ch =
      { q with channels := Function.update q.channels ch (levelOf scan M q inputs B ch) } := by
  unfold updateLevelsStep levelOf
  cases inputs ch.val <;> simp

theorem levelOf_congr (scan : (Nat → α) → Nat → α × α) (M : LibM α)
    (p q : DuganProcessor α) (inputs : Buffers α) (B : Nat) (ch : Fin 4)
    (h1 : p.attackCoeff = q.attackCoeff) (h2 : p.releaseCoeff = q.releaseCoeff)
    (h3 : p.sampleRate = q.sampleRate) (h4 : p.channels ch = q.channels ch) :
    levelOf scan M p inputs B ch = levelOf scan M q inputs B ch := by
  unfold levelOf
  cases inputs ch.val with
  | none => exact h4
  | some input => simp only [updateChannelLevel, h1, h2, h3, h4]

/-- The channel loop of the level update over any duplicate-free list of channels. -/
theorem updateLevels_foldl (scan : (Nat → α) → Nat → α × α) (M : LibM α) (inputs : Buffers α)
    (n B : Nat) (l : List (Fin 4)) (hl : l.Nodup) (p : DuganProcessor α) :
    l.foldl (fun q ch => if ch.val < n then updateLevelsStep scan M inputs B q ch else q) p =
    { p with channels := fun ch =>
        if ch ∈ l ∧ ch.val < n then levelOf scan M p inputs B ch else p.channels ch } := by
  induction l generalizing p with
  | nil => simp
  | cons a l ih =>
    rw [List.foldl_cons, ih (List.nodup_cons.mp hl).2]
    have hal : a ∉ l := (List.nodup_cons.mp hl).1
    by_cases hn : a.val < n
    · simp only [hn, if_true, updateLevelsStep_eq]
      congr 1
      funext ch
      by_cases hca : ch = a
      · subst hca
        simp [hal, hn]
      · by_cases hcl : ch ∈ l
        · simp only [hcl, hca, Function.update_noteq, List.mem_cons, false_or, true_and, ne_eq,
            not_false_eq_true]
          split_ifs
          · apply levelOf_congr <;> simp [Function.update_noteq hca]
          · rfl
        · simp [hcl, hca, Function.update_noteq]
    · simp only [hn, if_false]
      congr 1
      funext ch
      by_cases hca : ch = a
      · subst hca
        simp [hal, hn]
      · simp [hca]

theorem updateLevelsWith_eq (scan : (Nat → α) → Nat → α × α) (M : LibM α)
    (p : DuganProcessor α) (inputs : Buffers α) (n B : Nat) :
    updateLevelsWith scan M p inputs n B =
      { p with channels := fun ch =>
          if ch.val < n then levelOf scan M p inputs B ch else p.channels ch } := by
  unfold updateLevelsWith
  rw [updateLevels_foldl scan M inputs n B _ (List.nodup_finRange 4)]
  simp

/-- The level update of one channel writes only the level fields. -/
theorem updateChannelLevel_frame (M : LibM α) (p : DuganProcessor α) (c : Channel α)
    (s k : α) (B : Nat) :
    (updateChannelLevel M p c s k B).weight = c.weight ∧
    (updateChannelLevel M p c s k B).autoEnabled = c.autoEnabled ∧
    (updateChannelLevel M p c s k B).overrideEnabled = c.overrideEnabled ∧
    (updateChannelLevel M p c s k B).active = c.active ∧
    (updateChannelLevel M p c s k B).smoothedGain = c.smoothedGain ∧
    (updateChannelLevel M p c s k B).gainReduction = c.gainReduction := by
  unfold updateChannelLevel
  simp only
  split_ifs <;> exact ⟨rfl, rfl, rfl, rfl, rfl, rfl⟩

theorem levelOf_frame (scan : (Nat → α) → Nat → α × α) (M : LibM α) (p : DuganProcessor α)
    (inputs : Buffers α) (B : Nat) (ch : Fin 4) :
    (levelOf scan M p inputs B ch).weight = (p.channels ch).weight ∧
    (levelOf scan M p inputs B ch).autoEnabled = (p.channels ch).autoEnabled ∧
    (levelOf scan M p inputs B ch).overrideEnabled = (p.channels ch).overrideEnabled ∧
    (levelOf scan M p inputs B ch).active = (p.channels ch).active ∧
    (levelOf scan M p inputs B ch).smoothedGain = (p.channels ch).smoothedGain ∧
    (levelOf scan M p inputs B ch).gainReduction = (p.channels ch).gainReduction := by
  unfold levelOf
  cases inputs ch.val with
  | none => exact ⟨rfl, rfl, rfl, rfl, rfl, rfl⟩
  | some input => exact updateChannelLevel_frame M p _ _ _ B

theorem processLevels_eq (t : Target) (M : LibM α) (p : DuganProcessor α)
    (inputs : Buffers α) (n B : Nat) :
    processLevels t M p inputs n B =
      { p with channels := fun ch =>
          if ch.val < n then
            levelOf (if t.haveSimd then scanOptimized else scanScalar) M p inputs B ch
          else p.channels ch } := by
  unfold processLevels updateLevels updateLevelsOptimized
  split_ifs <;> rw [updateLevelsWith_eq]

theorem processLevels_sameConfig (t : Target) (M : LibM α) (p : DuganProcessor α)
    (inputs : Buffers α) (n B : Nat) : SameConfig p (processLevels t M p inputs n B) := by
  rw [processLevels_eq]
  refine ⟨rfl, rfl, rfl, rfl, rfl, rfl, rfl, ?_, ?_, ?_, ?_⟩ <;> intro ch <;> simp only <;>
    split_ifs <;> first | rfl | simp only [levelOf_frame]

theorem processLevels_smoothedGain (t : Target) (M : LibM α) (p : DuganProcessor α)
    (inputs : Buffers α) (n B : Nat) (ch : Fin 4) :
    ((processLevels t M p inputs n B).channels ch).smoothedGain =
      (p.channels ch).smoothedGain := by
  rw [processLevels_eq]
  simp only
  split_ifs <;> first | rfl | simp only [levelOf_frame]

/-- An Active block with non-null pointer arrays, at least one channel and at least one
sample returns normally, with this processor and these output buffers. -/
theorem process_active (t : Target) (M : LibM α) (p : DuganProcessor α)
    (ins outs : Buffers α) (n B : Nat) (d : Int)
    (hb : p.bypassEnabled = false) (hn : 0 < n) (hB : 0 < B) :
    process t M p (some ins) (some outs) n B d =
      .ok ({ computeGains M (processLevels t M p ins (min n 4) B) (min n 4) with
              processingLoad := ((d : α) / 1000) / (((B : α) / p.sampleRate) * 1000) * 100
              currentStats :=
                { (computeGains M (processLevels t M p ins (min n 4) B) (min n 4)).currentStats
                  with processingLoad :=
                    ((d : α) / 1000) / (((B : α) / p.sampleRate) * 1000) * 100 } },
           some (applyGains t (computeGains M (processLevels t M p ins (min n 4) B) (min n 4))
             ins outs (min n 4) B)) := by
  have hn4 : ¬ (min n 4 = 0) := by omega
  have hB0 : ¬ (B = 0) := by omega
  have hsr : (computeGains M (processLevels t M p ins (min n 4) B) (min n 4)).sampleRate
      = p.sampleRate :=
    ((processLevels_sameConfig t M p ins (min n 4) B).trans
      (computeGains_sameConfig M _ (min n 4))).sampleRate
  simp only [process, hb, Bool.false_eq_true, if_false, kMaxChannels, hn4, hB0, or_self, hsr]

/-- The processor after an Active block. -/
theorem processState_active (t : Target) (M : LibM α) (p : DuganProcessor α) (b : Block α)
    (ins outs : Buffers α) (hi : b.inputs = some ins) (ho : b.outputs = some outs)
    (hb : p.bypassEnabled = false) (hn : 0 < b.numChannels) (hB : 0 < b.numSamples) :
    (processState t M p b).channels =
      (computeGains M (processLevels t M p ins (min b.numChannels 4) b.numSamples)
        (min b.numChannels 4)).channels := by
  unfold processState
  rw [hi, ho, process_active t M p ins outs _ _ _ hb hn hB]

/-- No call of `process` changes the configuration. -/
theorem processState_sameConfig (t : Target) (M : LibM α) (p : DuganProcessor α)
    (b : Block α) : SameConfig p (processState t M p b) := by
  unfold processState process
  by_cases hb : p.bypassEnabled = true
  · simp only [hb, if_true]
    split_ifs
    · exact SameConfig.refl p
    · cases b.inputs <;> cases b.outputs <;> exact SameConfig.refl p
  · simp only [hb, Bool.false_eq_true, if_false]
    cases b.inputs with
    | none => exact SameConfig.refl p
    | some ins =>
      cases b.outputs with
      | none => exact SameConfig.refl p
      | some outs =>
        simp only
        split_ifs
        · exact SameConfig.refl p
        · have h := (processLevels_sameConfig t M p ins (min b.numChannels kMaxChannels)
            b.numSamples).trans (computeGains_sameConfig M _ (min b.numChannels kMaxChannels))
          exact ⟨h.1, h.2, h.3, h.4, h.5, h.6, h.7, h.8, h.9, h.10, h.11⟩

theorem stateAfter_sameConfig (t : Target) (M : LibM α) (p : DuganProcessor α)
    (blocks : Nat → Block α) (k : Nat) : SameConfig p (stateAfter t M p blocks k) := by
  induction k with
  | zero => exact SameConfig.refl p
  | succ k ih => exact ih.trans (processState_sameConfig t M _ _)

/-- C5. An Active block with non-null pointer arrays, `numSamples > 0` and
`numChannels > 0` returns normally; every channel below `min numChannels 4` with a
non-null input and a non-null output ends with `output[i] = input[i] * g` for every
`i < numSamples`, where `g` is the channel's `smoothedGain` after the gain computation
of this block; the cells from `numSamples` on, the channels from index 4 on, the
channels outside the block and the channels with a null input or output are left
unwritten. -/
theorem process_active_output (t : Target) (M : LibM α) (p : DuganProcessor α)
    (ins outs : Buffers α) (n B : Nat) (d : Int)
    (hb : p.bypassEnabled = false) (hn : 0 < n) (hB : 0 < B) :
    ∃ (q : DuganProcessor α) (outs1 : Buffers α),
      process t M p (some ins) (some outs) n B d = .ok (q, some outs1) ∧
      q.channels =
        (computeGains M (processLevels t M p ins (min n 4) B) (min n 4)).channels ∧
      (∀ (ch : Fin 4) (input output : Nat → α), ch.val < n →
        ins ch.val = some input → outs ch.val = some output →
        ∃ result : Nat → α, outs1 ch.val = some result ∧
          (∀ i, i < B → result i = input i * (q.channels ch).smoothedGain) ∧
          (∀ i, B ≤ i → result i = output i)) ∧
      (∀ ch : Nat, (4 ≤ ch ∨ n ≤ ch ∨ ins ch = none ∨ outs ch = none) →
        outs1 ch = outs ch) := by
  refine ⟨_, _, process_active t M p ins outs n B d hb hn hB, rfl, ?_, ?_⟩
  · intro ch input output hch hin hout
    have hch4 : ch.val < min n 4 := by have := ch.isLt; omega
    refine ⟨scaled input output
      ((computeGains M (processLevels t M p ins (min n 4) B) (min n 4)).channels ch).smoothedGain
      B, ?_, ?_, ?_⟩
    · rw [applyGains_apply]
      simp only [ch.isLt, dite_true, hch4, if_true, gainedCell, hin, hout]
    · intro i hi
      simp [scaled, hi]
    · intro i hi
      have : ¬ i < B := by omega
      simp [scaled, this]
  · intro ch hch
    rw [applyGains_apply]
    by_cases h4 : ch < 4
    · simp only [h4, dite_true]
      by_cases hcn : ch < min n 4
      · simp only [hcn, if_true, gainedCell]
        rcases hch with h | h | h | h
        · omega
        · omega
        · simp [h]
        · cases hin : ins ch <;> simp [h]
      · simp only [hcn, if_false]
    · simp only [h4, dite_false]

/-- C7. After `setBypass(true)`, `process` returns normally, copies `input[ch][i]`
to `output[ch][i]` for every channel `ch < numChannels` with a non-null input and a
non-null output and every `i < numSamples`, writes nothing else, and leaves the whole
processor (every channel field, `totalWeightedLevel`, the active count and the
statistics snapshot) as it was. -/
theorem process_bypass_copies (t : Target) (M : LibM α) (p : DuganProcessor α)
    (ins outs : Buffers α) (n B : Nat) (d : Int) :
    ∃ outs1 : Buffers α,
      process t M (setBypass p true) (some ins) (some outs) n B d =
        .ok (setBypass p true, some outs1) ∧
      (∀ (ch : Nat) (input output : Nat → α), ch < n →
        ins ch = some input → outs ch = some output →
        ∃ result : Nat → α, outs1 ch = some result ∧
          (∀ i, i < B → result i = input i) ∧ (∀ i, B ≤ i → result i = output i)) ∧
      (∀ ch : Nat, (n ≤ ch ∨ ins ch = none ∨ outs ch = none) → outs1 ch = outs ch) := by
  refine ⟨bypassCopy ins outs n B, ?_, ?_, ?_⟩
  · unfold process
    simp only [setBypass, if_true]
    split_ifs with h0
    · subst h0
      simp [bypassCopy]
    · rfl
  · intro ch input output hch hin hout
    refine ⟨memcpy output input B, ?_, ?_, ?_⟩
    · rw [bypassCopy_apply]
      simp only [hch, if_true, copiedCell, hin, hout]
    · intro i hi
      simp [memcpy, hi]
    · intro i hi
      have : ¬ i < B := by omega
      simp [memcpy, this]
  · intro ch hch
    rw [bypassCopy_apply]
    by_cases hcn : ch < n
    · simp only [hcn, if_true, copiedCell]
      rcases hch with h | h | h
      · omega
      · simp [h]
      · cases hin : ins ch <;> simp [h]
    · simp only [hcn, if_false]

/-- The envelope fields the level update of one channel writes. -/
theorem updateChannelLevel_envelope (M : LibM α) (p : DuganProcessor α) (c : Channel α)
    (s k : α) (B : Nat) :
    (updateChannelLevel M p c s k B).lastRMS =
      (if B > 0 then M.sqrt (s / (B : α)) else 0) ∧
    (updateChannelLevel M p c s k B).envelope =
      computeEnvelope (if B > 0 then M.sqrt (s / (B : α)) else 0) c.envelope
        (if (if B > 0 then M.sqrt (s / (B : α)) else 0) > c.envelope then p.attackCoeff
          else p.releaseCoeff) ∧
    (updateChannelLevel M p c s k B).inputLevel =
      clamp (20 * M.log10 (max (computeEnvelope (if B > 0 then M.sqrt (s / (B : α)) else 0)
        c.envelope
        (if (if B > 0 then M.sqrt (s / (B : α)) else 0) > c.envelope then p.attackCoeff
          else p.releaseCoeff)) kMinLevel)) kNoiseFloorThreshold 0 := by
  unfold updateChannelLevel
  simp only
  split_ifs <;> exact ⟨rfl, rfl, rfl⟩

/-- C8. For a processed channel with a non-null input and `numSamples > 0`,
`updateLevels` computes `rms = sqrt(sum(x_i^2) / numSamples)`, takes the attack
coefficient when `rms` exceeds the previous envelope and the release coefficient
otherwise, sets the envelope to `envelope * c + rms * (1 - c)` and `inputLevel` to
`clamp(20 * log10(max(envelope1, 1e-6)), -60, 0)`; for `c` in `[0, 1]` the new
envelope lies between the previous envelope and `rms`. -/
theorem updateLevels_envelope (M : LibM α) (p : DuganProcessor α) (inputs : Buffers α)
    (n B : Nat) (ch : Fin 4) (input : Nat → α)
    (hch : ch.val < n) (hin : inputs ch.val = some input) (hB : 0 < B) :
    let rms : α := M.sqrt ((∑ i in Finset.range B, input i ^ 2) / (B : α))
    let env : α := (p.channels ch).envelope
    let c : α := if rms > env then p.attackCoeff else p.releaseCoeff
    let env1 : α := env * c + rms * (1 - c)
    let q := updateLevels M p inputs n B
    (q.channels ch).lastRMS = rms ∧
    (q.channels ch).envelope = env1 ∧
    (q.channels ch).inputLevel = clamp (20 * M.log10 (max env1 1e-6)) (-60) 0 ∧
    (0 ≤ c → c ≤ 1 → min env rms ≤ env1 ∧ env1 ≤ max env rms) := by
  intro rms env c env1 q
  have hq : q.channels ch =
      updateChannelLevel M p (p.channels ch) (scanScalar input B).1 (scanScalar input B).2 B := by
    show (updateLevels M p inputs n B).channels ch = _
    unfold updateLevels
    rw [updateLevelsWith_eq]
    simp only [hch, if_true, levelOf, hin]
  rw [scanScalar_fst] at hq
  obtain ⟨h1, h2, h3⟩ := updateChannelLevel_envelope M p (p.channels ch)
    (∑ i in Finset.range B, input i ^ 2) (scanScalar input B).2 B
  simp only [gt_iff_lt, hB, if_true] at h1 h2 h3
  refine ⟨by rw [hq, h1], by rw [hq, h2]; rfl, by rw [hq, h3]; rfl, ?_⟩
  intro h0 h1
  exact computeEnvelope_between rms env c h0 h1

/-- The peak meter of the level update of one channel: adopt, hold or decay. -/
theorem updateChannelLevel_peak (M : LibM α) (p : DuganProcessor α) (c : Channel α)
    (s k : α) (B : Nat) :
    (clamp (20 * M.log10 (max k kMinLevel)) kNoiseFloorThreshold 0 > c.peakLevel →
      (updateChannelLevel M p c s k B).peakLevel =
        clamp (20 * M.log10 (max k kMinLevel)) kNoiseFloorThreshold 0 ∧
      (updateChannelLevel M p c s k B).peakHoldCounter =
        truncToInt (2 * p.sampleRate / (B : α))) ∧
    (¬ clamp (20 * M.log10 (max k kMinLevel)) kNoiseFloorThreshold 0 > c.peakLevel →
      c.peakHoldCounter > 0 →
      (updateChannelLevel M p c s k B).peakLevel = c.peakLevel ∧
      (updateChannelLevel M p c s k B).peakHoldCounter = c.peakHoldCounter - 1) ∧
    (¬ clamp (20 * M.log10 (max k kMinLevel)) kNoiseFloorThreshold 0 > c.peakLevel →
      ¬ c.peakHoldCounter > 0 →
      (updateChannelLevel M p c s k B).peakLevel =
        max (c.peakLevel - 3) (updateChannelLevel M p c s k B).inputLevel ∧
      (updateChannelLevel M p c s k B).peakHoldCounter = c.peakHoldCounter) := by
  unfold updateChannelLevel
  simp only
  refine ⟨fun h1 => ?_, fun h1 h2 => ?_, fun h1 h2 => ?_⟩
  · rw [if_pos h1]
    exact ⟨rfl, rfl⟩
  · rw [if_neg h1, if_pos h2]
    exact ⟨rfl, rfl⟩
  · rw [if_neg h1, if_neg h2]
    exact ⟨rfl, rfl⟩

theorem updateChannelLevel_inputLevel_ge (M : LibM α) (p : DuganProcessor α) (c : Channel α)
    (s k : α) (B : Nat) :
    kNoiseFloorThreshold ≤ (updateChannelLevel M p c s k B).inputLevel := by
  rw [(updateChannelLevel_envelope M p c s k B).2.2]
  exact (clamp_mem _ _ _ (by unfold kNoiseFloorThreshold; norm_num)).1

/-- The level fields an Active block leaves in a processed channel with a non-null
input are the ones its level update computes. -/
theorem processState_levels (t : Target) (M : LibM α) (p : DuganProcessor α)
    (b : Block α) (ins outs : Buffers α) (buf : Nat → α) (hi : b.inputs = some ins)
    (ho : b.outputs = some outs) (hb : p.bypassEnabled = false) (hB : 0 < b.numSamples)
    (c : Fin 4) (hc : c.val < b.numChannels) (hbuf : ins c.val = some buf) :
    ((processState t M p b).channels c).peakLevel =
      (updateChannelLevel M p (p.channels c) (processScan t buf b.numSamples).1
        (processScan t buf b.numSamples).2 b.numSamples).peakLevel ∧
    ((processState t M p b).channels c).peakHoldCounter =
      (updateChannelLevel M p (p.channels c) (processScan t buf b.numSamples).1
        (processScan t buf b.numSamples).2 b.numSamples).peakHoldCounter ∧
    ((processState t M p b).channels c).inputLevel =
      (updateChannelLevel M p (p.channels c) (processScan t buf b.numSamples).1
        (processScan t buf b.numSamples).2 b.numSamples).inputLevel := by
  have hn : 0 < b.numChannels := by omega
  have hc4 : c.val < min b.numChannels 4 := by have := c.isLt; omega
  have hl : (processLevels t M p ins (min b.numChannels 4) b.numSamples).channels c =
      updateChannelLevel M p (p.channels c) (processScan t buf b.numSamples).1
        (processScan t buf b.numSamples).2 b.numSamples := by
    rw [processLevels_eq]
    simp only [hc4, if_true, levelOf, hbuf]
    rfl
  rw [processState_active t M p b ins outs hi ho hb hn hB, computeGains_channels, if_pos hc4,
    hl]
  exact ⟨rfl, rfl, rfl⟩

theorem process_active_output_witness :
    ((exampleProcessor : DuganProcessor ℝ).bypassEnabled = false ∧ 0 < 1 ∧ 0 < 1) ∧
    ∃ (q : DuganProcessor ℝ) (outs1 : Buffers ℝ),
      process scalarTarget LibM.real exampleProcessor (some silentBuffers) (some silentBuffers)
        1 1 0 = .ok (q, some outs1) := by
  obtain ⟨q, outs1, h, -⟩ := process_active_output scalarTarget LibM.real
    (exampleProcessor : DuganProcessor ℝ) silentBuffers silentBuffers 1 1 0 rfl (by decide)
    (by decide)
  exact ⟨⟨rfl, by decide, by decide⟩, q, outs1, h⟩

theorem updateLevels_envelope_witness :
    ((0 : Fin 4).val < 1 ∧ (silentBuffers : Buffers ℝ) (0 : Fin 4).val = some (fun _ => 0) ∧
      0 < 1) ∧
    ((updateLevels LibM.real (exampleProcessor : DuganProcessor ℝ) silentBuffers 1 1).channels
      0).lastRMS =
      LibM.real.sqrt ((∑ i in Finset.range 1, ((fun _ => 0 : Nat → ℝ) i) ^ 2) / ((1 : ℕ) : ℝ)) :=
  ⟨⟨by decide, rfl, by decide⟩,
    (updateLevels_envelope LibM.real (exampleProcessor : DuganProcessor ℝ) silentBuffers 1 1 0
      (fun _ => 0) (by decide) rfl (by decide)).1⟩

/-- C11. After an Active block (non-null pointer arrays, at least one channel and one
sample) `process` returns, and every processed channel's stored `gainReduction` is
`clamp(-20 * log10(max(g, 1e-6)), -30, 0)`, where `g` is the channel's smoothed gain
after the block; it therefore lies in `[-30, 0]`. -/
theorem process_gainReduction (t : Target) (M : LibM α) (p : DuganProcessor α)
    (ins outs : Buffers α) (n B : Nat) (d : Int)
    (hb : p.bypassEnabled = false) (hn : 0 < n) (hB : 0 < B) :
    ∃ (q : DuganProcessor α) (outs1 : Buffers α),
      process t M p (some ins) (some outs) n B d = .ok (q, some outs1) ∧
      ∀ ch : Fin 4, ch.val < n →
        (q.channels ch).gainReduction =
          clamp (-20 * M.log10 (max (q.channels ch).smoothedGain 1e-6)) (-30) 0 ∧
        -30 ≤ (q.channels ch).gainReduction ∧ (q.channels ch).gainReduction ≤ 0 := by
  refine ⟨_, _, process_active t M p ins outs n B d hb hn hB, ?_⟩
  intro ch hch
  have hch4 : ch.val < min n 4 := by have := ch.isLt; omega
  have h := computeGains_gainReduction M (processLevels t M p ins (min n 4) B) (min n 4) ch hch4
  refine ⟨h, ?_⟩
  show -30 ≤ ((computeGains M _ (min n 4)).channels ch).gainReduction ∧
    ((computeGains M _ (min n 4)).channels ch).gainReduction ≤ 0
  rw [h]
  exact clamp_mem _ _ _ (by norm_num)

/-- A call of `process` that returns leaves the processor as it was or as the level
update and the gain computation of an Active block leave it. -/
theorem process_ok_state (t : Target) (M : LibM α) (p q : DuganProcessor α)
    (inputs outputs outputs1 : Option (Buffers α)) (n B : Nat) (d : Int)
    (h : process t M p inputs outputs n B d = .ok (q, outputs1)) :
    q = p ∨ ∃ ins : Buffers α,
      q.channels = (computeGains M (processLevels t M p ins (min n 4) B) (min n 4)).channels ∧
      q.sampleRate = p.sampleRate ∧ q.smoothingCoeff = p.smoothingCoeff := by
  unfold process at h
  by_cases hb : p.bypassEnabled = true
  · simp only [hb, if_true] at h
    split_ifs at h
    · left
      exact (congrArg Prod.fst (Except.ok.inj h)).symm
    · cases inputs <;> cases outputs <;> simp only [reduceCtorEq] at h
      left
      exact (congrArg Prod.fst (Except.ok.inj h)).symm
  · simp only [hb, Bool.false_eq_true, if_false] at h
    cases inputs with
    | none => simp only [reduceCtorEq] at h
    | some ins =>
      cases outputs with
      | none => simp only [reduceCtorEq] at h
      | some outs =>
        simp only at h
        split_ifs at h
        · left
          exact (congrArg Prod.fst (Except.ok.inj h)).symm
        · right
          have hq := (congrArg Prod.fst (Except.ok.inj h)).symm
          simp only at hq
          have hcfg := (processLevels_sameConfig t M p ins (min n kMaxChannels) B).trans
            (computeGains_sameConfig M _ (min n kMaxChannels))
          refine ⟨ins, ?_, ?_, ?_⟩
          · rw [hq]; rfl
          · rw [hq]; exact hcfg.sampleRate
          · rw [hq]; exact hcfg.smoothingCoeff

/-- The input level of a channel after the level update is in `[-60, 0]` when it was
before. -/
theorem levelOf_inputLevel_mem (scan : (Nat → α) → Nat → α × α) (M : LibM α)
    (p : DuganProcessor α) (inputs : Buffers α) (B : Nat) (ch : Fin 4)
    (h : -60 ≤ (p.channels ch).inputLevel ∧ (p.channels ch).inputLevel ≤ 0) :
    -60 ≤ (levelOf scan M p inputs B ch).inputLevel ∧
      (levelOf scan M p inputs B ch).inputLevel ≤ 0 := by
  unfold levelOf
  cases inputs ch.val with
  | none => exact h
  | some input =>
    simp only
    rw [(updateChannelLevel_envelope M p _ _ _ B).2.2]
    exact clamp_mem _ (-60) 0 (by norm_num)

/-- C27. The vectorised level scan refines the scalar one: for every buffer and every
`numSamples`, a multiple of 4 or not, the 4-lane accumulation, horizontal reduction and
tail loop of `updateLevelsOptimized` give the same sum of squares and the same maximum
absolute sample as the sample loop of `updateLevels`, that sum being the sum of the
squares of the first `numSamples` samples; hence `updateLevelsOptimized` and
`updateLevels` leave the same processor.  Arithmetic is exact (an ordered field), so the
reordering of the additions does not show. -/
theorem updateLevelsOptimized_refines (M : LibM α) (p : DuganProcessor α) (inputs : Buffers α)
    (numChannels : Nat) (input : Nat → α) (numSamples : Nat) :
    (scanOptimized input numSamples).1 = (scanScalar input numSamples).1 ∧
    (scanOptimized input numSamples).2 = (scanScalar input numSamples).2 ∧
    (scanScalar input numSamples).1 = ∑ i in Finset.range numSamples, input i ^ 2 ∧
    updateLevelsOptimized M p inputs numChannels numSamples =
      updateLevels M p inputs numChannels numSamples := by
  have h := scanOptimized_eq_scanScalar input numSamples
  refine ⟨by rw [h], by rw [h], scanScalar_fst input numSamples, ?_⟩
  have hf : (scanOptimized : (Nat → α) → Nat → α × α) = scanScalar := by
    funext i b
    exact scanOptimized_eq_scanScalar i b
  unfold updateLevelsOptimized updateLevels
  rw [hf]

/-- C21. After an Active block (bypass off, non-null pointer arrays, at least one channel
and one sample), `getStatistics().activeChannels` is the number of channels
`ch < min(numChannels, 4)` that are auto-enabled and whose `inputLevel` is strictly above
the adaptive threshold; it is at most `min(numChannels, 4)`; and, the threshold being at
least `-60` (as it is in every reachable state, see `reachable_threshold`), a channel
whose `inputLevel` is `-60` is not counted. -/
theorem process_activeChannels (t : Target) (M : LibM α) (p : DuganProcessor α)
    (ins outs : Buffers α) (n B : Nat) (d : Int)
    (hb : p.bypassEnabled = false) (hn : 0 < n) (hB : 0 < B)
    (hthr : -60 ≤ p.adaptiveThreshold) :
    ∃ (q : DuganProcessor α) (outs1 : Buffers α),
      process t M p (some ins) (some outs) n B d = .ok (q, some outs1) ∧
      (getStatistics q).activeChannels =
        ((Finset.univ.filter (fun ch : Fin 4 => ch.val < min n 4 ∧
          (q.channels ch).autoEnabled = true ∧
          q.adaptiveThreshold < (q.channels ch).inputLevel)).card : Int) ∧
      (getStatistics q).activeChannels ≤ ((min n 4 : Nat) : Int) ∧
      ∀ ch : Fin 4, (q.channels ch).inputLevel = -60 →
        ch ∉ Finset.univ.filter (fun ch : Fin 4 => ch.val < min n 4 ∧
          (q.channels ch).autoEnabled = true ∧
          q.adaptiveThreshold < (q.channels ch).inputLevel) := by
  refine ⟨_, _, process_active t M p ins outs n B d hb hn hB, ?_⟩
  have hcfg1 := processLevels_sameConfig t M p ins (min n 4) B
  have hcfg2 := computeGains_sameConfig M (processLevels t M p ins (min n 4) B) (min n 4)
  have hlvl : ∀ ch : Fin 4,
      ((computeGains M (processLevels t M p ins (min n 4) B) (min n 4)).channels ch).inputLevel =
        ((processLevels t M p ins (min n 4) B).channels ch).inputLevel := by
    intro ch
    rw [computeGains_channels]
    split_ifs
    · rfl
    · rfl
  have hst := (computeGains_stats M (processLevels t M p ins (min n 4) B) (min n 4)).2.2.2.1
  have hset : (Finset.univ.filter (fun ch : Fin 4 => ch.val < min n 4 ∧
      ((computeGains M (processLevels t M p ins (min n 4) B) (min n 4)).channels
        ch).autoEnabled = true ∧
      (computeGains M (processLevels t M p ins (min n 4) B) (min n 4)).adaptiveThreshold <
        ((computeGains M (processLevels t M p ins (min n 4) B) (min n 4)).channels
          ch).inputLevel)) =
      (Finset.univ.filter (fun ch : Fin 4 => ch.val < min n 4 ∧
        ((processLevels t M p ins (min n 4) B).channels ch).autoEnabled = true ∧
        (processLevels t M p ins (min n 4) B).adaptiveThreshold <
          ((processLevels t M p ins (min n 4) B).channels ch).inputLevel)) := by
    ext ch
    simp only [Finset.mem_filter, Finset.mem_univ, true_and, hlvl ch, hcfg2.autoEnabled ch,
      hcfg2.adaptiveThreshold]
  refine ⟨?_, ?_, ?_⟩
  · show (computeGains M _ (min n 4)).currentStats.activeChannels = _
    rw [hst]
    show _ = ((Finset.univ.filter (fun ch : Fin 4 => ch.val < min n 4 ∧
      ((computeGains M (processLevels t M p ins (min n 4) B) (min n 4)).channels
        ch).autoEnabled = true ∧
      (computeGains M (processLevels t M p ins (min n 4) B) (min n 4)).adaptiveThreshold <
        ((computeGains M (processLevels t M p ins (min n 4) B) (min n 4)).channels
          ch).inputLevel)).card : Int)
    rw [hset]
    rfl
  · show (computeGains M _ (min n 4)).currentStats.activeChannels ≤ _
    rw [hst]
    exact_mod_cast activeCount_le _ (min n 4) (Nat.min_le_right n 4)
  · intro ch hch hmem
    have h3 := (Finset.mem_filter.mp hmem).2.2.2
    have hthr2 : (computeGains M (processLevels t M p ins (min n 4) B)
        (min n 4)).adaptiveThreshold = p.adaptiveThreshold :=
      hcfg2.adaptiveThreshold.trans hcfg1.adaptiveThreshold
    change (computeGains M (processLevels t M p ins (min n 4) B) (min n 4)).adaptiveThreshold <
      ((computeGains M (processLevels t M p ins (min n 4) B) (min n 4)).channels
        ch).inputLevel at h3
    change ((computeGains M (processLevels t M p ins (min n 4) B) (min n 4)).channels
        ch).inputLevel = -60 at hch
    rw [hthr2, hch] at h3
    exact absurd hthr (not_le.mpr h3)

/-- The adaptive threshold of every reachable state is in `[-60, -20]`. -/
theorem reachable_threshold (M : LibM α) (sr : α) (p : DuganProcessor α)
    (h : Reachable M sr p) : -60 ≤ p.adaptiveThreshold ∧ p.adaptiveThreshold ≤ -20 := by
  induction h with
  | constructed =>
    show (-60 : α) ≤ -40 ∧ (-40 : α) ≤ -20
    constructor <;> norm_num
  | afterSetChannelWeight channel weight _ ih =>
    unfold setChannelWeight
    split_ifs <;> exact ih
  | afterSetChannelAutoEnabled channel enabled _ ih =>
    unfold setChannelAutoEnabled
    split_ifs <;> exact ih
  | afterSetChannelOverride channel override _ ih =>
    unfold setChannelOverride
    split_ifs <;> exact ih
  | afterSetAttackTime x _ hq ih =>
    cases (Option.some.inj hq)
    exact ih
  | afterSetReleaseTime x _ hq ih =>
    cases (Option.some.inj hq)
    exact ih
  | afterSetSmoothingTime x _ hq ih =>
    cases (Option.some.inj hq)
    exact ih
  | afterSetAdaptiveThreshold x _ _ =>
    exact ⟨le_max_left _ _, max_le (by norm_num) (min_le_left _ _)⟩
  | afterSetMasterGain x _ hq ih =>
    cases (Option.some.inj hq)
    exact ih
  | afterReset _ hq ih =>
    cases (Option.some.inj hq)
    exact ih
  | afterSetBypass b _ ih => exact ih
  | afterProcess t inputs outputs n B d outputs1 _ _ hq ih =>
    rename_i p0 q0 _ _
    have hcfg := processState_sameConfig t M p0 ⟨inputs, outputs, n, B, d⟩
    unfold processState at hcfg
    simp only [hq] at hcfg
    rw [hcfg.adaptiveThreshold]
    exact ih

/-- C26. After an Active block over `n = min(numChannels, 4) ≥ 1` channels, the statistics
snapshot holds `averageGainReduction = (sum of the n processed channels' gainReduction)/n`,
`peakGainReduction` = the minimum of those values and `0` (it is `≤ 0`, `≤` each of them,
and equal to `0` or to one of them) and
`averageInputLevel = (sum of the n processed channels' inputLevel)/n`, all three computed
from the channel values of this block; hence `peakGainReduction ≤ 0`,
`-30 ≤ averageGainReduction ≤ 0`, and `averageInputLevel` is in `[-60, 0]` when the input
levels before the block were (a channel with a null input keeps its level; the levels of
every reachable state are in that range).  No order between `peakGainReduction` and
`averageGainReduction` is stated: the sum and the division are binary32 operations, and
the rounded mean of equal values can fall below them. -/
theorem process_statistics (t : Target) (M : LibM α) (p : DuganProcessor α)
    (ins outs : Buffers α) (n B : Nat) (d : Int)
    (hb : p.bypassEnabled = false) (hn : 0 < n) (hB : 0 < B)
    (hlv : ∀ ch : Fin 4, -60 ≤ (p.channels ch).inputLevel ∧ (p.channels ch).inputLevel ≤ 0) :
    ∃ (q : DuganProcessor α) (outs1 : Buffers α),
      process t M p (some ins) (some outs) n B d = .ok (q, some outs1) ∧
      (getStatistics q).averageGainReduction =
        (∑ ch : Fin 4, if ch.val < min n 4 then (q.channels ch).gainReduction else 0) /
          ((min n 4 : Nat) : α) ∧
      ((getStatistics q).peakGainReduction ≤ 0 ∧
        (∀ ch : Fin 4, ch.val < min n 4 →
          (getStatistics q).peakGainReduction ≤ (q.channels ch).gainReduction) ∧
        ((getStatistics q).peakGainReduction = 0 ∨
          ∃ ch : Fin 4, ch.val < min n 4 ∧
            (getStatistics q).peakGainReduction = (q.channels ch).gainReduction)) ∧
      (getStatistics q).averageInputLevel =
        (∑ ch : Fin 4, if ch.val < min n 4 then (q.channels ch).inputLevel else 0) /
          ((min n 4 : Nat) : α) ∧
      -30 ≤ (getStatistics q).averageGainReduction ∧
      (getStatistics q).averageGainReduction ≤ 0 ∧
      -60 ≤ (getStatistics q).averageInputLevel ∧ (getStatistics q).averageInputLevel ≤ 0 := by
  refine ⟨_, _, process_active t M p ins outs n B d hb hn hB, ?_⟩
  have hN : 0 < min n 4 := by omega
  have hN4 : min n 4 ≤ 4 := Nat.min_le_right n 4
  have hNpos : (0 : α) < ((min n 4 : Nat) : α) := by exact_mod_cast hN
  obtain ⟨s1, s2, s3, -, -⟩ :=
    computeGains_stats M (processLevels t M p ins (min n 4) B) (min n 4)
  simp only [gt_iff_lt, hN, if_true] at s1 s3
  obtain ⟨m1, m2, m3⟩ := runningMin_spec
    (fun ch => ((computeGains M (processLevels t M p ins (min n 4) B) (min n 4)).channels
      ch).gainReduction) (min n 4)
  -- ranges of the summed quantities
  have hgr : ∀ ch : Fin 4, ch.val < min n 4 →
      -30 ≤ ((computeGains M (processLevels t M p ins (min n 4) B) (min n 4)).channels
        ch).gainReduction ∧
      ((computeGains M (processLevels t M p ins (min n 4) B) (min n 4)).channels
        ch).gainReduction ≤ 0 := by
    intro ch hch
    rw [computeGains_gainReduction M _ (min n 4) ch hch]
    exact clamp_mem _ _ _ (by norm_num)
  have hil : ∀ ch : Fin 4, ch.val < min n 4 →
      -60 ≤ ((computeGains M (processLevels t M p ins (min n 4) B) (min n 4)).channels
        ch).inputLevel ∧
      ((computeGains M (processLevels t M p ins (min n 4) B) (min n 4)).channels
        ch).inputLevel ≤ 0 := by
    intro ch hch
    have e : ((computeGains M (processLevels t M p ins (min n 4) B) (min n 4)).channels
        ch).inputLevel = ((processLevels t M p ins (min n 4) B).channels ch).inputLevel := by
      rw [computeGains_channels, if_pos hch]
      rfl
    rw [e, processLevels_eq]
    simp only [hch, if_true]
    exact levelOf_inputLevel_mem _ M p ins B ch (hlv ch)
  have hsum_gr := sum_below_bounds
    (fun ch => ((computeGains M (processLevels t M p ins (min n 4) B) (min n 4)).channels
      ch).gainReduction) (min n 4) hN4
    (-30) 0 hgr
  have hsum_il := sum_below_bounds
    (fun ch => ((computeGains M (processLevels t M p ins (min n 4) B) (min n 4)).channels
      ch).inputLevel) (min n 4) hN4 (-60) 0 hil
  refine ⟨s1, ⟨?_, ?_, ?_⟩, s3, ?_, ?_, ?_, ?_⟩
  · show (computeGains M _ (min n 4)).currentStats.peakGainReduction ≤ 0
    rw [s2]; exact m1
  · intro ch hch
    show (computeGains M _ (min n 4)).currentStats.peakGainReduction ≤ _
    rw [s2]; exact m2 ch hch
  · show (computeGains M _ (min n 4)).currentStats.peakGainReduction = 0 ∨
      ∃ ch : Fin 4, ch.val < min n 4 ∧
        (computeGains M _ (min n 4)).currentStats.peakGainReduction = _
    rw [s2]; exact m3
  · show -30 ≤ (computeGains M _ (min n 4)).currentStats.averageGainReduction
    rw [s1, le_div_iff₀ hNpos, mul_comm]
    exact hsum_gr.1
  · show (computeGains M _ (min n 4)).currentStats.averageGainReduction ≤ 0
    rw [s1, div_le_iff₀ hNpos, zero_mul]
    have := hsum_gr.2
    rwa [mul_zero] at this
  · show -60 ≤ (computeGains M _ (min n 4)).currentStats.averageInputLevel
    rw [s3, le_div_iff₀ hNpos, mul_comm]
    exact hsum_il.1
  · show (computeGains M _ (min n 4)).currentStats.averageInputLevel ≤ 0
    rw [s3, div_le_iff₀ hNpos, zero_mul]
    have := hsum_il.2
    rwa [mul_zero] at this

/-- The gain computation leaves the level fields of every channel alone. -/
theorem computeGains_level_fields (M : LibM α) (p : DuganProcessor α) (n : Nat) (ch : Fin 4) :
    ((computeGains M p n).channels ch).envelope = (p.channels ch).envelope ∧
    ((computeGains M p n).channels ch).lastRMS = (p.channels ch).lastRMS ∧
    ((computeGains M p n).channels ch).inputLevel = (p.channels ch).inputLevel ∧
    ((computeGains M p n).channels ch).peakLevel = (p.channels ch).peakLevel ∧
    ((computeGains M p n).channels ch).peakHoldCounter = (p.channels ch).peakHoldCounter := by
  rw [computeGains_channels]
  split_ifs
  · obtain ⟨-, -, -, -, h5, h6, h7, h8, h9⟩ :=
      updateChannelGain_frame M (afterFirstPass M p n) (anyOverrideIn p n) (p.channels ch)
    exact ⟨h8, h9, h5, h6, h7⟩
  · exact ⟨rfl, rfl, rfl, rfl, rfl⟩

/-- The level fields an Active block leaves in channel `ch`: those of the level update
of that channel alone. -/
theorem active_level_fields (t : Target) (M : LibM α) (p : DuganProcessor α)
    (ins : Buffers α) (n B : Nat) (ch : Fin 4) :
    let c := if ch.val < n then
      levelOf (if t.haveSimd then scanOptimized else scanScalar) M p ins B ch
      else p.channels ch
    let q := computeGains M (processLevels t M p ins (min n 4) B) (min n 4)
    (q.channels ch).envelope = c.envelope ∧ (q.channels ch).lastRMS = c.lastRMS ∧
    (q.channels ch).inputLevel = c.inputLevel ∧ (q.channels ch).peakLevel = c.peakLevel ∧
    (q.channels ch).peakHoldCounter = c.peakHoldCounter := by
  intro c q
  have h := computeGains_level_fields M (processLevels t M p ins (min n 4) B) (min n 4) ch
  have e : (processLevels t M p ins (min n 4) B).channels ch = c := by
    rw [processLevels_eq]
    simp only [lt_min_four]
  rw [e] at h
  exact h

/-- A null input leaves the channel as it was. -/
theorem levelOf_null (scan : (Nat → α) → Nat → α × α) (M : LibM α) (p : DuganProcessor α)
    (ins : Buffers α) (B : Nat) (ch : Fin 4) (h : ins ch.val = none) :
    levelOf scan M p ins B ch = p.channels ch := by
  unfold levelOf
  rw [h]

/-- The level update of a channel reads no other channel's buffer. -/
theorem levelOf_update (scan : (Nat → α) → Nat → α × α) (M : LibM α) (p : DuganProcessor α)
    (ins : Buffers α) (B : Nat) (ch : Fin 4) (k : Nat) (x : Option (Nat → α))
    (h : ch.val ≠ k) :
    levelOf scan M p (Function.update ins k x) B ch = levelOf scan M p ins B ch := by
  unfold levelOf
  rw [Function.update_noteq h]

/-- C24. In an Active block, a processed channel `k` whose input pointer is null keeps
its envelope, `lastRMS`, `inputLevel`, `peakLevel` and peak hold counter, and its output
pointer is left as it was; a processed channel with a buffer gets the envelope,
`inputLevel` and `peakLevel` of the level update of its own state on its own samples;
and replacing the input pointer of channel `k` by any other value (null or a buffer)
changes none of the level fields the block leaves in the other channels. -/
theorem process_null_channel (t : Target) (M : LibM α) (p : DuganProcessor α)
    (ins outs : Buffers α) (n B : Nat) (d : Int) (k : Fin 4)
    (hb : p.bypassEnabled = false) (hk : k.val < n) (hB : 0 < B) :
    ∃ (q : DuganProcessor α) (outs1 : Buffers α),
      process t M p (some ins) (some outs) n B d = .ok (q, some outs1) ∧
      (ins k.val = none →
        (q.channels k).envelope = (p.channels k).envelope ∧
        (q.channels k).lastRMS = (p.channels k).lastRMS ∧
        (q.channels k).inputLevel = (p.channels k).inputLevel ∧
        (q.channels k).peakLevel = (p.channels k).peakLevel ∧
        (q.channels k).peakHoldCounter = (p.channels k).peakHoldCounter ∧
        outs1 k.val = outs k.val) ∧
      (∀ (ch : Fin 4) (buf : Nat → α), ch.val < n → ins ch.val = some buf →
        (q.channels ch).envelope =
          (updateChannelLevel M p (p.channels ch) (processScan t buf B).1
            (processScan t buf B).2 B).envelope ∧
        (q.channels ch).inputLevel =
          (updateChannelLevel M p (p.channels ch) (processScan t buf B).1
            (processScan t buf B).2 B).inputLevel ∧
        (q.channels ch).peakLevel =
          (updateChannelLevel M p (p.channels ch) (processScan t buf B).1
            (processScan t buf B).2 B).peakLevel) ∧
      ∀ x : Option (Nat → α), ∃ (q2 : DuganProcessor α) (outs2 : Buffers α),
        process t M p (some (Function.update ins k.val x)) (some outs) n B d =
          .ok (q2, some outs2) ∧
        ∀ ch : Fin 4, ch ≠ k →
          (q2.channels ch).envelope = (q.channels ch).envelope ∧
          (q2.channels ch).lastRMS = (q.channels ch).lastRMS ∧
          (q2.channels ch).inputLevel = (q.channels ch).inputLevel ∧
          (q2.channels ch).peakLevel = (q.channels ch).peakLevel ∧
          (q2.channels ch).peakHoldCounter = (q.channels ch).peakHoldCounter := by
  have hn : 0 < n := by omega
  refine ⟨_, _, process_active t M p ins outs n B d hb hn hB, ?_, ?_, ?_⟩
  · intro hnull
    obtain ⟨h1, h2, h3, h4, h5⟩ := active_level_fields t M p ins n B k
    simp only [hk, if_true, levelOf_null _ M p ins B k hnull] at h1 h2 h3 h4 h5
    refine ⟨h1, h2, h3, h4, h5, ?_⟩
    rw [applyGains_apply, dif_pos k.isLt, if_pos (by omega)]
    unfold gainedCell
    simp only [Fin.eta, hnull]
  · intro ch buf hch hbuf
    obtain ⟨h1, -, h3, h4, -⟩ := active_level_fields t M p ins n B ch
    have e : levelOf (if t.haveSimd then scanOptimized else scanScalar) M p ins B ch =
        updateChannelLevel M p (p.channels ch) (processScan t buf B).1
          (processScan t buf B).2 B := by
      unfold levelOf processScan
      rw [hbuf]
    simp only [hch, if_true, e] at h1 h3 h4
    exact ⟨h1, h3, h4⟩
  · intro x
    refine ⟨_, _, process_active t M p (Function.update ins k.val x) outs n B d hb hn hB, ?_⟩
    intro ch hne
    have hv : ch.val ≠ k.val := fun h => hne (Fin.ext h)
    obtain ⟨h1, h2, h3, h4, h5⟩ := active_level_fields t M p ins n B ch
    obtain ⟨g1, g2, g3, g4, g5⟩ :=
      active_level_fields t M p (Function.update ins k.val x) n B ch
    simp only [levelOf_update _ M p ins B ch k.val x hv] at g1 g2 g3 g4 g5
    exact ⟨g1.trans h1.symm, g2.trans h2.symm, g3.trans h3.symm, g4.trans h4.symm,
      g5.trans h5.symm⟩

/-- C30. The claim that `WDSPKernel::initialize`, called with the kernel's current sample
rate, runs to completion, checked on the code: with a processor at hand and the sample
rate unchanged the kernel calls `DuganProcessor::initialize`, which takes `processMutex`
and then calls `setAttackTime`, whose own `lock_guard` on the same mutex never gets it;
so the call never returns, for every kernel with a processor and in particular for the
example kernel at 48 kHz.  With a different sample rate the kernel constructs a new
processor instead and returns. -/
theorem kernel_initialize_never_returns (M : LibM α) (k : WDSPKernel α)
    (p : DuganProcessor α) (sampleRate : α) :
    (k.processor = some p → k.initializeCall M k.sampleRate = none) ∧
    (k.sampleRate ≠ sampleRate →
      k.initializeCall M sampleRate =
        some { k with sampleRate := sampleRate, processor := some (construct M sampleRate) }) ∧
    (exampleKernel : WDSPKernel α).initializeCall M 48000 = none ∧
    initializeCall M true p sampleRate = none ∧
    (setAttackTimeCall M true { p with sampleRate := sampleRate } kDefaultAttackTime) = none := by
  refine ⟨?_, ?_, ?_, rfl, rfl⟩
  · intro hp
    unfold WDSPKernel.initializeCall
    rw [hp]
    simp only [ne_eq, not_true_eq_false, Option.isNone_some, Bool.false_eq_true, or_self,
      if_false]
    rfl
  · intro hne
    unfold WDSPKernel.initializeCall
    rw [if_pos (Or.inl hne)]
  · unfold WDSPKernel.initializeCall exampleKernel
    simp only [ne_eq, not_true_eq_false, Option.isNone_some, Bool.false_eq_true, or_self,
      if_false]
    rfl

theorem getActiveChannelCount_eq_zero (p : DuganProcessor α)
    (h : ∀ ch : Fin 4, (p.channels ch).active = false) : getActiveChannelCount p = 0 := by
  unfold getActiveChannelCount
  have hfold : ∀ (l : List (Fin 4)) (c : Int),
      l.foldl (fun count ch => if (p.channels ch).active then count + 1 else count) c = c := by
    intro l
    induction l with
    | nil => intro c; rfl
    | cons a l ih =>
      intro c
      rw [List.foldl_cons, h a]
      exact ih c
  exact hfold _ 0

theorem construct_channels (M : LibM α) (sr : α) (ch : Fin 4) :
    (construct M sr).channels ch = exampleChannel :=
  reset_channels _ ch

/-- No operation sets the `active` flag of a channel: it is `false` in every reachable
state. -/
theorem reachable_active (M : LibM α) (sr : α) (p : DuganProcessor α)
    (h : Reachable M sr p) (ch : Fin 4) : (p.channels ch).active = false := by
  induction h generalizing ch with
  | constructed =>
    rw [construct_channels]
    rfl
  | afterSetChannelWeight channel weight _ ih =>
    unfold setChannelWeight
    split_ifs with hc
    · by_cases e : ch = ⟨channel, hc⟩
      · subst e
        simp only [Function.update_same]
        exact ih _
      · simp only [Function.update_noteq e]
        exact ih _
    · exact ih _
  | afterSetChannelAutoEnabled channel enabled _ ih =>
    unfold setChannelAutoEnabled
    split_ifs with hc
    · by_cases e : ch = ⟨channel, hc⟩
      · subst e
        simp only [Function.update_same]
        exact ih _
      · simp only [Function.update_noteq e]
        exact ih _
    · exact ih _
  | afterSetChannelOverride channel override _ ih =>
    unfold setChannelOverride
    split_ifs with hc
    · by_cases e : ch = ⟨channel, hc⟩
      · subst e
        simp only [Function.update_same]
        exact ih _
      · simp only [Function.update_noteq e]
        exact ih _
    · exact ih _
  | afterSetAttackTime x _ hq ih =>
    cases (Option.some.inj hq)
    exact ih ch
  | afterSetReleaseTime x _ hq ih =>
    cases (Option.some.inj hq)
    exact ih ch
  | afterSetSmoothingTime x _ hq ih =>
    cases (Option.some.inj hq)
    exact ih ch
  | afterSetAdaptiveThreshold x _ ih => exact ih ch
  | afterSetMasterGain x _ hq ih =>
    cases (Option.some.inj hq)
    exact ih ch
  | afterReset _ hq ih =>
    cases (Option.some.inj hq)
    rw [reset_channels]
    rfl
  | afterSetBypass b _ ih => exact ih ch
  | afterProcess t inputs outputs n B d outputs1 _ _ hq ih =>
    rename_i p0 q0 _ _
    have hcfg := processState_sameConfig t M p0 ⟨inputs, outputs, n, B, d⟩
    unfold processState at hcfg
    simp only [hq] at hcfg
    rw [hcfg.active]
    exact ih ch

/-- The level fields an Active block leaves in a processed channel with a buffer. -/
theorem active_levels_of_buffer (t : Target) (M : LibM α) (p : DuganProcessor α)
    (ins : Buffers α) (n B : Nat) (ch : Fin 4) (buf : Nat → α) (hch : ch.val < n)
    (hbuf : ins ch.val = some buf) :
    let c := updateChannelLevel M p (p.channels ch) (processScan t buf B).1
      (processScan t buf B).2 B
    let q := computeGains M (processLevels t M p ins (min n 4) B) (min n 4)
    (q.channels ch).envelope = c.envelope ∧ (q.channels ch).lastRMS = c.lastRMS ∧
    (q.channels ch).inputLevel = c.inputLevel ∧ (q.channels ch).peakLevel = c.peakLevel ∧
    (q.channels ch).peakHoldCounter = c.peakHoldCounter := by
  have e : levelOf (if t.haveSimd then scanOptimized else scanScalar) M p ins B ch =
      updateChannelLevel M p (p.channels ch) (processScan t buf B).1
        (processScan t buf B).2 B := by
    unfold levelOf processScan
    rw [hbuf]
  have h := active_level_fields t M p ins n B ch
  simp only [hch, if_true, e] at h
  exact h

/-- The entry `"active_channels"` of the kernel's statistics. -/
theorem kernel_active_channels_entry (k : WDSPKernel α) (p : DuganProcessor α)
    (h : k.processor = some p) :
    ("active_channels", ((getActiveChannelCount p : Int) : α)) ∈ k.getStatistics := by
  unfold WDSPKernel.getStatistics
  rw [h]
  simp

/-- The override test of an Active block sees the processed channels only. -/
theorem processLevels_anyOverride (t : Target) (M : LibM α) (p : DuganProcessor α)
    (ins : Buffers α) (n B : Nat) :
    anyOverrideIn (processLevels t M p ins (min n 4) B) (min n 4) =
      decide (∃ ch : Fin 4, ch.val < n ∧ (p.channels ch).overrideEnabled = true) := by
  unfold anyOverrideIn
  simp only [lt_min_four, (processLevels_sameConfig t M p ins (min n 4) B).overrideEnabled]

/-- C23. In an Active block `anyOverride` is true exactly when a processed channel
(index `< numChannels`) has `overrideEnabled`.  In that case every processed channel
without `overrideEnabled` gets the target gain `0.1 * 10^(masterGain/20)` and its
smoothed gain moves towards it.  When no processed channel has `overrideEnabled`,
whatever the flags of the channels from `numChannels` on, a processed channel gets the
automatic target `sqrt(L*w/T) * k * M` (auto-enabled) or `M` (manual). -/
theorem process_anyOverride_scope (t : Target) (M : LibM α) (p : DuganProcessor α)
    (ins outs : Buffers α) (n B : Nat) (d : Int)
    (hb : p.bypassEnabled = false) (hn : 0 < n) (hB : 0 < B) :
    let p1 := processLevels t M p ins (min n 4) B
    let Mg := M.pow 10 (p.masterGain / 20)
    ∃ (q : DuganProcessor α) (outs1 : Buffers α),
      process t M p (some ins) (some outs) n B d = .ok (q, some outs1) ∧
      ((computeGainsFirstPass M p1 (min n 4)).anyOverride = true ↔
        ∃ ch : Fin 4, ch.val < n ∧ (p.channels ch).overrideEnabled = true) ∧
      ((∃ ch : Fin 4, ch.val < n ∧ (p.channels ch).overrideEnabled = true) →
        ∀ c : Fin 4, c.val < n → (p.channels c).overrideEnabled = false →
          targetGain M (computeGains M p1 (min n 4))
            (computeGainsFirstPass M p1 (min n 4)).anyOverride (p1.channels c) = 0.1 * Mg ∧
          (q.channels c).smoothedGain =
            smoothGain (p.channels c).smoothedGain (0.1 * Mg) p.smoothingCoeff) ∧
      ((∀ ch : Fin 4, ch.val < n → (p.channels ch).overrideEnabled = false) →
        ∀ c : Fin 4, c.val < n →
          targetGain M (computeGains M p1 (min n 4))
            (computeGainsFirstPass M p1 (min n 4)).anyOverride (p1.channels c) =
            (if (p.channels c).autoEnabled = true then
              M.sqrt (M.pow 10 ((q.channels c).inputLevel / 20) * (p.channels c).weight /
                  q.totalWeightedLevel) *
                (if q.activeChannelCount > 1 then 0.9 else 1)
            else 1) * Mg) := by
  intro p1 Mg
  refine ⟨_, _, process_active t M p ins outs n B d hb hn hB, ?_, ?_, ?_⟩
  · rw [firstPass_eq]
    show anyOverrideIn p1 (min n 4) = true ↔ _
    rw [processLevels_anyOverride, decide_eq_true_iff]
  · intro hany c hc hov
    have hc4 : c.val < min n 4 := (lt_min_four c n).2 hc
    obtain ⟨h1, h2⟩ := computeGains_smoothedGain M p1 (min n 4) c hc4
    have hao : anyOverrideIn p1 (min n 4) = true := by
      rw [processLevels_anyOverride]
      exact decide_eq_true hany
    have hov1 : (p1.channels c).overrideEnabled = false := by
      rw [(processLevels_sameConfig t M p ins (min n 4) B).overrideEnabled]
      exact hov
    have hg : targetGain M (afterFirstPass M p1 (min n 4)) (anyOverrideIn p1 (min n 4))
        (p1.channels c) = 0.1 * Mg := by
      rw [hao, targetGain_override, hov1]
      simp only [Bool.false_eq_true, if_false]
      show 0.1 * M.pow 10 (p1.masterGain / 20) = _
      rw [(processLevels_sameConfig t M p ins (min n 4) B).masterGain]
    refine ⟨by rw [h1, hg], ?_⟩
    show ((computeGains M p1 (min n 4)).channels c).smoothedGain = _
    rw [h2, hg, processLevels_smoothedGain,
      (processLevels_sameConfig t M p ins (min n 4) B).smoothingCoeff]
  · intro hno c hc
    have hc4 : c.val < min n 4 := (lt_min_four c n).2 hc
    obtain ⟨h1, -⟩ := computeGains_smoothedGain M p1 (min n 4) c hc4
    have hao : anyOverrideIn p1 (min n 4) = false := by
      rw [processLevels_anyOverride]
      rw [decide_eq_false_iff_not]
      rintro ⟨ch, hch, hov⟩
      rw [hno ch hch] at hov
      exact Bool.false_ne_true hov
    obtain ⟨s1, s2, -⟩ := computeGains_scalars M p1 (min n 4)
    have hlev := (computeGains_level_fields M p1 (min n 4) c).2.2.1
    show _ = (if (p.channels c).autoEnabled = true then
        M.sqrt (M.pow 10 (((computeGains M p1 (min n 4)).channels c).inputLevel / 20) *
          (p.channels c).weight / (computeGains M p1 (min n 4)).totalWeightedLevel) *
          (if (computeGains M p1 (min n 4)).activeChannelCount > 1 then 0.9 else 1)
      else 1) * Mg
    rw [h1, hao, s1, s2, hlev]
    have hw := (processLevels_sameConfig t M p ins (min n 4) B).weight c
    have ha := (processLevels_sameConfig t M p ins (min n 4) B).autoEnabled c
    have hm := (processLevels_sameConfig t M p ins (min n 4) B).masterGain
    cases hauto : (p.channels c).autoEnabled with
    | false =>
      rw [hauto] at ha
      rw [targetGain_manual M _ _ ha]
      simp only [Bool.false_eq_true, if_false, one_mul]
      show M.pow 10 (p1.masterGain / 20) = _
      rw [hm]
    | true =>
      rw [hauto] at ha
      rw [targetGain_auto M p1 (min n 4) _ ha, hw, hm]
      simp only [if_true, gt_iff_lt, Nat.one_lt_cast]

theorem processScan_eq_scanScalar (t : Target) (input : Nat → α) (B : Nat) :
    processScan t input B = scanScalar input B := by
  unfold processScan
  split_ifs
  · exact scanOptimized_eq_scanScalar input B
  · rfl

/-- A call of `process` either leaves the processor as it was, or it has at least one
sample and leaves the channels the level update and the gain computation produce. -/
theorem processState_cases (t : Target) (M : LibM α) (p : DuganProcessor α) (b : Block α) :
    processState t M p b = p ∨
    (0 < b.numSamples ∧ ∃ ins : Buffers α,
      (processState t M p b).channels =
        (computeGains M (processLevels t M p ins (min b.numChannels 4) b.numSamples)
          (min b.numChannels 4)).channels) := by
  cases hb : p.bypassEnabled with
  | true =>
    left
    unfold processState process
    simp only [hb, if_true]
    split_ifs
    · rfl
    · cases b.inputs <;> cases b.outputs <;> rfl
  | false =>
    cases hi : b.inputs with
    | none =>
      left
      unfold processState process
      simp only [hb, hi, Bool.false_eq_true, if_false]
    | some ins =>
      cases ho : b.outputs with
      | none =>
        left
        unfold processState process
        simp only [hb, hi, ho, Bool.false_eq_true, if_false]
      | some outs =>
        by_cases h0 : b.numChannels = 0 ∨ b.numSamples = 0
        · left
          have h1 : min b.numChannels kMaxChannels = 0 ∨ b.numSamples = 0 := by
            rcases h0 with h | h
            · left; rw [h]; exact Nat.zero_min _
            · right; exact h
          unfold processState process
          simp only [hb, hi, ho, Bool.false_eq_true, if_false, if_pos h1]
        · right
          have hn : 0 < b.numChannels := by
            rcases Nat.eq_zero_or_pos b.numChannels with h | h
            · exact absurd (Or.inl h) h0
            · exact h
          have hB : 0 < b.numSamples := by
            rcases Nat.eq_zero_or_pos b.numSamples with h | h
            · exact absurd (Or.inr h) h0
            · exact h
          exact ⟨hB, ins, processState_active t M p b ins outs hi ho hb hn hB⟩

/-- The channel loop of `updateLevelsOptimized` with its `resize`: it throws when the
buffer is too short, a remaining processed channel has a buffer and the `resize` fails,
and then the processor is as it was; otherwise it ends with what the loop without the
`resize` leaves. -/
theorem updateLevelsOptimized_foldlM (M : LibM α) (inputs : Buffers α) (n B : Nat)
    (l : List (Fin 4)) (q : DuganProcessor α) (b : ThreadLocalBuffer) :
    l.foldlM (updateLevelsOptimizedLoop M inputs n B) (q, b) =
      if b.size < B ∧ ∃ ch ∈ l, ch.val < n ∧ (inputs ch.val).isSome = true then
        match b.resize B with
        | some e => .error (.resizeFailed e, q)
        | none =>
          .ok (l.foldl
            (fun q ch =>
              if ch.val < n then updateLevelsStep scanOptimized M inputs B q ch else q) q,
            { b with size := B })
      else
        .ok (l.foldl
          (fun q ch =>
            if ch.val < n then updateLevelsStep scanOptimized M inputs B q ch else q) q, b) := by
  induction l generalizing q b with
  | nil =>
    simp only [List.foldlM_nil, List.foldl_nil, List.not_mem_nil, false_and, exists_false,
      and_false, if_false]
    rfl
  | cons a l ih =>
    rw [List.foldlM_cons, List.foldl_cons]
    by_cases ha : a.val < n
    · cases hin : inputs a.val with
      | none =>
        have h1 : updateLevelsOptimizedLoop M inputs n B (q, b) a = .ok (q, b) := by
          simp only [updateLevelsOptimizedLoop, ha, if_true, updateLevelsOptimizedStep, hin]
        have h2 : updateLevelsStep scanOptimized M inputs B q a = q := by
          simp only [updateLevelsStep, hin]
        rw [h1, if_pos ha, h2]
        show l.foldlM (updateLevelsOptimizedLoop M inputs n B) (q, b) = _
        rw [ih]
        have hex : (∃ ch ∈ a :: l, ch.val < n ∧ (inputs ch.val).isSome = true) ↔
            ∃ ch ∈ l, ch.val < n ∧ (inputs ch.val).isSome = true := by
          constructor
          · rintro ⟨ch, hm, hc, hne⟩
            rcases List.mem_cons.1 hm with h | h
            · subst h; rw [hin] at hne; exact absurd hne (by simp)
            · exact ⟨ch, h, hc, hne⟩
          · rintro ⟨ch, hm, hc, hne⟩
            exact ⟨ch, List.mem_cons_of_mem _ hm, hc, hne⟩
        simp only [hex]
      | some buf =>
        have hex : ∃ ch ∈ a :: l, ch.val < n ∧ (inputs ch.val).isSome = true :=
          ⟨a, List.mem_cons_self _ _, ha, by rw [hin]; rfl⟩
        by_cases hs : b.size < B
        · rw [if_pos ⟨hs, hex⟩, if_pos ha]
          cases hr : b.resize B with
          | some e =>
            have h1 : updateLevelsOptimizedLoop M inputs n B (q, b) a =
                .error (.resizeFailed e, q) := by
              simp only [updateLevelsOptimizedLoop, ha, if_true, updateLevelsOptimizedStep, hin,
                hs, hr]
            rw [h1]
            rfl
          | none =>
            have h1 : updateLevelsOptimizedLoop M inputs n B (q, b) a =
                .ok (updateLevelsStep scanOptimized M inputs B q a, { b with size := B }) := by
              simp only [updateLevelsOptimizedLoop, ha, if_true, updateLevelsOptimizedStep, hin,
                hs, hr]
            rw [h1]
            show l.foldlM (updateLevelsOptimizedLoop M inputs n B) _ = _
            rw [ih, if_neg (fun h => absurd h.1 (lt_irrefl B))]
        · have h1 : updateLevelsOptimizedLoop M inputs n B (q, b) a =
              .ok (updateLevelsStep scanOptimized M inputs B q a, b) := by
            simp only [updateLevelsOptimizedLoop, ha, if_true, updateLevelsOptimizedStep, hin,
              hs, if_false]
          rw [h1, if_neg (fun h => hs h.1), if_pos ha]
          show l.foldlM (updateLevelsOptimizedLoop M inputs n B) _ = _
          rw [ih, if_neg (fun h => hs h.1)]
    · have h1 : updateLevelsOptimizedLoop M inputs n B (q, b) a = .ok (q, b) := by
        simp only [updateLevelsOptimizedLoop, ha, if_false]
      rw [h1, if_neg ha]
      show l.foldlM (updateLevelsOptimizedLoop M inputs n B) (q, b) = _
      rw [ih]
      have hex : (∃ ch ∈ a :: l, ch.val < n ∧ (inputs ch.val).isSome = true) ↔
          ∃ ch ∈ l, ch.val < n ∧ (inputs ch.val).isSome = true := by
        constructor
        · rintro ⟨ch, hm, hc, hne⟩
          rcases List.mem_cons.1 hm with h | h
          · subst h; exact absurd hc ha
          · exact ⟨ch, h, hc, hne⟩
        · rintro ⟨ch, hm, hc, hne⟩
          exact ⟨ch, List.mem_cons_of_mem _ hm, hc, hne⟩
      simp only [hex]

/-- A call of `updateLevelsOptimized`: the exception of a failed `resize` with the
processor untouched, or the result of the loop without the `resize`. -/
theorem updateLevelsOptimizedCall_eq (M : LibM α) (p : DuganProcessor α)
    (buffer : ThreadLocalBuffer) (inputs : Buffers α) (n B : Nat) :
    updateLevelsOptimizedCall M p buffer inputs n B =
      if buffer.size < B ∧ ∃ ch : Fin 4, ch.val < n ∧ (inputs ch.val).isSome = true then
        match buffer.resize B with
        | some e => .error (.resizeFailed e, p)
        | none => .ok (updateLevelsOptimized M p inputs n B, { buffer with size := B })
      else .ok (updateLevelsOptimized M p inputs n B, buffer) := by
  unfold updateLevelsOptimizedCall
  rw [updateLevelsOptimized_foldlM]
  have hex : (∃ ch ∈ List.finRange 4, ch.val < n ∧ (inputs ch.val).isSome = true) ↔
      ∃ ch : Fin 4, ch.val < n ∧ (inputs ch.val).isSome = true := by
    constructor
    · rintro ⟨ch, -, h⟩; exact ⟨ch, h⟩
    · rintro ⟨ch, h⟩; exact ⟨ch, List.mem_finRange ch, h⟩
  simp only [hex]
  rfl

/-- The statements of `process` after the level update, as `process` runs them. -/
theorem process_eq_processFinish (t : Target) (M : LibM α) (p : DuganProcessor α)
    (ins outs : Buffers α) (n B : Nat) (d : Int) (hb : p.bypassEnabled = false)
    (h0 : ¬ (min n kMaxChannels = 0 ∨ B = 0)) :
    process t M p (some ins) (some outs) n B d =
      .ok (processFinish t M (processLevels t M p ins (min n kMaxChannels) B) ins outs
        (min n kMaxChannels) B d) := by
  unfold process processFinish
  simp only [hb, Bool.false_eq_true, if_false, h0]

/-- A call of `process` on an Active block with non-null pointer arrays, at least one
channel and one sample: the exception of a failed `resize` with the processor untouched,
or what `process` returns. -/
theorem processCall_active (t : Target) (M : LibM α) (buffer : ThreadLocalBuffer)
    (p : DuganProcessor α) (ins outs : Buffers α) (n B : Nat) (d : Int)
    (hb : p.bypassEnabled = false) (h0 : ¬ (min n kMaxChannels = 0 ∨ B = 0)) :
    processCall t M buffer p (some ins) (some outs) n B d =
      if t.haveSimd = true ∧ buffer.size < B ∧
          ∃ ch : Fin 4, ch.val < n ∧ (ins ch.val).isSome = true then
        match buffer.resize B with
        | some e => .error (.resizeFailed e, p)
        | none =>
          .ok (processFinish t M (processLevels t M p ins (min n kMaxChannels) B) ins outs
            (min n kMaxChannels) B d, { buffer with size := B })
      else
        .ok (processFinish t M (processLevels t M p ins (min n kMaxChannels) B) ins outs
          (min n kMaxChannels) B d, buffer) := by
  have hlt : ∀ ch : Fin 4, ch.val < min n kMaxChannels ↔ ch.val < n := fun ch => lt_min_four ch n
  unfold processCall
  simp only [hb, Bool.false_eq_true, if_false, h0]
  cases hs : t.haveSimd with
  | false =>
    simp only [Bool.false_eq_true, if_false, false_and]
    unfold processLevels
    simp only [hs, Bool.false_eq_true, if_false]
  | true =>
    simp only [if_true, true_and]
    rw [updateLevelsOptimizedCall_eq]
    simp only [hlt]
    unfold processLevels
    simp only [hs, if_true]
    by_cases hc : buffer.size < B ∧ ∃ ch : Fin 4, ch.val < n ∧ (ins ch.val).isSome = true
    · simp only [hc, and_self, if_true]
      cases buffer.resize B <;> rfl
    · simp only [hc, if_false]

/-- C25. With bypass off, a call of `process` throws `std::invalid_argument` exactly when
the `inputs` or the `outputs` pointer array is null.  The only other exception is that of
`threadLocalBuffer.resize(numSamples)` in `updateLevelsOptimized`: it is thrown exactly
when the build has `HAVE_SIMD`, both arrays are non-null, the thread-local buffer is
shorter than `numSamples`, a processed channel has a buffer and the `resize` fails.
Whenever the call throws, the processor is as it was before the call.  In every other
case the call returns what `process` returns; with `numChannels = 0` or
`numSamples = 0` it returns the processor, the output buffers and the thread-local
buffer unchanged, so the level update, with its division by `numSamples`, is not run. -/
theorem process_raises_iff (t : Target) (M : LibM α) (buffer : ThreadLocalBuffer)
    (p : DuganProcessor α) (inputs outputs : Option (Buffers α)) (n B : Nat) (d : Int)
    (hb : p.bypassEnabled = false) :
    ((∃ q, processCall t M buffer p inputs outputs n B d = .error (.invalidArgument, q)) ↔
      inputs = none ∨ outputs = none) ∧
    (∀ e q, processCall t M buffer p inputs outputs n B d = .error (e, q) →
      q = p ∧
      (e = .invalidArgument ∨
        ∃ r ins, e = .resizeFailed r ∧ t.haveSimd = true ∧ inputs = some ins ∧
          buffer.size < B ∧ buffer.resize B = some r ∧
          ∃ ch : Fin 4, ch.val < n ∧ (ins ch.val).isSome = true)) ∧
    (∀ ins outs r, inputs = some ins → outputs = some outs → t.haveSimd = true →
      buffer.size < B → buffer.resize B = some r →
      (∃ ch : Fin 4, ch.val < n ∧ (ins ch.val).isSome = true) →
      processCall t M buffer p inputs outputs n B d = .error (.resizeFailed r, p)) ∧
    (∀ ins outs, inputs = some ins → outputs = some outs →
      (t.haveSimd = false ∨ B ≤ buffer.size ∨ buffer.resize B = none ∨
        ∀ ch : Fin 4, ch.val < n → ins ch.val = none) →
      ∃ (q : DuganProcessor α) (outs1 : Buffers α) (buffer1 : ThreadLocalBuffer),
        processCall t M buffer p inputs outputs n B d = .ok ((q, some outs1), buffer1) ∧
        process t M p inputs outputs n B d = .ok (q, some outs1)) ∧
    (∀ ins outs, inputs = some ins → outputs = some outs → n = 0 ∨ B = 0 →
      processCall t M buffer p inputs outputs n B d = .ok ((p, some outs), buffer) ∧
      process t M p inputs outputs n B d = .ok (p, some outs)) := by
  have hnull : inputs = none ∨ outputs = none →
      processCall t M buffer p inputs outputs n B d = .error (.invalidArgument, p) := by
    rintro (h | h)
    · subst h
      unfold processCall
      simp only [hb, Bool.false_eq_true, if_false]
    · subst h
      unfold processCall
      simp only [hb, Bool.false_eq_true, if_false]
  have hzero : ∀ ins outs, inputs = some ins → outputs = some outs →
      (min n kMaxChannels = 0 ∨ B = 0) →
      processCall t M buffer p inputs outputs n B d = .ok ((p, some outs), buffer) ∧
      process t M p inputs outputs n B d = .ok (p, some outs) := by
    intro ins outs hi ho h0
    subst hi ho
    unfold processCall process
    simp only [hb, Bool.false_eq_true, if_false, h0, if_true, and_self]
  -- every exception with non-null arrays is a failed resize
  have herr : ∀ ins outs e q, inputs = some ins → outputs = some outs →
      processCall t M buffer p inputs outputs n B d = .error (e, q) →
      q = p ∧ ∃ r, e = .resizeFailed r ∧ t.haveSimd = true ∧
        buffer.size < B ∧ buffer.resize B = some r ∧
        ∃ ch : Fin 4, ch.val < n ∧ (ins ch.val).isSome = true := by
    intro ins outs e q hi ho he
    subst hi ho
    by_cases h0 : min n kMaxChannels = 0 ∨ B = 0
    · rw [(hzero ins outs rfl rfl h0).1] at he
      cases he
    · rw [processCall_active t M buffer p ins outs n B d hb h0] at he
      split_ifs at he with hc
      · cases hr : buffer.resize B with
        | none =>
          rw [hr] at he
          cases he
        | some r =>
          rw [hr] at he
          have := Except.error.inj he
          exact ⟨(congrArg Prod.snd this).symm, r, (congrArg Prod.fst this).symm, hc.1, hc.2.1,
            rfl, hc.2.2⟩
  refine ⟨⟨?_, fun h => ⟨p, hnull h⟩⟩, ?_, ?_, ?_, ?_⟩
  · rintro ⟨q, hq⟩
    cases hi : inputs with
    | none => exact Or.inl rfl
    | some ins =>
      cases ho : outputs with
      | none => exact Or.inr rfl
      | some outs =>
        obtain ⟨-, r, hr, -⟩ := herr ins outs _ q hi ho hq
        cases hr
  · intro e q he
    cases hi : inputs with
    | none =>
      rw [hnull (Or.inl hi)] at he
      have := Except.error.inj he
      exact ⟨(congrArg Prod.snd this).symm, Or.inl (congrArg Prod.fst this).symm⟩
    | some ins =>
      cases ho : outputs with
      | none =>
        rw [hnull (Or.inr ho)] at he
        have := Except.error.inj he
        exact ⟨(congrArg Prod.snd this).symm, Or.inl (congrArg Prod.fst this).symm⟩
      | some outs =>
        obtain ⟨hq, r, hr, hs, hsz, hres, hch⟩ := herr ins outs e q hi ho he
        exact ⟨hq, Or.inr ⟨r, ins, hr, hs, rfl, hsz, hres, hch⟩⟩
  · intro ins outs r hi ho hs hsz hres hch
    subst hi ho
    have h0 : ¬ (min n kMaxChannels = 0 ∨ B = 0) := by
      obtain ⟨ch, hc, -⟩ := hch
      have : 0 < min n kMaxChannels := by
        have := (lt_min_four ch n).2 hc
        exact lt_of_le_of_lt (Nat.zero_le _) this
      omega
    rw [processCall_active t M buffer p ins outs n B d hb h0, if_pos ⟨hs, hsz, hch⟩, hres]
  · intro ins outs hi ho hcond
    subst hi ho
    by_cases h0 : min n kMaxChannels = 0 ∨ B = 0
    · exact ⟨p, outs, buffer, hzero ins outs rfl rfl h0⟩
    · rw [processCall_active t M buffer p ins outs n B d hb h0,
        process_eq_processFinish t M p ins outs n B d hb h0]
      by_cases hc : t.haveSimd = true ∧ buffer.size < B ∧
          ∃ ch : Fin 4, ch.val < n ∧ (ins ch.val).isSome = true
      · rw [if_pos hc]
        have hres : buffer.resize B = none := by
          rcases hcond with h | h | h | h
          · rw [hc.1] at h; exact absurd h (by decide)
          · exact absurd hc.2.1 (not_lt.2 h)
          · exact h
          · obtain ⟨ch, hch, hsome⟩ := hc.2.2
            rw [h ch hch] at hsome
            exact absurd hsome (by simp)
        rw [hres]
        exact ⟨_, _, _, rfl, rfl⟩
      · rw [if_neg hc]
        exact ⟨_, _, _, rfl, rfl⟩
  · intro ins outs hi ho h0
    refine hzero ins outs hi ho ?_
    rcases h0 with h | h
    · left; subst h; exact Nat.zero_min _
    · right; exact h

end BlockLemmas

/-! ## Claims over the real numbers -/

section RealClaims

/-- C4. For `N` from 1 to 4, when the `N` processed channels are all auto-enabled,
none is in override and all have the same level and the same weight `w > 0`, with
`N * 10^(level / 20) * w` at or above the floor `1e-6`, every channel gets the same
target gain, and the gain before the multi-active factor and the master multiplier,
`sqrt(L * w / T)`, is `1 / sqrt N`. -/
theorem equal_channels_share (p : DuganProcessor ℝ) (N : Nat) (lvl w : ℝ)
    (hN1 : 1 ≤ N) (hN4 : N ≤ 4)
    (hch : ∀ ch : Fin 4, ch.val < N → (p.channels ch).autoEnabled = true ∧
      (p.channels ch).overrideEnabled = false ∧ (p.channels ch).inputLevel = lvl ∧
      (p.channels ch).weight = w)
    (hw : 0 < w) (hfloor : (1e-6 : ℝ) ≤ N * (10 : ℝ) ^ (lvl / 20) * w) :
    let k : ℝ := if 1 < N ∧ p.adaptiveThreshold < lvl then 0.9 else 1
    let Mg : ℝ := (10 : ℝ) ^ (p.masterGain / 20)
    ∀ c : Fin 4, c.val < N →
      (computeGains LibM.real p N).totalWeightedLevel = N * (10 : ℝ) ^ (lvl / 20) * w ∧
      Real.sqrt ((10 : ℝ) ^ ((p.channels c).inputLevel / 20) * (p.channels c).weight /
        (computeGains LibM.real p N).totalWeightedLevel) = 1 / Real.sqrt N ∧
      targetGain LibM.real (computeGains LibM.real p N)
        (computeGainsFirstPass LibM.real p N).anyOverride (p.channels c) =
          1 / Real.sqrt N * k * Mg ∧
      ((computeGains LibM.real p N).channels c).smoothedGain =
        smoothGain (p.channels c).smoothedGain (1 / Real.sqrt N * k * Mg) p.smoothingCoeff := by
  intro k Mg c hc
  have hL : (0 : ℝ) < (10 : ℝ) ^ (lvl / 20) := Real.rpow_pos_of_pos (by norm_num) _
  have hNpos : (0 : ℝ) < N := by exact_mod_cast hN1
  have hsum : weightedLevelSum LibM.real p N = N * ((10 : ℝ) ^ (lvl / 20) * w) :=
    weightedLevelSum_equal LibM.real p N lvl w hN4
      (fun ch h => ⟨(hch ch h).1, (hch ch h).2.2.1, (hch ch h).2.2.2⟩)
  have hT : (computeGains LibM.real p N).totalWeightedLevel = N * (10 : ℝ) ^ (lvl / 20) * w := by
    rw [(computeGains_scalars LibM.real p N).1, hsum, ← mul_assoc]
    exact max_eq_left hfloor
  have hcnt : activeCount p N = if p.adaptiveThreshold < lvl then N else 0 :=
    activeCount_equal p N lvl hN4 (fun ch h => ⟨(hch ch h).1, (hch ch h).2.2.1⟩)
  have hsqrt : Real.sqrt ((10 : ℝ) ^ (lvl / 20) * w / (N * (10 : ℝ) ^ (lvl / 20) * w)) =
      1 / Real.sqrt N := by
    have : (10 : ℝ) ^ (lvl / 20) * w / (N * (10 : ℝ) ^ (lvl / 20) * w) = (N : ℝ)⁻¹ := by
      field_simp
      ring
    rw [this, Real.sqrt_inv, one_div]
  have hk : (if 1 < activeCount p N then (0.9 : ℝ) else 1) = k := by
    rw [hcnt]
    by_cases hl : p.adaptiveThreshold < lvl
    · simp [k, hl]
    · simp [k, hl]
  have hg : targetGain LibM.real (afterFirstPass LibM.real p N) (anyOverrideIn p N)
      (p.channels c) = 1 / Real.sqrt N * k * Mg := by
    rw [anyOverrideIn_eq_false p N (fun ch h => (hch ch h).2.1),
      targetGain_auto LibM.real p N _ (hch c hc).1, hk, (hch c hc).2.2.1, (hch c hc).2.2.2,
      hsum]
    have hmax : max ((N : ℝ) * ((10 : ℝ) ^ (lvl / 20) * w)) kMinLevel =
        N * (10 : ℝ) ^ (lvl / 20) * w := by
      rw [← mul_assoc]
      exact max_eq_left hfloor
    rw [hmax]
    show Real.sqrt ((10 : ℝ) ^ (lvl / 20) * w / (N * (10 : ℝ) ^ (lvl / 20) * w)) * k * Mg = _
    rw [hsqrt]
  obtain ⟨h1, h2⟩ := computeGains_smoothedGain LibM.real p N c hc
  refine ⟨hT, ?_, by rw [h1, hg], by rw [h2, hg]⟩
  rw [hT, (hch c hc).2.2.1, (hch c hc).2.2.2, hsqrt]

/-- The peak of a silent block, in dB: the floor, -60. -/
theorem silent_peakDb :
    clamp (20 * LibM.real.log10 (max (0 : ℝ) kMinLevel)) kNoiseFloorThreshold 0 = -60 := by
  have hmax : max (0 : ℝ) kMinLevel = kMinLevel := max_eq_right kMinLevel_pos.le
  have hlt : Real.logb 10 (kMinLevel : ℝ) < -3 := by
    rw [Real.logb_lt_iff_lt_rpow (by norm_num) kMinLevel_pos]
    have : (10 : ℝ) ^ (-3 : ℝ) = 1 / 1000 := by
      rw [Real.rpow_neg (by norm_num)]
      norm_num
    rw [this]
    unfold kMinLevel
    norm_num
  rw [hmax]
  unfold clamp kNoiseFloorThreshold
  have h2 : 20 * LibM.real.log10 (kMinLevel : ℝ) < -60 := by
    show 20 * Real.logb 10 (kMinLevel : ℝ) < -60
    linarith
  rw [if_pos h2]

/-- One silent Active block on a channel whose displayed peak is at or above the floor:
the peak is held while the counter is positive and decays otherwise. -/
theorem silent_block_peak (t : Target) (p : DuganProcessor ℝ) (b : Block ℝ)
    (ins outs : Buffers ℝ) (buf : Nat → ℝ) (hi : b.inputs = some ins)
    (ho : b.outputs = some outs) (hb : p.bypassEnabled = false) (hB : 0 < b.numSamples)
    (c : Fin 4) (hc : c.val < b.numChannels) (hbuf : ins c.val = some buf)
    (hsil : ∀ i, i < b.numSamples → buf i = 0) (hfloor : -60 ≤ (p.channels c).peakLevel) :
    (-60 : ℝ) ≤ ((processState t LibM.real p b).channels c).inputLevel ∧
    ((p.channels c).peakHoldCounter > 0 →
      ((processState t LibM.real p b).channels c).peakLevel = (p.channels c).peakLevel ∧
      ((processState t LibM.real p b).channels c).peakHoldCounter =
        (p.channels c).peakHoldCounter - 1) ∧
    (¬ (p.channels c).peakHoldCounter > 0 →
      ((processState t LibM.real p b).channels c).peakLevel =
        max ((p.channels c).peakLevel - 3)
          ((processState t LibM.real p b).channels c).inputLevel ∧
      ((processState t LibM.real p b).channels c).peakHoldCounter =
        (p.channels c).peakHoldCounter) := by
  obtain ⟨h1, h2, h3⟩ := processState_levels t LibM.real p b ins outs buf hi ho hb hB c hc hbuf
  obtain ⟨-, k2, k3⟩ := updateChannelLevel_peak LibM.real p (p.channels c)
    (processScan t buf b.numSamples).1 (processScan t buf b.numSamples).2 b.numSamples
  rw [processScan_silent t buf b.numSamples hsil, silent_peakDb] at k2 k3
  have hnot : ¬ (-60 : ℝ) > (p.channels c).peakLevel := not_lt.mpr hfloor
  have hge := updateChannelLevel_inputLevel_ge LibM.real p (p.channels c)
    (processScan t buf b.numSamples).1 (processScan t buf b.numSamples).2 b.numSamples
  rw [h1, h2, h3]
  rw [processScan_silent t buf b.numSamples hsil] at hge ⊢
  refine ⟨?_, k2 hnot, k3 hnot⟩
  have : (kNoiseFloorThreshold : ℝ) = -60 := rfl
  rw [← this]
  exact hge

/-- C9. Peak hold, then decay.  When a block of `B` samples adopts a new displayed
peak `P > -60` it arms the hold counter with `H = trunc(2 * sampleRate / B)`; if all
later blocks are silent, the displayed peak equals `P` after each of the `H` blocks
that follow, and after every later block it is the larger of the previous peak
minus 3 and the channel's `inputLevel` of that block, hence never below that level. -/
theorem peak_hold_then_decay (t : Target) (p : DuganProcessor ℝ) (c : Fin 4)
    (blocks : Nat → Block ℝ) (bufs : Nat → Nat → ℝ) (B : Nat) (P : ℝ)
    (hb : p.bypassEnabled = false) (hB : 0 < B)
    (hblocks : ∀ k, (blocks k).numSamples = B ∧ c.val < (blocks k).numChannels ∧
      (blocks k).outputs ≠ none ∧
      ∃ ins, (blocks k).inputs = some ins ∧ ins c.val = some (bufs k))
    (hP : P = clamp (20 * Real.logb 10 (max (processScan t (bufs 0) B).2 1e-6)) (-60) 0)
    (hadopt : (p.channels c).peakLevel < P)
    (hP60 : -60 < P)
    (hsilent : ∀ k, 1 ≤ k → ∀ i, i < B → bufs k i = 0) :
    let s := stateAfter t LibM.real p blocks
    let H : Int := truncToInt (2 * p.sampleRate / (B : ℝ))
    ((s 1).channels c).peakLevel = P ∧
    ((s 1).channels c).peakHoldCounter = H ∧
    (∀ k : Nat, 1 ≤ k → (k : Int) ≤ H + 1 → ((s k).channels c).peakLevel = P) ∧
    (∀ k : Nat, 1 ≤ k → H + 1 ≤ (k : Int) →
      ((s (k + 1)).channels c).peakLevel =
        max (((s k).channels c).peakLevel - 3) ((s (k + 1)).channels c).inputLevel ∧
      ((s (k + 1)).channels c).inputLevel ≤ ((s (k + 1)).channels c).peakLevel) := by
  intro s H
  have hbyp : ∀ k, (s k).bypassEnabled = false := fun k =>
    (stateAfter_sameConfig t LibM.real p blocks k).bypassEnabled.trans hb
  -- the adopting block
  have hfirst : ((s 1).channels c).peakLevel = P ∧ ((s 1).channels c).peakHoldCounter = H := by
    obtain ⟨hBk, hck, hok, ins, hik, hbuf⟩ := hblocks 0
    obtain ⟨outs, hok⟩ := Option.ne_none_iff_exists'.mp hok
    obtain ⟨h1, h2, -⟩ := processState_levels t LibM.real p (blocks 0) ins outs (bufs 0) hik hok
      hb (by omega) c hck hbuf
    obtain ⟨k1, -, -⟩ := updateChannelLevel_peak LibM.real p (p.channels c)
      (processScan t (bufs 0) (blocks 0).numSamples).1
      (processScan t (bufs 0) (blocks 0).numSamples).2 (blocks 0).numSamples
    rw [hBk] at h1 h2 k1
    have hPeq : clamp (20 * LibM.real.log10 (max (processScan t (bufs 0) B).2 kMinLevel))
        kNoiseFloorThreshold 0 = P := hP.symm
    rw [hPeq] at k1
    obtain ⟨k11, k12⟩ := k1 hadopt
    exact ⟨h1.trans k11, h2.trans k12⟩
  -- one silent block
  have hstep : ∀ k : Nat, 1 ≤ k → -60 ≤ ((s k).channels c).peakLevel →
      (-60 : ℝ) ≤ ((s (k + 1)).channels c).inputLevel ∧
      (((s k).channels c).peakHoldCounter > 0 →
        ((s (k + 1)).channels c).peakLevel = ((s k).channels c).peakLevel ∧
        ((s (k + 1)).channels c).peakHoldCounter = ((s k).channels c).peakHoldCounter - 1) ∧
      (¬ ((s k).channels c).peakHoldCounter > 0 →
        ((s (k + 1)).channels c).peakLevel =
          max (((s k).channels c).peakLevel - 3) ((s (k + 1)).channels c).inputLevel ∧
        ((s (k + 1)).channels c).peakHoldCounter = ((s k).channels c).peakHoldCounter) := by
    intro k hk hfl
    obtain ⟨hBk, hck, hok, ins, hik, hbuf⟩ := hblocks k
    obtain ⟨outs, hok⟩ := Option.ne_none_iff_exists'.mp hok
    exact silent_block_peak t (s k) (blocks k) ins outs (bufs k) hik hok (hbyp k) (by omega) c
      hck hbuf (fun i hi => hsilent k hk i (by omega)) hfl
  -- the invariant of the silent blocks
  have hinv : ∀ j : Nat, (-60 : ℝ) ≤ ((s (j + 1)).channels c).peakLevel ∧
      ((j : Int) ≤ H → ((s (j + 1)).channels c).peakLevel = P ∧
        ((s (j + 1)).channels c).peakHoldCounter = H - j) ∧
      (H < (j : Int) → ((s (j + 1)).channels c).peakHoldCounter ≤ 0) := by
    intro j
    induction j with
    | zero =>
      refine ⟨by rw [hfirst.1]; exact hP60.le, fun _ => ⟨hfirst.1, by rw [hfirst.2]; simp⟩,
        fun h => by rw [hfirst.2]; simpa using h.le⟩
    | succ j ih =>
      obtain ⟨i1, i2, i3⟩ := ih
      obtain ⟨s1, s2, s3⟩ := hstep (j + 1) (by omega) i1
      by_cases hjH : ((j + 1 : Nat) : Int) ≤ H
      · have hj : (j : Int) ≤ H := by push_cast at hjH; omega
        obtain ⟨e1, e2⟩ := i2 hj
        have hpos : ((s (j + 1)).channels c).peakHoldCounter > 0 := by
          rw [e2]; push_cast at hjH; omega
        obtain ⟨f1, f2⟩ := s2 hpos
        refine ⟨by rw [f1]; exact i1, fun _ => ⟨f1.trans e1, ?_⟩, fun h => ?_⟩
        · rw [f2, e2]; push_cast; ring
        · exact absurd hjH (not_le.mpr h)
      · have hnpos : ¬ ((s (j + 1)).channels c).peakHoldCounter > 0 := by
          by_cases hj : (j : Int) ≤ H
          · rw [(i2 hj).2]; push_cast at hjH; omega
          · exact not_lt.mpr (i3 (not_le.mp hj))
        obtain ⟨f1, f2⟩ := s3 hnpos
        refine ⟨?_, fun h => absurd h hjH, fun _ => ?_⟩
        · rw [f1]
          exact le_trans s1 (le_max_right _ _)
        · rw [f2]
          exact not_lt.mp hnpos
  refine ⟨hfirst.1, hfirst.2, ?_, ?_⟩
  · intro k hk hkH
    obtain ⟨j, rfl⟩ : ∃ j, k = j + 1 := ⟨k - 1, by omega⟩
    exact ((hinv j).2.1 (by push_cast at hkH; omega)).1
  · intro k hk hkH
    obtain ⟨j, rfl⟩ : ∃ j, k = j + 1 := ⟨k - 1, by omega⟩
    obtain ⟨i1, i2, i3⟩ := hinv j
    obtain ⟨s1, s2, s3⟩ := hstep (j + 1) (by omega) i1
    have hnpos : ¬ ((s (j + 1)).channels c).peakHoldCounter > 0 := by
      by_cases hj : (j : Int) ≤ H
      · rw [(i2 hj).2]; push_cast at hkH; omega
      · exact not_lt.mpr (i3 (not_le.mp hj))
    obtain ⟨f1, -⟩ := s3 hnpos
    refine ⟨f1, ?_⟩
    rw [f1]
    exact le_max_right _ _

/-- For an applied gain of at most one, the stored gain reduction is zero. -/
theorem gainReduction_of_le_one (g : ℝ) (hg : g ≤ 1) :
    clamp (-20 * LibM.real.log10 (max g kMinLevel)) (-30) 0 = 0 := by
  have hpos : (0 : ℝ) < max g kMinLevel := lt_of_lt_of_le kMinLevel_pos (le_max_right _ _)
  have hle : max g kMinLevel ≤ 1 := max_le hg (by unfold kMinLevel; norm_num)
  have hlog : Real.logb 10 (max g kMinLevel) ≤ 0 := Real.logb_nonpos (by norm_num) hpos.le hle
  have hv : 0 ≤ -20 * LibM.real.log10 (max g kMinLevel) := by
    show 0 ≤ -20 * Real.logb 10 (max g kMinLevel)
    linarith
  unfold clamp
  rw [if_neg (by linarith)]
  split_ifs with h
  · rfl
  · linarith

theorem example_override_channels (ch : Fin 4) :
    (((setChannelOverride (exampleProcessor : DuganProcessor ℝ) 1 true).channels ch).overrideEnabled
      = decide (ch = 1)) ∧
    ((setChannelOverride (exampleProcessor : DuganProcessor ℝ) 1 true).channels ch).smoothedGain
      = 1 := by
  fin_cases ch <;> simp [setChannelOverride, exampleProcessor, exampleChannel, Function.update]

/-- C10. The claim that a channel whose applied gain `g` has
`10^(-1.5) ≤ g < 1` reports the gain reduction `20 * log10 g < 0`, evaluated on the
code: one Active block on a fresh two-channel processor with channel 1 in override
leaves channel 0 at `g = 0.55`, and `getChannelGainReduction` returns `0`, not the
negative `20 * log10 g`. -/
theorem gainReduction_sign_evaluated :
    ∃ (q : DuganProcessor ℝ) (outs1 : Buffers ℝ),
      process scalarTarget LibM.real (setChannelOverride exampleProcessor 1 true)
        (some silentBuffers) (some silentBuffers) 2 1 0 = .ok (q, some outs1) ∧
      (q.channels 0).smoothedGain = 0.55 ∧
      (10 : ℝ) ^ (-1.5 : ℝ) ≤ (q.channels 0).smoothedGain ∧
      (q.channels 0).smoothedGain < 1 ∧
      getChannelGainReduction q 0 = 0 ∧
      20 * Real.logb 10 (q.channels 0).smoothedGain < 0 := by
  have hb : (setChannelOverride (exampleProcessor : DuganProcessor ℝ) 1 true).bypassEnabled
      = false := rfl
  refine ⟨_, _, process_active scalarTarget LibM.real _ silentBuffers silentBuffers 2 1 0 hb
    (by norm_num) (by norm_num), ?_⟩
  have hcfg := processLevels_sameConfig scalarTarget LibM.real
    (setChannelOverride (exampleProcessor : DuganProcessor ℝ) 1 true) silentBuffers (min 2 4) 1
  have hany : anyOverrideIn (processLevels scalarTarget LibM.real
      (setChannelOverride (exampleProcessor : DuganProcessor ℝ) 1 true) silentBuffers (min 2 4) 1)
      (min 2 4) = true := by
    apply anyOverrideIn_eq_true
    refine ⟨1, by decide, ?_⟩
    rw [hcfg.overrideEnabled, (example_override_channels 1).1]
    rfl
  have hg : ((computeGains LibM.real (processLevels scalarTarget LibM.real
      (setChannelOverride (exampleProcessor : DuganProcessor ℝ) 1 true) silentBuffers (min 2 4) 1)
      (min 2 4)).channels 0).smoothedGain = 0.55 := by
    rw [(computeGains_smoothedGain LibM.real _ (min 2 4) 0 (by decide)).2, hany,
      targetGain_override, hcfg.overrideEnabled, (example_override_channels 0).1,
      processLevels_smoothedGain, (example_override_channels 0).2, hcfg.smoothingCoeff]
    have hm : (afterFirstPass LibM.real (processLevels scalarTarget LibM.real
        (setChannelOverride (exampleProcessor : DuganProcessor ℝ) 1 true) silentBuffers
        (min 2 4) 1) (min 2 4)).masterGain = 0 := by
      show (processLevels scalarTarget LibM.real
        (setChannelOverride (exampleProcessor : DuganProcessor ℝ) 1 true) silentBuffers
        (min 2 4) 1).masterGain = 0
      rw [hcfg.masterGain]
      rfl
    have hs : (setChannelOverride (exampleProcessor : DuganProcessor ℝ) 1 true).smoothingCoeff
        = 1 / 2 := rfl
    rw [hm, hs]
    show smoothGain (1 : ℝ) ((if decide ((0 : Fin 4) = 1) = true then 1 else 0.1) *
      (10 : ℝ) ^ ((0 : ℝ) / 20)) (1 / 2) = 0.55
    simp only [smoothGain, zero_div, Real.rpow_zero]
    norm_num
  have hq : ((computeGains LibM.real (processLevels scalarTarget LibM.real
      (setChannelOverride (exampleProcessor : DuganProcessor ℝ) 1 true) silentBuffers (min 2 4) 1)
      (min 2 4)).channels 0).gainReduction = 0 := by
    rw [computeGains_gainReduction LibM.real _ (min 2 4) 0 (by decide), hg]
    exact gainReduction_of_le_one 0.55 (by norm_num)
  have hlow : (10 : ℝ) ^ (-1.5 : ℝ) ≤ 0.55 := by
    have h1 : (10 : ℝ) ^ (-1.5 : ℝ) ≤ (10 : ℝ) ^ (-1 : ℝ) :=
      Real.rpow_le_rpow_of_exponent_le (by norm_num) (by norm_num)
    have h2 : (10 : ℝ) ^ (-1 : ℝ) = 1 / 10 := by
      rw [Real.rpow_neg (by norm_num), Real.rpow_one]
      norm_num
    rw [h2] at h1
    linarith
  refine ⟨hg, ?_, ?_, ?_, ?_⟩
  · show (10 : ℝ) ^ (-1.5 : ℝ) ≤ ((computeGains LibM.real _ (min 2 4)).channels 0).smoothedGain
    rw [hg]
    exact hlow
  · show ((computeGains LibM.real _ (min 2 4)).channels 0).smoothedGain < 1
    rw [hg]
    norm_num
  · show ((computeGains LibM.real _ (min 2 4)).channels 0).gainReduction = 0
    exact hq
  · show 20 * Real.logb 10 ((computeGains LibM.real _ (min 2 4)).channels 0).smoothedGain < 0
    rw [hg]
    have := Real.logb_neg (b := 10) (x := 0.55) (by norm_num) (by norm_num) (by norm_num)
    linarith

theorem computeGains_auto_target_witness :
    ((0 : Fin 4).val < 2 ∧
      (∀ ch : Fin 4, ch.val < 2 →
        ((exampleProcessor : DuganProcessor ℝ).channels ch).overrideEnabled = false) ∧
      ((exampleProcessor : DuganProcessor ℝ).channels 0).autoEnabled = true) ∧
    (computeGains LibM.real (exampleProcessor : DuganProcessor ℝ) 2).totalWeightedLevel =
      max (∑ ch : Fin 4,
        if ch.val < 2 ∧ ((exampleProcessor : DuganProcessor ℝ).channels ch).autoEnabled = true
        then LibM.real.pow 10 (((exampleProcessor : DuganProcessor ℝ).channels ch).inputLevel / 20)
          * ((exampleProcessor : DuganProcessor ℝ).channels ch).weight
        else 0) 1e-6 :=
  ⟨⟨by decide, fun _ _ => rfl, rfl⟩,
    (computeGains_auto_target LibM.real exampleProcessor 2 0 (by decide) (fun _ _ => rfl)
      rfl).2.1⟩

theorem computeGains_override_target_witness :
    ((0 : Fin 4).val < 2 ∧
      ∃ ch : Fin 4, ch.val < 2 ∧
        ((setChannelOverride (exampleProcessor : DuganProcessor ℝ) 1 true).channels
          ch).overrideEnabled = true) ∧
    ((computeGains LibM.real (setChannelOverride (exampleProcessor : DuganProcessor ℝ) 1 true)
        2).channels 0).smoothedGain =
      smoothGain
        ((setChannelOverride (exampleProcessor : DuganProcessor ℝ) 1 true).channels 0).smoothedGain
        (if ((setChannelOverride (exampleProcessor : DuganProcessor ℝ) 1 true).channels
            0).overrideEnabled = true
          then 1.0 * LibM.real.pow 10
            ((setChannelOverride (exampleProcessor : DuganProcessor ℝ) 1 true).masterGain / 20)
          else 0.1 * LibM.real.pow 10
            ((setChannelOverride (exampleProcessor : DuganProcessor ℝ) 1 true).masterGain / 20))
        (setChannelOverride (exampleProcessor : DuganProcessor ℝ) 1 true).smoothingCoeff :=
  ⟨⟨by decide, 1, by decide, by simp [(example_override_channels 1).1]⟩,
    (computeGains_override_target LibM.real
      (setChannelOverride (exampleProcessor : DuganProcessor ℝ) 1 true) 2 0 (by decide)
      ⟨1, by decide, by simp [(example_override_channels 1).1]⟩).2⟩

theorem example_manual_channels (ch : Fin 4) :
    (((setChannelAutoEnabled (exampleProcessor : DuganProcessor ℝ) 0 false).channels
      ch).overrideEnabled = false) ∧
    (((setChannelAutoEnabled (exampleProcessor : DuganProcessor ℝ) 0 false).channels
      ch).autoEnabled = decide (ch ≠ 0)) := by
  fin_cases ch <;>
    simp [setChannelAutoEnabled, exampleProcessor, exampleChannel, Function.update]

theorem equal_channels_share_witness :
    ((1 ≤ 2 ∧ 2 ≤ 4) ∧
      (∀ ch : Fin 4, ch.val < 2 →
        ((exampleProcessor : DuganProcessor ℝ).channels ch).autoEnabled = true ∧
        ((exampleProcessor : DuganProcessor ℝ).channels ch).overrideEnabled = false ∧
        ((exampleProcessor : DuganProcessor ℝ).channels ch).inputLevel = -60 ∧
        ((exampleProcessor : DuganProcessor ℝ).channels ch).weight = 1) ∧
      (1e-6 : ℝ) ≤ (2 : ℕ) * (10 : ℝ) ^ ((-60 : ℝ) / 20) * 1) ∧
    Real.sqrt ((10 : ℝ) ^ (((exampleProcessor : DuganProcessor ℝ).channels 0).inputLevel / 20) *
        ((exampleProcessor : DuganProcessor ℝ).channels 0).weight /
        (computeGains LibM.real (exampleProcessor : DuganProcessor ℝ) 2).totalWeightedLevel) =
      1 / Real.sqrt (2 : ℕ) := by
  have hfloor : (1e-6 : ℝ) ≤ (2 : ℕ) * (10 : ℝ) ^ ((-60 : ℝ) / 20) * 1 := by
    have h : (10 : ℝ) ^ ((-60 : ℝ) / 20) = 1 / 1000 := by
      rw [show (-60 : ℝ) / 20 = -((3 : ℕ) : ℝ) by norm_num, Real.rpow_neg (by norm_num),
        Real.rpow_natCast]
      norm_num
    rw [h]
    norm_num
  have hch : ∀ ch : Fin 4, ch.val < 2 →
      ((exampleProcessor : DuganProcessor ℝ).channels ch).autoEnabled = true ∧
      ((exampleProcessor : DuganProcessor ℝ).channels ch).overrideEnabled = false ∧
      ((exampleProcessor : DuganProcessor ℝ).channels ch).inputLevel = -60 ∧
      ((exampleProcessor : DuganProcessor ℝ).channels ch).weight = 1 :=
    fun _ _ => ⟨rfl, rfl, rfl, rfl⟩
  exact ⟨⟨⟨by decide, by decide⟩, hch, hfloor⟩,
    (equal_channels_share exampleProcessor 2 (-60) 1 (by decide) (by decide) hch (by norm_num)
      hfloor 0 (by decide)).2.1⟩

theorem impulse_peakDb :
    (0 : ℝ) = clamp (20 * Real.logb 10 (max (processScan scalarTarget (impulseBuffer 0) 1).2
      1e-6)) (-60) 0 := by
  have hs : (processScan scalarTarget (impulseBuffer 0 : Nat → ℝ) 1).2 = 1 := by
    simp [processScan, scalarTarget, Target.haveSimd, scanScalar, impulseBuffer,
      List.range_succ]
  rw [hs, max_eq_left (by norm_num), Real.logb_one]
  norm_num [clamp]

theorem peak_hold_then_decay_witness :
    ((exampleProcessor : DuganProcessor ℝ).bypassEnabled = false ∧ 0 < 1 ∧
      ((exampleProcessor : DuganProcessor ℝ).channels 0).peakLevel < 0 ∧
      (∀ k, 1 ≤ k → ∀ i, i < 1 → (impulseBuffer k : Nat → ℝ) i = 0)) ∧
    ((stateAfter scalarTarget LibM.real (exampleProcessor : DuganProcessor ℝ) impulseBlocks
      1).channels 0).peakLevel = 0 ∧
    ((stateAfter scalarTarget LibM.real (exampleProcessor : DuganProcessor ℝ) impulseBlocks
      1).channels 0).peakHoldCounter =
      truncToInt (2 * (exampleProcessor : DuganProcessor ℝ).sampleRate / ((1 : ℕ) : ℝ)) := by
  have hblocks : ∀ k : Nat, (impulseBlocks k : Block ℝ).numSamples = 1 ∧
      (0 : Fin 4).val < (impulseBlocks k : Block ℝ).numChannels ∧
      (impulseBlocks k : Block ℝ).outputs ≠ none ∧
      ∃ ins, (impulseBlocks k : Block ℝ).inputs = some ins ∧
        ins (0 : Fin 4).val = some (impulseBuffer k) :=
    fun k => ⟨rfl, Nat.one_pos, by simp [impulseBlocks], _, rfl, rfl⟩
  have hadopt : ((exampleProcessor : DuganProcessor ℝ).channels 0).peakLevel < 0 := by
    norm_num [exampleProcessor, exampleChannel, kNoiseFloorThreshold]
  have hsilent : ∀ k, 1 ≤ k → ∀ i, i < 1 → (impulseBuffer k : Nat → ℝ) i = 0 := by
    intro k hk i _
    have : k ≠ 0 := by omega
    simp [impulseBuffer, this]
  have h := peak_hold_then_decay scalarTarget (exampleProcessor : DuganProcessor ℝ) 0
    impulseBlocks impulseBuffer 1 0 rfl Nat.one_pos hblocks impulse_peakDb hadopt (by norm_num)
    hsilent
  exact ⟨⟨rfl, Nat.one_pos, hadopt, hsilent⟩, h.1, h.2.1⟩

theorem exp_coeff_mem (time sr : ℝ) (ht : 0 < time) (hsr : 0 < sr) :
    0 < Real.exp (-1 / (time * sr)) ∧ Real.exp (-1 / (time * sr)) < 1 := by
  refine ⟨Real.exp_pos _, ?_⟩
  have hneg : -1 / (time * sr) < 0 := by
    rw [neg_div]
    exact neg_neg_of_pos (div_pos one_pos (mul_pos ht hsr))
  calc Real.exp (-1 / (time * sr)) < Real.exp 0 := Real.exp_lt_exp.mpr hneg
    _ = 1 := Real.exp_zero

/-- C14. At a sample rate `sr > 0`, for every `t`, the calls of `setAttackTime(t)`,
`setReleaseTime(t)` and `setSmoothingTime(t)` return and set the attack, release and
smoothing coefficient to `exp(-1 / (clamp(t, lo, hi) * sr))` with the ranges
`[0.001, 1.0]`, `[0.01, 2.0]` and `[0.001, 0.5]`; each coefficient lies strictly
between 0 and 1. -/
theorem time_setters_coefficients (p : DuganProcessor ℝ) (t : ℝ) (hsr : 0 < p.sampleRate) :
    setAttackTimeCall LibM.real false p t = some (setAttackTime LibM.real p t) ∧
    setReleaseTimeCall LibM.real false p t = some (setReleaseTime LibM.real p t) ∧
    setSmoothingTimeCall LibM.real false p t = some (setSmoothingTime LibM.real p t) ∧
    (setAttackTime LibM.real p t).attackCoeff =
      Real.exp (-1 / (clamp t 0.001 1.0 * p.sampleRate)) ∧
    (setReleaseTime LibM.real p t).releaseCoeff =
      Real.exp (-1 / (clamp t 0.01 2.0 * p.sampleRate)) ∧
    (setSmoothingTime LibM.real p t).smoothingCoeff =
      Real.exp (-1 / (clamp t 0.001 0.5 * p.sampleRate)) ∧
    (0 < (setAttackTime LibM.real p t).attackCoeff ∧
      (setAttackTime LibM.real p t).attackCoeff < 1) ∧
    (0 < (setReleaseTime LibM.real p t).releaseCoeff ∧
      (setReleaseTime LibM.real p t).releaseCoeff < 1) ∧
    (0 < (setSmoothingTime LibM.real p t).smoothingCoeff ∧
      (setSmoothingTime LibM.real p t).smoothingCoeff < 1) := by
  have ha : (0 : ℝ) < clamp t 0.001 1.0 :=
    lt_of_lt_of_le (by norm_num) (clamp_mem t 0.001 1.0 (by norm_num)).1
  have hr : (0 : ℝ) < clamp t 0.01 2.0 :=
    lt_of_lt_of_le (by norm_num) (clamp_mem t 0.01 2.0 (by norm_num)).1
  have hs : (0 : ℝ) < clamp t 0.001 0.5 :=
    lt_of_lt_of_le (by norm_num) (clamp_mem t 0.001 0.5 (by norm_num)).1
  exact ⟨rfl, rfl, rfl, rfl, rfl, rfl, exp_coeff_mem _ _ ha hsr, exp_coeff_mem _ _ hr hsr,
    exp_coeff_mem _ _ hs hsr⟩

theorem time_setters_coefficients_witness :
    (0 : ℝ) < (exampleProcessor : DuganProcessor ℝ).sampleRate ∧
    (0 < (setAttackTime LibM.real (exampleProcessor : DuganProcessor ℝ) 5).attackCoeff ∧
      (setAttackTime LibM.real (exampleProcessor : DuganProcessor ℝ) 5).attackCoeff < 1) := by
  have h : (0 : ℝ) < (exampleProcessor : DuganProcessor ℝ).sampleRate := by
    norm_num [exampleProcessor]
  exact ⟨h, (time_setters_coefficients exampleProcessor 5 h).2.2.2.2.2.2.1⟩

/-- The time a coefficient `exp(-1 / x)` is converted back to is `-log(1 - exp(-1 / x))`,
which is below `x` for every `x > 0`. -/
theorem neg_log_one_sub_exp_lt (x : ℝ) (hx : 0 < x) :
    -Real.log (1 - Real.exp (-1 / x)) < x := by
  have h1 : Real.exp (-1 / x) ≤ x / (1 + x) := by
    have he : 1 + 1 / x ≤ Real.exp (1 / x) := by
      have := Real.add_one_le_exp (1 / x)
      linarith
    have hpos : 0 < 1 + 1 / x := by positivity
    rw [neg_div, Real.exp_neg]
    calc (Real.exp (1 / x))⁻¹ ≤ (1 + 1 / x)⁻¹ := inv_anti₀ hpos he
      _ = x / (1 + x) := by
        have hx0 : x ≠ 0 := ne_of_gt hx
        have hx1 : 1 + x ≠ 0 := by positivity
        rw [inv_eq_iff_eq_inv, inv_div]
        field_simp
        ring
  have h2 : Real.exp (-x) < 1 / (1 + x) := by
    have he : 1 + x < Real.exp x := by
      have := Real.add_one_lt_exp (ne_of_gt hx)
      linarith
    rw [Real.exp_neg, one_div]
    exact inv_strictAnti₀ (by positivity) he
  have h3 : Real.exp (-x) < 1 - Real.exp (-1 / x) := by
    have : x / (1 + x) + 1 / (1 + x) = 1 := by
      field_simp
      ring
    linarith
  have h4 : -x < Real.log (1 - Real.exp (-1 / x)) := by
    rw [Real.lt_log_iff_exp_lt (lt_trans (Real.exp_pos _) h3)]
    exact h3
  linarith

theorem clamp_of_mem (v lo hi : ℝ) (h1 : lo ≤ v) (h2 : v ≤ hi) : clamp v lo hi = v := by
  unfold clamp
  rw [if_neg (not_lt.mpr h1), if_neg (not_lt.mpr h2)]

/-- The time `getAttackTime` reads back after `setAttackTime(t)` is below `1000 * t`. -/
theorem getAttackTime_lt (p : DuganProcessor ℝ) (t : ℝ) (hsr : 0 < p.sampleRate)
    (h1 : 0.001 ≤ t) (h2 : t ≤ 1.0) :
    getAttackTime LibM.real (setAttackTime LibM.real p t) < 1000 * t := by
  have ht : 0 < t := lt_of_lt_of_le (by norm_num) h1
  have hx : 0 < t * p.sampleRate := mul_pos ht hsr
  have hc : (setAttackTime LibM.real p t).attackCoeff = Real.exp (-1 / (t * p.sampleRate)) := by
    show Real.exp (-1 / (clamp t 0.001 1.0 * p.sampleRate)) = _
    rw [clamp_of_mem t 0.001 1.0 h1 h2]
  have hmem := exp_coeff_mem t p.sampleRate ht hsr
  have hs : (setAttackTime LibM.real p t).sampleRate = p.sampleRate := rfl
  unfold getAttackTime
  rw [hc, hs, if_pos ⟨hmem.1, hmem.2⟩]
  show -1000 * Real.log (1 - Real.exp (-1 / (t * p.sampleRate))) / p.sampleRate < 1000 * t
  have hlog := neg_log_one_sub_exp_lt (t * p.sampleRate) hx
  rw [div_lt_iff₀ hsr]
  nlinarith

/-- The time `getReleaseTime` reads back after `setReleaseTime(t)` is below `1000 * t`. -/
theorem getReleaseTime_lt (p : DuganProcessor ℝ) (t : ℝ) (hsr : 0 < p.sampleRate)
    (h1 : 0.01 ≤ t) (h2 : t ≤ 2.0) :
    getReleaseTime LibM.real (setReleaseTime LibM.real p t) < 1000 * t := by
  have ht : 0 < t := lt_of_lt_of_le (by norm_num) h1
  have hx : 0 < t * p.sampleRate := mul_pos ht hsr
  have hc : (setReleaseTime LibM.real p t).releaseCoeff =
      Real.exp (-1 / (t * p.sampleRate)) := by
    show Real.exp (-1 / (clamp t 0.01 2.0 * p.sampleRate)) = _
    rw [clamp_of_mem t 0.01 2.0 h1 h2]
  have hmem := exp_coeff_mem t p.sampleRate ht hsr
  have hs : (setReleaseTime LibM.real p t).sampleRate = p.sampleRate := rfl
  unfold getReleaseTime
  rw [hc, hs, if_pos ⟨hmem.1, hmem.2⟩]
  show -1000 * Real.log (1 - Real.exp (-1 / (t * p.sampleRate))) / p.sampleRate < 1000 * t
  have hlog := neg_log_one_sub_exp_lt (t * p.sampleRate) hx
  rw [div_lt_iff₀ hsr]
  nlinarith

/-- C15. The claim that `getAttackTime` and `getReleaseTime` return the configured
time in milliseconds, evaluated on the code at 48 kHz: after `setAttackTime(0.01)`
`getAttackTime()` is below `1000 * 0.01`, after `setReleaseTime(0.1)` `getReleaseTime()`
is below `1000 * 0.1`, and `WDSPKernel::setParameter(21, 0.01)` followed by
`getParameter(21)` returns less than `0.01`. -/
theorem attackTime_roundtrip_evaluated :
    getAttackTime LibM.real (setAttackTime LibM.real (exampleProcessor : DuganProcessor ℝ) 0.01)
      < 1000 * 0.01 ∧
    getReleaseTime LibM.real (setReleaseTime LibM.real (exampleProcessor : DuganProcessor ℝ) 0.1)
      < 1000 * 0.1 ∧
    ∃ k1 : WDSPKernel ℝ,
      WDSPKernel.setParameter LibM.real (exampleKernel : WDSPKernel ℝ) 21 0.01 = some k1 ∧
      WDSPKernel.getParameter LibM.real k1 21 < 0.01 := by
  have hsr : (0 : ℝ) < (exampleProcessor : DuganProcessor ℝ).sampleRate := by
    norm_num [exampleProcessor]
  have ha := getAttackTime_lt (exampleProcessor : DuganProcessor ℝ) 0.01 hsr (by norm_num)
    (by norm_num)
  have hr := getReleaseTime_lt (exampleProcessor : DuganProcessor ℝ) 0.1 hsr (by norm_num)
    (by norm_num)
  refine ⟨ha, hr, { (exampleKernel : WDSPKernel ℝ) with
    processor := some (setAttackTime LibM.real exampleProcessor 0.01) }, ?_, ?_⟩
  · have h1 : ((0.01 : ℝ) * 1000 ≥ 0) := by norm_num
    have h2 : ¬ ((-1 : ℝ) ≥ 0) := by norm_num
    have h3 : (0.01 : ℝ) * 1000 / 1000 = 0.01 := by norm_num
    simp only [WDSPKernel.setParameter, WDSPKernel.setTimeConstants, exampleKernel,
      setAttackTimeCall, lockGuard, h1, h2, h3, if_true, if_false, Option.some_bind]
    norm_num
  · show getAttackTime LibM.real (setAttackTime LibM.real exampleProcessor 0.01) / 1000 < 0.01
    rw [div_lt_iff₀ (by norm_num)]
    linarith

/-- Over the reals every target gain is non-negative. -/
theorem targetGain_nonneg (p : DuganProcessor ℝ) (ao : Bool) (c : Channel ℝ) :
    0 ≤ targetGain LibM.real p ao c := by
  have hM : (0 : ℝ) < LibM.real.pow 10 (p.masterGain / 20) :=
    Real.rpow_pos_of_pos (by norm_num) _
  unfold targetGain
  apply mul_nonneg _ hM.le
  split_ifs
  · norm_num
  · norm_num
  · norm_num
  · exact mul_nonneg (Real.sqrt_nonneg _) (by norm_num)
  · exact Real.sqrt_nonneg _

theorem smoothGain_nonneg (a g c : ℝ) (ha : 0 ≤ a) (hg : 0 ≤ g) (h0 : 0 ≤ c) (h1 : c ≤ 1) :
    0 ≤ smoothGain a g c := by
  unfold smoothGain
  exact add_nonneg (mul_nonneg ha h0) (mul_nonneg hg (by linarith))

theorem updateChannelGain_inRange (p : DuganProcessor ℝ) (ao : Bool) (c : Channel ℝ)
    (hc : c.InRange) (h0 : 0 ≤ p.smoothingCoeff) (h1 : p.smoothingCoeff ≤ 1) :
    (updateChannelGain LibM.real p ao c).InRange := by
  obtain ⟨hw, hl, hp, hg⟩ := hc
  exact ⟨hw, hl, hp, smoothGain_nonneg _ _ _ hg (targetGain_nonneg p ao c) h0 h1⟩

theorem updateChannelLevel_inRange (p : DuganProcessor ℝ) (c : Channel ℝ) (s k : ℝ) (B : Nat)
    (hc : c.InRange) : (updateChannelLevel LibM.real p c s k B).InRange := by
  obtain ⟨hw, hl, hp, hg⟩ := hc
  obtain ⟨f1, -, -, -, f5, -⟩ := updateChannelLevel_frame LibM.real p c s k B
  have hlvl := (updateChannelLevel_envelope LibM.real p c s k B).2.2
  have hlm : (-60 : ℝ) ≤ (updateChannelLevel LibM.real p c s k B).inputLevel ∧
      (updateChannelLevel LibM.real p c s k B).inputLevel ≤ 0 := by
    rw [hlvl]
    exact clamp_mem _ (-60) 0 (by norm_num)
  obtain ⟨k1, k2, k3⟩ := updateChannelLevel_peak LibM.real p c s k B
  have hpk : (-60 : ℝ) ≤ clamp (20 * LibM.real.log10 (max k kMinLevel)) kNoiseFloorThreshold 0 ∧
      clamp (20 * LibM.real.log10 (max k kMinLevel)) kNoiseFloorThreshold 0 ≤ 0 :=
    clamp_mem _ (-60) 0 (by norm_num)
  refine ⟨by rw [f1]; exact hw, hlm, ?_, by rw [f5]; exact hg⟩
  by_cases ha : clamp (20 * LibM.real.log10 (max k kMinLevel)) kNoiseFloorThreshold 0 >
      c.peakLevel
  · rw [(k1 ha).1]
    exact hpk
  · by_cases hh : c.peakHoldCounter > 0
    · rw [(k2 ha hh).1]
      exact hp
    · rw [(k3 ha hh).1]
      exact ⟨le_trans hlm.1 (le_max_right _ _), max_le (by linarith [hp.2]) hlm.2⟩

theorem levelOf_inRange (scan : (Nat → ℝ) → Nat → ℝ × ℝ) (p : DuganProcessor ℝ)
    (inputs : Buffers ℝ) (B : Nat) (ch : Fin 4) (hc : (p.channels ch).InRange) :
    (levelOf scan LibM.real p inputs B ch).InRange := by
  unfold levelOf
  cases inputs ch.val with
  | none => exact hc
  | some input => exact updateChannelLevel_inRange p _ _ _ B hc

/-- The gain computation after the level update keeps every channel in range. -/
theorem block_inRange (t : Target) (p : DuganProcessor ℝ) (ins : Buffers ℝ) (n B : Nat)
    (h0 : 0 ≤ p.smoothingCoeff) (h1 : p.smoothingCoeff ≤ 1)
    (hc : ∀ ch, (p.channels ch).InRange) (ch : Fin 4) :
    ((computeGains LibM.real (processLevels t LibM.real p ins n B) n).channels ch).InRange := by
  have hcfg := processLevels_sameConfig t LibM.real p ins n B
  have hl : ((processLevels t LibM.real p ins n B).channels ch).InRange := by
    rw [processLevels_eq]
    by_cases hn : ch.val < n
    · simp only [hn, if_true]
      exact levelOf_inRange _ p ins B ch (hc ch)
    · simp only [hn, if_false]
      exact hc ch
  rw [computeGains_channels]
  split_ifs
  · apply updateChannelGain_inRange _ _ _ hl
    · show 0 ≤ (processLevels t LibM.real p ins n B).smoothingCoeff
      rw [hcfg.smoothingCoeff]; exact h0
    · show (processLevels t LibM.real p ins n B).smoothingCoeff ≤ 1
      rw [hcfg.smoothingCoeff]; exact h1
  · exact hl

theorem exampleChannel_inRange : (exampleChannel : Channel ℝ).InRange := by
  unfold Channel.InRange exampleChannel kNoiseFloorThreshold
  norm_num

/-- What every reachable state satisfies: the sample rate of the construction, a smoothing
coefficient in `[0, 1]`, and every channel in range. -/
theorem reachable_invariant (sr : ℝ) (hsr : 0 < sr) (p : DuganProcessor ℝ)
    (h : Reachable LibM.real sr p) :
    p.sampleRate = sr ∧ (0 ≤ p.smoothingCoeff ∧ p.smoothingCoeff ≤ 1) ∧
      ∀ ch, (p.channels ch).InRange := by
  have hcoef : ∀ (q : DuganProcessor ℝ) (x : ℝ), q.sampleRate = sr →
      0 ≤ (setSmoothingTime LibM.real q x).smoothingCoeff ∧
      (setSmoothingTime LibM.real q x).smoothingCoeff ≤ 1 := by
    intro q x hq
    have hs : (0 : ℝ) < clamp x 0.001 0.5 :=
      lt_of_lt_of_le (by norm_num) (clamp_mem x 0.001 0.5 (by norm_num)).1
    have := exp_coeff_mem (clamp x 0.001 0.5) q.sampleRate hs (by rw [hq]; exact hsr)
    exact ⟨this.1.le, this.2.le⟩
  induction h with
  | constructed =>
    refine ⟨rfl, ?_, fun ch => ?_⟩
    · exact hcoef _ _ rfl
    · have : (construct LibM.real sr).channels ch = exampleChannel := reset_channels _ ch
      rw [this]
      exact exampleChannel_inRange
  | afterSetChannelWeight channel weight _ ih =>
    obtain ⟨i1, i2, i3⟩ := ih
    unfold setChannelWeight
    split_ifs with hch
    · refine ⟨i1, i2, fun ch => ?_⟩
      simp only
      by_cases hc : ch = ⟨channel, hch⟩
      · subst hc
        rw [Function.update_same]
        obtain ⟨-, hl, hp, hg⟩ := i3 ⟨channel, hch⟩
        exact ⟨⟨le_max_left _ _, max_le (by norm_num) (min_le_left _ _)⟩, hl, hp, hg⟩
      · rw [Function.update_noteq hc]
        exact i3 ch
    · exact ⟨i1, i2, i3⟩
  | afterSetChannelAutoEnabled channel enabled _ ih =>
    obtain ⟨i1, i2, i3⟩ := ih
    unfold setChannelAutoEnabled
    split_ifs with hch
    · refine ⟨i1, i2, fun ch => ?_⟩
      simp only
      by_cases hc : ch = ⟨channel, hch⟩
      · subst hc
        rw [Function.update_same]
        exact i3 ⟨channel, hch⟩
      · rw [Function.update_noteq hc]
        exact i3 ch
    · exact ⟨i1, i2, i3⟩
  | afterSetChannelOverride channel override _ ih =>
    obtain ⟨i1, i2, i3⟩ := ih
    unfold setChannelOverride
    split_ifs with hch
    · refine ⟨i1, i2, fun ch => ?_⟩
      simp only
      by_cases hc : ch = ⟨channel, hch⟩
      · subst hc
        rw [Function.update_same]
        exact i3 ⟨channel, hch⟩
      · rw [Function.update_noteq hc]
        exact i3 ch
    · exact ⟨i1, i2, i3⟩
  | afterSetAttackTime x _ hq ih =>
    cases (Option.some.inj hq)
    exact ih
  | afterSetReleaseTime x _ hq ih =>
    cases (Option.some.inj hq)
    exact ih
  | afterSetSmoothingTime x _ hq ih =>
    cases (Option.some.inj hq)
    exact ⟨ih.1, hcoef _ x ih.1, ih.2.2⟩
  | afterSetAdaptiveThreshold x _ ih => exact ih
  | afterSetMasterGain x _ hq ih =>
    cases (Option.some.inj hq)
    exact ih
  | afterReset _ hq ih =>
    cases (Option.some.inj hq)
    refine ⟨ih.1, ih.2.1, fun ch => ?_⟩
    rw [reset_channels]
    exact exampleChannel_inRange
  | afterSetBypass b _ ih => exact ih
  | afterProcess t inputs outputs n B d outputs1 _ _ hq ih =>
    obtain ⟨i1, i2, i3⟩ := ih
    rcases process_ok_state t LibM.real _ _ inputs outputs outputs1 n B d hq with
      rfl | ⟨ins, hc, hs, hm⟩
    · exact ⟨i1, i2, i3⟩
    · refine ⟨hs.trans i1, by rw [hm]; exact i2, fun ch => ?_⟩
      rw [hc]
      exact block_inRange t _ ins (min n 4) B i2.1 i2.2 i3 ch

/-- C20. In every state reachable from the construction with a sample rate `> 0` by
setter calls, `reset`, `setBypass` and `process` calls on blocks of at least one sample,
every channel has its weight in `[0, 10]`, its input level and its peak level in
`[-60, 0]`, and a smoothed gain `≥ 0`. -/
theorem reachable_channels_in_range (sr : ℝ) (p : DuganProcessor ℝ) (hsr : 0 < sr)
    (h : Reachable LibM.real sr p) (ch : Fin 4) :
    (0 ≤ (p.channels ch).weight ∧ (p.channels ch).weight ≤ 10) ∧
    (-60 ≤ (p.channels ch).inputLevel ∧ (p.channels ch).inputLevel ≤ 0) ∧
    (-60 ≤ (p.channels ch).peakLevel ∧ (p.channels ch).peakLevel ≤ 0) ∧
    0 ≤ (p.channels ch).smoothedGain :=
  (reachable_invariant sr hsr p h).2.2 ch

theorem reachable_channels_in_range_witness :
    ((0 : ℝ) < 48000 ∧
      Reachable LibM.real (48000 : ℝ)
        (setChannelWeight (construct LibM.real 48000) 0 50)) ∧
    (0 ≤ ((setChannelWeight (construct LibM.real (48000 : ℝ)) 0 50).channels 0).weight ∧
      ((setChannelWeight (construct LibM.real (48000 : ℝ)) 0 50).channels 0).weight ≤ 10) :=
  ⟨⟨by norm_num, Reachable.afterSetChannelWeight 0 50 Reachable.constructed⟩,
    (reachable_channels_in_range 48000 _ (by norm_num)
      (Reachable.afterSetChannelWeight 0 50 Reachable.constructed) 0).1⟩

theorem process_gainReduction_witness :
    ((exampleProcessor : DuganProcessor ℝ).bypassEnabled = false ∧ 0 < 2 ∧ 0 < 1) ∧
    ∃ (q : DuganProcessor ℝ) (outs1 : Buffers ℝ),
      process scalarTarget LibM.real exampleProcessor (some silentBuffers) (some silentBuffers)
        2 1 0 = .ok (q, some outs1) ∧
      -30 ≤ (q.channels 0).gainReduction ∧ (q.channels 0).gainReduction ≤ 0 := by
  obtain ⟨q, outs1, h, hch⟩ := process_gainReduction scalarTarget LibM.real
    (exampleProcessor : DuganProcessor ℝ) silentBuffers silentBuffers 2 1 0 rfl (by decide)
    (by decide)
  exact ⟨⟨rfl, by decide, by decide⟩, q, outs1, h, (hch 0 (by decide)).2⟩

theorem process_activeChannels_witness :
    ((exampleProcessor : DuganProcessor ℝ).bypassEnabled = false ∧ 0 < 2 ∧ 0 < 1 ∧
      (-60 : ℝ) ≤ (exampleProcessor : DuganProcessor ℝ).adaptiveThreshold) ∧
    ∃ (q : DuganProcessor ℝ) (outs1 : Buffers ℝ),
      process scalarTarget LibM.real exampleProcessor (some silentBuffers) (some silentBuffers)
        2 1 0 = .ok (q, some outs1) ∧
      (getStatistics q).activeChannels ≤ ((min 2 4 : Nat) : Int) := by
  have hthr : (-60 : ℝ) ≤ (exampleProcessor : DuganProcessor ℝ).adaptiveThreshold := by
    norm_num [exampleProcessor]
  obtain ⟨q, outs1, h, -, hle, -⟩ := process_activeChannels scalarTarget LibM.real
    (exampleProcessor : DuganProcessor ℝ) silentBuffers silentBuffers 2 1 0 rfl (by decide)
    (by decide) hthr
  exact ⟨⟨rfl, by decide, by decide, hthr⟩, q, outs1, h, hle⟩

theorem process_statistics_witness :
    ((exampleProcessor : DuganProcessor ℝ).bypassEnabled = false ∧ 0 < 2 ∧ 0 < 1 ∧
      ∀ ch : Fin 4, -60 ≤ ((exampleProcessor : DuganProcessor ℝ).channels ch).inputLevel ∧
        ((exampleProcessor : DuganProcessor ℝ).channels ch).inputLevel ≤ 0) ∧
    ∃ (q : DuganProcessor ℝ) (outs1 : Buffers ℝ),
      process scalarTarget LibM.real exampleProcessor (some silentBuffers) (some silentBuffers)
        2 1 0 = .ok (q, some outs1) ∧
      -30 ≤ (getStatistics q).averageGainReduction ∧
      (getStatistics q).averageGainReduction ≤ 0 := by
  have hlv : ∀ ch : Fin 4,
      -60 ≤ ((exampleProcessor : DuganProcessor ℝ).channels ch).inputLevel ∧
        ((exampleProcessor : DuganProcessor ℝ).channels ch).inputLevel ≤ 0 := by
    intro ch
    norm_num [exampleProcessor, exampleChannel, kNoiseFloorThreshold]
  obtain ⟨q, outs1, h, -, -, -, h1, h2, -⟩ := process_statistics scalarTarget LibM.real
    (exampleProcessor : DuganProcessor ℝ) silentBuffers silentBuffers 2 1 0 rfl (by decide)
    (by decide) hlv
  exact ⟨⟨rfl, by decide, by decide, hlv⟩, q, outs1, h, h1, h2⟩

theorem process_null_channel_witness :
    ((exampleProcessor : DuganProcessor ℝ).bypassEnabled = false ∧ (1 : Fin 4).val < 2 ∧
      0 < 1 ∧
      (Function.update (silentBuffers : Buffers ℝ) 1 none) (1 : Fin 4).val = none) ∧
    ∃ (q : DuganProcessor ℝ) (outs1 : Buffers ℝ),
      process scalarTarget LibM.real exampleProcessor
        (some (Function.update silentBuffers 1 none)) (some silentBuffers) 2 1 0 =
          .ok (q, some outs1) ∧
      (q.channels 1).envelope = ((exampleProcessor : DuganProcessor ℝ).channels 1).envelope ∧
      outs1 (1 : Fin 4).val = (silentBuffers : Buffers ℝ) (1 : Fin 4).val := by
  have hnull : (Function.update (silentBuffers : Buffers ℝ) 1 none) (1 : Fin 4).val = none :=
    Function.update_same _ _ _
  obtain ⟨q, outs1, h, hk, -, -⟩ := process_null_channel scalarTarget LibM.real
    (exampleProcessor : DuganProcessor ℝ) (Function.update silentBuffers 1 none) silentBuffers
    2 1 0 1 rfl (by decide) (by decide)
  exact ⟨⟨rfl, by decide, by decide, hnull⟩, q, outs1, h, (hk hnull).1,
    (hk hnull).2.2.2.2.2⟩

theorem fastAttack_fields :
    (fastAttackProcessor LibM.real).bypassEnabled = false ∧
    (fastAttackProcessor LibM.real).adaptiveThreshold = -40 ∧
    (fastAttackProcessor LibM.real).attackCoeff = Real.exp (-1 / 48) ∧
    ∀ ch : Fin 4, (fastAttackProcessor LibM.real).channels ch = exampleChannel := by
  refine ⟨rfl, rfl, ?_, fun ch => reset_channels _ ch⟩
  show Real.exp (-1 / (clamp (0.001 : ℝ) 0.001 1.0 * 48000)) = Real.exp (-1 / 48)
  congr 1
  norm_num [clamp]

theorem impulse_scan :
    processScan scalarTarget (impulseBuffer 0 : Nat → ℝ) 1 = (1, 1) := by
  simp [processScan, scalarTarget, Target.haveSimd, scanScalar, impulseBuffer,
    List.range_succ]

/-- The level a full-scale sample leaves in a fresh channel with a 1 ms attack at 48 kHz
is above the default threshold of -40 dB. -/
theorem fastAttack_level :
    (-40 : ℝ) < (updateChannelLevel LibM.real (fastAttackProcessor LibM.real)
      (exampleChannel : Channel ℝ) 1 1 1).inputLevel := by
  obtain ⟨-, -, ha, -⟩ := fastAttack_fields
  rw [(updateChannelLevel_envelope LibM.real _ _ 1 1 1).2.2]
  have hrms : (if 1 > 0 then LibM.real.sqrt ((1 : ℝ) / ((1 : ℕ) : ℝ)) else 0) = 1 := by
    show (if 1 > 0 then Real.sqrt ((1 : ℝ) / ((1 : ℕ) : ℝ)) else 0) = 1
    simp
  rw [hrms]
  have henv : (exampleChannel : Channel ℝ).envelope = kMinLevel := rfl
  have hgt : (1 : ℝ) > (exampleChannel : Channel ℝ).envelope := by
    rw [henv]; unfold kMinLevel; norm_num
  rw [if_pos hgt, ha, henv]
  have hc0 : 0 < Real.exp (-1 / 48) := Real.exp_pos _
  have hc1 : Real.exp (-1 / 48) ≤ 48 / 49 := by
    have h1 : (1 : ℝ) / 48 + 1 ≤ Real.exp (1 / 48) := Real.add_one_le_exp _
    have h2 : Real.exp (-1 / 48) = (Real.exp (1 / 48))⁻¹ := by
      rw [← Real.exp_neg]; congr 1; ring
    rw [h2, inv_le_comm₀ (Real.exp_pos _) (by norm_num)]
    calc (48 / 49 : ℝ)⁻¹ = 1 / 48 + 1 := by norm_num
      _ ≤ _ := h1
  have hv : (1 / 100 : ℝ) <
      max (computeEnvelope 1 kMinLevel (Real.exp (-1 / 48))) kMinLevel := by
    refine lt_of_lt_of_le ?_ (le_max_left _ _)
    unfold computeEnvelope kMinLevel
    nlinarith
  have hlog : -2 < LibM.real.log10
      (max (computeEnvelope 1 kMinLevel (Real.exp (-1 / 48))) kMinLevel) := by
    show -2 < Real.logb 10 _
    rw [Real.lt_logb_iff_rpow_lt (by norm_num) (lt_trans (by norm_num) hv)]
    refine lt_of_eq_of_lt ?_ hv
    rw [Real.rpow_neg (by norm_num)]
    norm_num
  unfold clamp kNoiseFloorThreshold
  split_ifs <;> linarith

/-- C22. The claim that after an Active block a channel's `active` flag tells whether its
level is above the adaptive threshold, checked on the code: no statement sets the flag,
so in every reachable state every flag is `false` and `getActiveChannelCount()` is `0`.
On a processor constructed at 48 kHz with the attack time set to 1 ms, one Active block
of one full-scale sample on channel 0 leaves that channel auto-enabled with its level
above the threshold, `getStatistics().activeChannels = 1`, the flag `false`,
`getActiveChannelCount() = 0`, and the kernel's `"active_channels"` entry `0`. -/
theorem getActiveChannelCount_always_zero :
    (∀ (sr : ℝ) (p : DuganProcessor ℝ), Reachable LibM.real sr p →
      (∀ ch : Fin 4, (p.channels ch).active = false) ∧ getActiveChannelCount p = 0) ∧
    Reachable LibM.real 48000 (fastAttackProcessor LibM.real) ∧
    ∃ (q : DuganProcessor ℝ) (outs1 : Buffers ℝ),
      process scalarTarget LibM.real (fastAttackProcessor LibM.real)
        (some (fun _ => some (impulseBuffer 0))) (some silentBuffers) 1 1 0 =
          .ok (q, some outs1) ∧
      q.adaptiveThreshold < (q.channels 0).inputLevel ∧
      (q.channels 0).autoEnabled = true ∧
      (q.channels 0).active = false ∧
      getActiveChannelCount q = 0 ∧
      (getStatistics q).activeChannels = 1 ∧
      ("active_channels", (0 : ℝ)) ∈
        ({ processor := some q, sampleRate := 48000, bypassState := false, dspLoad := 0,
           processingActive := false } : WDSPKernel ℝ).getStatistics := by
  have hreach : Reachable LibM.real 48000 (fastAttackProcessor LibM.real) :=
    Reachable.afterSetAttackTime 0.001 Reachable.constructed rfl
  obtain ⟨hb, hthr, -, hchan⟩ := fastAttack_fields
  have hproc := process_active scalarTarget LibM.real (fastAttackProcessor LibM.real)
    (fun _ => some (impulseBuffer 0)) silentBuffers 1 1 0 hb (by decide) (by decide)
  have hq : Reachable LibM.real 48000 _ :=
    Reachable.afterProcess scalarTarget _ _ 1 1 0 _ hreach (by decide) hproc
  refine ⟨fun sr p h => ⟨reachable_active _ sr p h,
    getActiveChannelCount_eq_zero p (reachable_active _ sr p h)⟩, hreach, _, _, hproc, ?_⟩
  have hact := reachable_active _ _ _ hq
  have hzero := getActiveChannelCount_eq_zero _ hact
  obtain ⟨-, -, hlev, -, -⟩ := active_levels_of_buffer scalarTarget LibM.real
    (fastAttackProcessor LibM.real) (fun _ => some (impulseBuffer 0)) 1 1 0 (impulseBuffer 0)
    (by decide) rfl
  simp only [impulse_scan, hchan] at hlev
  have hcfg := (processLevels_sameConfig scalarTarget LibM.real (fastAttackProcessor LibM.real)
    (fun _ => some (impulseBuffer 0)) (min 1 4) 1).trans
    (computeGains_sameConfig LibM.real _ (min 1 4))
  have hlt : (computeGains LibM.real (processLevels scalarTarget LibM.real
      (fastAttackProcessor LibM.real) (fun _ => some (impulseBuffer 0)) (min 1 4) 1)
      (min 1 4)).adaptiveThreshold <
      ((computeGains LibM.real (processLevels scalarTarget LibM.real
      (fastAttackProcessor LibM.real) (fun _ => some (impulseBuffer 0)) (min 1 4) 1)
      (min 1 4)).channels 0).inputLevel := by
    rw [hcfg.adaptiveThreshold, hthr, hlev]
    exact fastAttack_level
  have hauto : ((computeGains LibM.real (processLevels scalarTarget LibM.real
      (fastAttackProcessor LibM.real) (fun _ => some (impulseBuffer 0)) (min 1 4) 1)
      (min 1 4)).channels 0).autoEnabled = true := by
    rw [hcfg.autoEnabled, hchan]
    rfl
  refine ⟨hlt, hauto, hact 0, hzero, ?_, ?_⟩
  · show (computeGains LibM.real _ (min 1 4)).currentStats.activeChannels = 1
    rw [(computeGains_stats LibM.real _ (min 1 4)).2.2.2.1]
    have h1 := activeCount_equal (processLevels scalarTarget LibM.real
      (fastAttackProcessor LibM.real) (fun _ => some (impulseBuffer 0)) (min 1 4) 1) (min 1 4)
      (((processLevels scalarTarget LibM.real (fastAttackProcessor LibM.real)
        (fun _ => some (impulseBuffer 0)) (min 1 4) 1).channels 0).inputLevel) (by decide)
      (by
        intro ch hch
        have : ch = 0 := Fin.ext (by simpa using hch)
        subst this
        refine ⟨?_, rfl⟩
        rw [(processLevels_sameConfig scalarTarget LibM.real (fastAttackProcessor LibM.real)
          (fun _ => some (impulseBuffer 0)) (min 1 4) 1).autoEnabled, hchan]
        rfl)
    have hlt2 : (processLevels scalarTarget LibM.real (fastAttackProcessor LibM.real)
        (fun _ => some (impulseBuffer 0)) (min 1 4) 1).adaptiveThreshold <
        ((processLevels scalarTarget LibM.real (fastAttackProcessor LibM.real)
        (fun _ => some (impulseBuffer 0)) (min 1 4) 1).channels 0).inputLevel := by
      have e1 := (computeGains_sameConfig LibM.real (processLevels scalarTarget LibM.real
        (fastAttackProcessor LibM.real) (fun _ => some (impulseBuffer 0)) (min 1 4) 1)
        (min 1 4)).adaptiveThreshold
      have e2 := (computeGains_level_fields LibM.real (processLevels scalarTarget LibM.real
        (fastAttackProcessor LibM.real) (fun _ => some (impulseBuffer 0)) (min 1 4) 1)
        (min 1 4) 0).2.2.1
      rw [← e1, ← e2]
      exact hlt
    rw [if_pos hlt2] at h1
    rw [h1]
    rfl
  · have key : ∀ q : DuganProcessor ℝ, getActiveChannelCount q = 0 →
        ("active_channels", (0 : ℝ)) ∈
          ({ processor := some q, sampleRate := 48000, bypassState := false, dspLoad := 0,
             processingActive := false } : WDSPKernel ℝ).getStatistics := by
      intro q hz
      have h := kernel_active_channels_entry
        ({ processor := some q, sampleRate := 48000, bypassState := false, dspLoad := 0,
           processingActive := false } : WDSPKernel ℝ) q rfl
      rw [hz] at h
      simpa using h
    exact key _ hzero

theorem overrideThree_channels (ch : Fin 4) :
    ((overrideThreeProcessor : DuganProcessor ℝ).channels ch).overrideEnabled = decide (ch = 3) ∧
    ((overrideThreeProcessor : DuganProcessor ℝ).channels ch).autoEnabled = true ∧
    ((overrideThreeProcessor : DuganProcessor ℝ).channels ch).weight = 1 ∧
    ((overrideThreeProcessor : DuganProcessor ℝ).channels ch).smoothedGain = 1 := by
  fin_cases ch <;>
    simp [overrideThreeProcessor, setChannelOverride, exampleProcessor, exampleChannel,
      Function.update]

theorem process_anyOverride_scope_witness :
    ((overrideThreeProcessor : DuganProcessor ℝ).bypassEnabled = false ∧ 0 < 1 ∧ 0 < 1) ∧
    ∃ (q : DuganProcessor ℝ) (outs1 : Buffers ℝ),
      process scalarTarget LibM.real overrideThreeProcessor (some silentBuffers)
        (some silentBuffers) 1 1 0 = .ok (q, some outs1) ∧
      ((computeGainsFirstPass LibM.real
        (processLevels scalarTarget LibM.real overrideThreeProcessor silentBuffers (min 1 4) 1)
        (min 1 4)).anyOverride = true ↔
        ∃ ch : Fin 4, ch.val < 1 ∧
          ((overrideThreeProcessor : DuganProcessor ℝ).channels ch).overrideEnabled = true) := by
  obtain ⟨q, outs1, h, hiff, -⟩ := process_anyOverride_scope scalarTarget LibM.real
    (overrideThreeProcessor : DuganProcessor ℝ) silentBuffers silentBuffers 1 1 0 rfl
    (by decide) (by decide)
  exact ⟨⟨rfl, by decide, by decide⟩, q, outs1, h, hiff⟩

/-- C23, counterexample.  The example processor with channel 3 in override, and an Active
block of one channel: a channel of the processor has `overrideEnabled`, channel 0 is
processed and has not, yet `anyOverride` is false, the target gain of channel 0 is `1`
and not `0.1 * 10^(masterGain/20) = 0.1`, and its smoothed gain stays `1` where a target
of `0.1` would have left `0.55`. -/
theorem anyOverride_unprocessed_counterexample :
    ((overrideThreeProcessor : DuganProcessor ℝ).channels 3).overrideEnabled = true ∧
    ((overrideThreeProcessor : DuganProcessor ℝ).channels 0).overrideEnabled = false ∧
    (overrideThreeProcessor : DuganProcessor ℝ).bypassEnabled = false ∧
    ∃ (q : DuganProcessor ℝ) (outs1 : Buffers ℝ),
      process scalarTarget LibM.real overrideThreeProcessor (some silentBuffers)
        (some silentBuffers) 1 1 0 = .ok (q, some outs1) ∧
      (computeGainsFirstPass LibM.real
        (processLevels scalarTarget LibM.real overrideThreeProcessor silentBuffers 1 1)
        1).anyOverride = false ∧
      targetGain LibM.real
        (computeGains LibM.real
          (processLevels scalarTarget LibM.real overrideThreeProcessor silentBuffers 1 1) 1)
        (computeGainsFirstPass LibM.real
          (processLevels scalarTarget LibM.real overrideThreeProcessor silentBuffers 1 1)
          1).anyOverride
        ((processLevels scalarTarget LibM.real overrideThreeProcessor silentBuffers 1 1).channels
          0) = 1 ∧
      (0.1 : ℝ) * LibM.real.pow 10 ((overrideThreeProcessor : DuganProcessor ℝ).masterGain / 20)
        = 0.1 ∧
      (q.channels 0).smoothedGain = 1 ∧
      smoothGain ((overrideThreeProcessor : DuganProcessor ℝ).channels 0).smoothedGain
        (0.1 * LibM.real.pow 10 ((overrideThreeProcessor : DuganProcessor ℝ).masterGain / 20))
        (overrideThreeProcessor : DuganProcessor ℝ).smoothingCoeff = 0.55 := by
  have hMg : LibM.real.pow 10 ((overrideThreeProcessor : DuganProcessor ℝ).masterGain / 20)
      = 1 := by
    show (10 : ℝ) ^ ((0 : ℝ) / 20) = 1
    rw [zero_div, Real.rpow_zero]
  have hcoef : (overrideThreeProcessor : DuganProcessor ℝ).smoothingCoeff = 1 / 2 := rfl
  have hno : ∀ ch : Fin 4, ch.val < 1 →
      ((overrideThreeProcessor : DuganProcessor ℝ).channels ch).overrideEnabled = false := by
    intro ch hch
    have : ch = 0 := Fin.ext (by simpa using hch)
    subst this
    rw [(overrideThree_channels 0).1]
    decide
  have hcfg := processLevels_sameConfig scalarTarget LibM.real
    (overrideThreeProcessor : DuganProcessor ℝ) silentBuffers 1 1
  have hao : anyOverrideIn (processLevels scalarTarget LibM.real
      (overrideThreeProcessor : DuganProcessor ℝ) silentBuffers 1 1) 1 = false := by
    apply anyOverrideIn_eq_false
    intro ch hch
    rw [hcfg.overrideEnabled]
    exact hno ch hch
  have hauto : ((processLevels scalarTarget LibM.real
      (overrideThreeProcessor : DuganProcessor ℝ) silentBuffers 1 1).channels 0).autoEnabled
      = true := by
    rw [hcfg.autoEnabled]
    exact (overrideThree_channels 0).2.1
  have hw : ((processLevels scalarTarget LibM.real
      (overrideThreeProcessor : DuganProcessor ℝ) silentBuffers 1 1).channels 0).weight
      = 1 := by
    rw [hcfg.weight]
    exact (overrideThree_channels 0).2.2.1
  have hlev : (-60 : ℝ) ≤ ((processLevels scalarTarget LibM.real
      (overrideThreeProcessor : DuganProcessor ℝ) silentBuffers 1 1).channels 0).inputLevel := by
    rw [processLevels_eq]
    simp only [Fin.val_zero, Nat.lt_one_iff, if_true]
    exact updateChannelLevel_inputLevel_ge _ _ _ _ _ _
  have hL : (1e-6 : ℝ) ≤ (10 : ℝ) ^ (((processLevels scalarTarget LibM.real
      (overrideThreeProcessor : DuganProcessor ℝ) silentBuffers 1 1).channels 0).inputLevel
      / 20) := by
    have h3 : (10 : ℝ) ^ (-3 : ℝ) ≤ (10 : ℝ) ^ (((processLevels scalarTarget LibM.real
        (overrideThreeProcessor : DuganProcessor ℝ) silentBuffers 1 1).channels 0).inputLevel
        / 20) :=
      Real.rpow_le_rpow_of_exponent_le (by norm_num) (by linarith)
    refine le_trans ?_ h3
    rw [Real.rpow_neg (by norm_num)]
    norm_num
  have hsum : weightedLevelSum LibM.real (processLevels scalarTarget LibM.real
      (overrideThreeProcessor : DuganProcessor ℝ) silentBuffers 1 1) 1 =
      (10 : ℝ) ^ (((processLevels scalarTarget LibM.real
        (overrideThreeProcessor : DuganProcessor ℝ) silentBuffers 1 1).channels 0).inputLevel
        / 20) := by
    rw [weightedLevelSum_equal LibM.real _ 1 (((processLevels scalarTarget LibM.real
      (overrideThreeProcessor : DuganProcessor ℝ) silentBuffers 1 1).channels 0).inputLevel) 1
      (by decide)
      (by
        intro ch hch
        have : ch = 0 := Fin.ext (by simpa using hch)
        subst this
        exact ⟨hauto, rfl, hw⟩)]
    show ((1 : ℕ) : ℝ) * ((10 : ℝ) ^ _ * 1) = _
    simp
  have hcount : ¬ 1 < activeCount (processLevels scalarTarget LibM.real
      (overrideThreeProcessor : DuganProcessor ℝ) silentBuffers 1 1) 1 :=
    not_lt.2 (activeCount_le _ 1 (by decide))
  have htg : targetGain LibM.real (afterFirstPass LibM.real (processLevels scalarTarget
      LibM.real (overrideThreeProcessor : DuganProcessor ℝ) silentBuffers 1 1) 1)
      (anyOverrideIn (processLevels scalarTarget LibM.real
        (overrideThreeProcessor : DuganProcessor ℝ) silentBuffers 1 1) 1)
      ((processLevels scalarTarget LibM.real
        (overrideThreeProcessor : DuganProcessor ℝ) silentBuffers 1 1).channels 0) = 1 := by
    rw [hao, targetGain_auto LibM.real _ 1 _ hauto, hsum, hw, if_neg hcount, hcfg.masterGain,
      hMg, max_eq_left (by unfold kMinLevel; exact hL)]
    show Real.sqrt ((10 : ℝ) ^ _ * 1 / (10 : ℝ) ^ _) * 1 * 1 = 1
    simp only [mul_one]
    rw [div_self (ne_of_gt (lt_of_lt_of_le (by norm_num) hL)), Real.sqrt_one]
  obtain ⟨h1, h2⟩ := computeGains_smoothedGain LibM.real (processLevels scalarTarget LibM.real
    (overrideThreeProcessor : DuganProcessor ℝ) silentBuffers 1 1) 1 0 (by decide)
  refine ⟨(overrideThree_channels 3).1.trans (by decide),
    (overrideThree_channels 0).1.trans (by decide), rfl, _, _,
    process_active scalarTarget LibM.real (overrideThreeProcessor : DuganProcessor ℝ)
      silentBuffers silentBuffers 1 1 0 rfl (by decide) (by decide), ?_, ?_, ?_, ?_, ?_⟩
  · rw [firstPass_eq]
    exact hao
  · rw [h1, htg]
  · rw [hMg]; norm_num
  · show ((computeGains LibM.real (processLevels scalarTarget LibM.real
      (overrideThreeProcessor : DuganProcessor ℝ) silentBuffers 1 1) 1).channels 0).smoothedGain
      = 1
    rw [h2, htg, processLevels_smoothedGain, (overrideThree_channels 0).2.2.2, hcfg.smoothingCoeff,
      hcoef]
    unfold smoothGain
    norm_num
  · rw [hMg, (overrideThree_channels 0).2.2.2, hcoef]
    unfold smoothGain
    norm_num

/-- C28. Gain sharing preserves power: when no processed channel is in override and the
weights of the processed channels are `≥ 0`, the target gain of a processed channel is
`g_c` times the `0.9` factor (when it applies) times the master multiplier, where
`g_c = sqrt(L_c*w_c/T)` for an auto-enabled channel and `1` for a manual one, and
`0 ≤ g_c ≤ 1`; when all processed channels are auto-enabled the squares of the `g_c` sum
to exactly `1` if the weighted level sum is at least `1e-6`, and to less than `1`
otherwise. -/
theorem gain_sharing_power (p : DuganProcessor ℝ) (n : Nat)
    (hno : ∀ ch : Fin 4, ch.val < n → (p.channels ch).overrideEnabled = false)
    (hw : ∀ ch : Fin 4, ch.val < n → 0 ≤ (p.channels ch).weight) :
    let T : ℝ := (computeGains LibM.real p n).totalWeightedLevel
    let k : ℝ := if (computeGains LibM.real p n).activeChannelCount > 1 then 0.9 else 1
    let Mg : ℝ := (10 : ℝ) ^ (p.masterGain / 20)
    let g : Fin 4 → ℝ := fun c =>
      if (p.channels c).autoEnabled = true then
        Real.sqrt ((10 : ℝ) ^ ((p.channels c).inputLevel / 20) * (p.channels c).weight / T)
      else 1
    (∀ c : Fin 4, c.val < n →
      targetGain LibM.real (computeGains LibM.real p n)
        (computeGainsFirstPass LibM.real p n).anyOverride (p.channels c) =
        g c * (if (p.channels c).autoEnabled = true then k else 1) * Mg ∧
      0 ≤ g c ∧ g c ≤ 1) ∧
    ((∀ c : Fin 4, c.val < n → (p.channels c).autoEnabled = true) →
      (1e-6 ≤ weightedLevelSum LibM.real p n →
        (∑ c : Fin 4, if c.val < n then g c ^ 2 else 0) = 1) ∧
      (weightedLevelSum LibM.real p n < 1e-6 →
        (∑ c : Fin 4, if c.val < n then g c ^ 2 else 0) < 1)) := by
  intro T k Mg g
  obtain ⟨s1, s2, -⟩ := computeGains_scalars LibM.real p n
  have hT : T = max (weightedLevelSum LibM.real p n) kMinLevel := s1
  have hTpos : 0 < T := by
    rw [hT]
    exact lt_of_lt_of_le kMinLevel_pos (le_max_right _ _)
  have hLpos : ∀ c : Fin 4, 0 < (10 : ℝ) ^ ((p.channels c).inputLevel / 20) :=
    fun c => Real.rpow_pos_of_pos (by norm_num) _
  have hterm : ∀ c ∈ (Finset.univ : Finset (Fin 4)),
      0 ≤ (if c.val < n ∧ (p.channels c).autoEnabled = true then
        LibM.real.pow 10 ((p.channels c).inputLevel / 20) * (p.channels c).weight else 0) := by
    intro c _
    split_ifs with h
    · exact mul_nonneg (hLpos c).le (hw c h.1)
    · exact le_rfl
  have hao := anyOverrideIn_eq_false p n hno
  refine ⟨?_, ?_⟩
  · intro c hc
    obtain ⟨h1, -⟩ := computeGains_smoothedGain LibM.real p n c hc
    refine ⟨?_, ?_⟩
    · rw [h1, hao]
      cases hauto : (p.channels c).autoEnabled with
      | false =>
        rw [targetGain_manual LibM.real _ _ hauto]
        simp only [g, hauto, Bool.false_eq_true, if_false, one_mul]
        rfl
      | true =>
        rw [targetGain_auto LibM.real p n _ hauto]
        simp only [g, k, hauto, if_true, hT, s2, gt_iff_lt, Nat.one_lt_cast]
        rfl
    · by_cases hauto : (p.channels c).autoEnabled = true
      · simp only [g, hauto, if_true]
        refine ⟨Real.sqrt_nonneg _, ?_⟩
        have hle : (10 : ℝ) ^ ((p.channels c).inputLevel / 20) * (p.channels c).weight / T
            ≤ 1 := by
          rw [div_le_one hTpos, hT]
          refine le_trans ?_ (le_max_left _ _)
          have := Finset.single_le_sum hterm (Finset.mem_univ c)
          simp only [hc, hauto, and_self, if_true] at this
          exact this
        exact (Real.sqrt_le_sqrt hle).trans_eq Real.sqrt_one
      · simp only [g, hauto, if_false]
        exact ⟨zero_le_one, le_rfl⟩
  · intro hall
    have hsq : (∑ c : Fin 4, if c.val < n then g c ^ 2 else 0) =
        weightedLevelSum LibM.real p n / T := by
      unfold weightedLevelSum
      rw [Finset.sum_div]
      refine Finset.sum_congr rfl (fun c _ => ?_)
      by_cases hc : c.val < n
      · have hauto := hall c hc
        simp only [hc, hauto, and_self, if_true, g]
        rw [Real.sq_sqrt (div_nonneg (mul_nonneg (hLpos c).le (hw c hc)) hTpos.le)]
        rfl
      · simp only [hc, false_and, if_false, zero_div]
    rw [hsq]
    refine ⟨fun h => ?_, fun h => ?_⟩
    · have hk : (kMinLevel : ℝ) ≤ weightedLevelSum LibM.real p n := by
        unfold kMinLevel; exact h
      rw [hT, max_eq_left hk]
      exact div_self (ne_of_gt (lt_of_lt_of_le kMinLevel_pos hk))
    · have hk : weightedLevelSum LibM.real p n < (kMinLevel : ℝ) := by
        unfold kMinLevel; exact h
      rw [div_lt_one hTpos, hT, max_eq_right hk.le]
      exact hk

theorem gain_sharing_power_witness :
    ((∀ ch : Fin 4, ch.val < 2 →
        ((exampleProcessor : DuganProcessor ℝ).channels ch).overrideEnabled = false) ∧
      (∀ ch : Fin 4, ch.val < 2 →
        0 ≤ ((exampleProcessor : DuganProcessor ℝ).channels ch).weight)) ∧
    0 ≤ (if ((exampleProcessor : DuganProcessor ℝ).channels 0).autoEnabled = true then
        Real.sqrt ((10 : ℝ) ^ (((exampleProcessor : DuganProcessor ℝ).channels 0).inputLevel / 20) *
          ((exampleProcessor : DuganProcessor ℝ).channels 0).weight /
          (computeGains LibM.real (exampleProcessor : DuganProcessor ℝ) 2).totalWeightedLevel)
      else 1) := by
  have hno : ∀ ch : Fin 4, ch.val < 2 →
      ((exampleProcessor : DuganProcessor ℝ).channels ch).overrideEnabled = false :=
    fun _ _ => rfl
  have hw : ∀ ch : Fin 4, ch.val < 2 →
      0 ≤ ((exampleProcessor : DuganProcessor ℝ).channels ch).weight := by
    intro ch _
    show (0 : ℝ) ≤ 1
    norm_num
  exact ⟨⟨hno, hw⟩,
    ((gain_sharing_power (exampleProcessor : DuganProcessor ℝ) 2 hno hw).1 0
      (by decide)).2.1⟩

theorem process_raises_iff_witness :
    (exampleProcessor : DuganProcessor ℝ).bypassEnabled = false ∧
    (∃ q, processCall sseTarget LibM.real exhaustedBuffer (exampleProcessor : DuganProcessor ℝ)
      none (some silentBuffers) 1 1 0 = .error (.invalidArgument, q)) ∧
    processCall sseTarget LibM.real exhaustedBuffer (exampleProcessor : DuganProcessor ℝ)
      (some silentBuffers) (some silentBuffers) 0 1 0 =
        .ok ((exampleProcessor, some silentBuffers), exhaustedBuffer) :=
  ⟨rfl,
    (process_raises_iff sseTarget LibM.real exhaustedBuffer
      (exampleProcessor : DuganProcessor ℝ) none (some silentBuffers) 1 1 0 rfl).1.2
      (Or.inl rfl),
    ((process_raises_iff sseTarget LibM.real exhaustedBuffer
      (exampleProcessor : DuganProcessor ℝ) (some silentBuffers) (some silentBuffers) 0 1 0
      rfl).2.2.2.2 silentBuffers silentBuffers rfl rfl (Or.inl rfl)).1⟩

/-- C25, counterexample.  On an SSE build, an Active block of one channel and one sample
with non-null pointer arrays, called on a thread whose thread-local buffer is empty and
whose allocation fails, ends with `std::bad_alloc`: `process` raises although neither
array is null, and what it raises is not `std::invalid_argument`. -/
theorem process_resize_counterexample :
    (exampleProcessor : DuganProcessor ℝ).bypassEnabled = false ∧
    sseTarget.haveSimd = true ∧
    processCall sseTarget LibM.real exhaustedBuffer (exampleProcessor : DuganProcessor ℝ)
      (some silentBuffers) (some silentBuffers) 1 1 0 =
        .error (.resizeFailed .badAlloc, exampleProcessor) ∧
    processCall sseTarget LibM.real exhaustedBuffer (exampleProcessor : DuganProcessor ℝ)
      (some silentBuffers) (some silentBuffers) 1 1 0 ≠
        .error (.invalidArgument, exampleProcessor) := by
  have h : processCall sseTarget LibM.real exhaustedBuffer
      (exampleProcessor : DuganProcessor ℝ) (some silentBuffers) (some silentBuffers) 1 1 0 =
        .error (.resizeFailed .badAlloc, exampleProcessor) := by
    rw [processCall_active sseTarget LibM.real exhaustedBuffer _ silentBuffers silentBuffers
      1 1 0 rfl (by decide)]
    rw [if_pos ⟨rfl, by decide, 0, by decide, rfl⟩]
    rfl
  refine ⟨rfl, rfl, h, ?_⟩
  rw [h]
  intro hc
  cases hc

/-- C19. The claim that after `setAttackTime(t)` followed by `initialize(sr')` the attack
coefficient is `exp(-1 / (clamp(t, 0.001, 1.0) * sr'))`, evaluated on the code: on a
processor constructed at 48 kHz, `setAttackTime(0.5)` returns and leaves the coefficient
`exp(-1 / (0.5 * 48000))`; the call `initialize(44100)` that follows takes
`processMutex`, stores the sample rate and calls `setAttackTime`, which locks the same
mutex and never gets it.  So the call never returns, there is no state after it, and the
attack coefficient it leaves behind is the one of the old rate, not
`exp(-1 / (0.5 * 44100))`. -/
theorem initialize_after_setAttackTime_evaluated :
    setAttackTimeCall LibM.real false (construct LibM.real 48000) 0.5 =
      some (setAttackTime LibM.real (construct LibM.real 48000) 0.5) ∧
    (setAttackTime LibM.real (construct LibM.real 48000) 0.5).attackCoeff =
      Real.exp (-1 / (0.5 * 48000)) ∧
    initializeCall LibM.real false
      (setAttackTime LibM.real (construct LibM.real 48000) 0.5) 44100 = none ∧
    setAttackTimeCall LibM.real true
      { setAttackTime LibM.real (construct LibM.real 48000) 0.5 with sampleRate := 44100 }
      kDefaultAttackTime = none ∧
    ¬ (∃ q : DuganProcessor ℝ,
      initializeCall LibM.real false
        (setAttackTime LibM.real (construct LibM.real 48000) 0.5) 44100 = some q ∧
      q.attackCoeff = Real.exp (-1 / (clamp 0.5 0.001 1.0 * 44100))) ∧
    (setAttackTime LibM.real (construct LibM.real 48000) 0.5).attackCoeff ≠
      Real.exp (-1 / (clamp 0.5 0.001 1.0 * 44100)) := by
  have h2 : clamp (0.5 : ℝ) 0.001 1.0 = 0.5 := by
    unfold clamp; norm_num
  have hc : (setAttackTime LibM.real (construct LibM.real 48000) 0.5).attackCoeff =
      Real.exp (-1 / (0.5 * 48000)) := by
    show Real.exp (-1 / (clamp (0.5 : ℝ) 0.001 1.0 * 48000)) = _
    rw [h2]
  refine ⟨rfl, hc, rfl, rfl, ?_, ?_⟩
  · rintro ⟨q, hq, -⟩
    have hnone : initializeCall LibM.real false
        (setAttackTime LibM.real (construct LibM.real 48000) 0.5) 44100 = none := rfl
    rw [hnone] at hq
    exact Option.noConfusion hq
  · rw [hc, h2]
    intro h
    have := Real.exp_injective h
    norm_num at this

end RealClaims

/-! ## The one-pole update and the statistics in binary32 -/

section Binary32

theorem roundHalfEven_eq (x : ℚ) (k : ℤ) (h1 : (k : ℚ) - 1 / 2 < x) (h2 : x < k + 1 / 2) :
    roundHalfEven x = k := by
  unfold roundHalfEven
  by_cases hk : (k : ℚ) ≤ x
  · have hf : ⌊x⌋ = k := Int.floor_eq_iff.2 ⟨hk, by linarith⟩
    rw [hf, if_pos (by linarith)]
  · have hk1 : x < k := not_le.1 hk
    have hf : ⌊x⌋ = k - 1 := Int.floor_eq_iff.2 ⟨by push_cast; linarith, by push_cast; linarith⟩
    rw [hf]
    have hlt : ¬ (x - ((k - 1 : ℤ) : ℚ) < 1 / 2) := by push_cast; linarith
    have hgt : 1 / 2 < x - ((k - 1 : ℤ) : ℚ) := by push_cast; linarith
    rw [if_neg hlt, if_pos hgt]
    ring

/-- The binary32 value nearest to `x` when `x` is in the binade of exponent `e` and
`x / 2^(e-23)` is nearer to the integer `k` than to any other. -/
theorem roundF32_eq (x : ℚ) (e k : ℤ) (he : -126 ≤ e) (h1 : (2 : ℚ) ^ e ≤ |x|)
    (h2 : |x| < (2 : ℚ) ^ (e + 1)) (hlo : (k : ℚ) - 1 / 2 < x / 2 ^ (e - 23))
    (hhi : x / 2 ^ (e - 23) < k + 1 / 2) :
    roundF32 x = (k : ℚ) * 2 ^ (e - 23) := by
  have hpos : (0 : ℚ) < |x| := lt_of_lt_of_le (zpow_pos (by norm_num) e) h1
  have hx : x ≠ 0 := abs_pos.1 hpos
  have hlog : Int.log 2 |x| = e := by
    apply le_antisymm
    · have := (Int.lt_zpow_iff_log_lt (b := 2) (by norm_num) hpos (x := e + 1)).1
        (by exact_mod_cast h2)
      omega
    · exact (Int.zpow_le_iff_le_log (b := 2) (by norm_num) hpos).1 (by exact_mod_cast h1)
  unfold roundF32
  rw [if_neg hx, hlog, max_eq_left he, roundHalfEven_eq _ k hlo hhi]

/-- A binary32 value is its own rounding. -/
theorem roundF32_of_exact (x : ℚ) (e k : ℤ) (he : -126 ≤ e) (h1 : (2 : ℚ) ^ e ≤ |x|)
    (h2 : |x| < (2 : ℚ) ^ (e + 1)) (hk : x = (k : ℚ) * 2 ^ (e - 23)) : roundF32 x = x := by
  have hq : (0 : ℚ) < 2 ^ (e - 23) := zpow_pos (by norm_num) _
  have hdiv : x / 2 ^ (e - 23) = k := by
    rw [hk, mul_div_assoc, div_self (ne_of_gt hq), mul_one]
  rw [roundF32_eq x e k he h1 h2 (by rw [hdiv]; linarith) (by rw [hdiv]; linarith), ← hk]

theorem roundHalfEven_half (f : ℤ) :
    roundHalfEven ((f : ℚ) + 1 / 2) = if f % 2 = 0 then f else f + 1 := by
  unfold roundHalfEven
  have hf : ⌊(f : ℚ) + 1 / 2⌋ = f :=
    Int.floor_eq_iff.2 ⟨by linarith, by linarith⟩
  rw [hf]
  have h1 : ¬ ((f : ℚ) + 1 / 2 - f < 1 / 2) := by
    rw [add_sub_cancel_left]; exact lt_irrefl _
  have h2 : ¬ ((1 : ℚ) / 2 < (f : ℚ) + 1 / 2 - f) := by
    rw [add_sub_cancel_left]; exact lt_irrefl _
  rw [if_neg h1, if_neg h2]

/-- The binary32 value nearest to `x` when `x` is in the binade of exponent `e`. -/
theorem roundF32_of_binade (x : ℚ) (e k : ℤ) (he : -126 ≤ e) (h1 : (2 : ℚ) ^ e ≤ |x|)
    (h2 : |x| < (2 : ℚ) ^ (e + 1)) (hk : roundHalfEven (x / 2 ^ (e - 23)) = k) :
    roundF32 x = (k : ℚ) * 2 ^ (e - 23) := by
  have hpos : (0 : ℚ) < |x| := lt_of_lt_of_le (zpow_pos (by norm_num) e) h1
  have hx : x ≠ 0 := abs_pos.1 hpos
  have hlog : Int.log 2 |x| = e := by
    apply le_antisymm
    · have := (Int.lt_zpow_iff_log_lt (b := 2) (by norm_num) hpos (x := e + 1)).1
        (by exact_mod_cast h2)
      omega
    · exact (Int.zpow_le_iff_le_log (b := 2) (by norm_num) hpos).1 (by exact_mod_cast h1)
  unfold roundF32
  rw [if_neg hx, hlog, max_eq_left he, hk]

theorem averageGainReduction32_three :
    averageGainReduction32 [(-7205873 / 134217728 : ℚ), (-7205873 / 134217728 : ℚ), (-7205873 / 134217728 : ℚ)] = (-14411747 / 268435456 : ℚ) := by
  have h1 : roundF32 (0 + (-7205873 / 134217728 : ℚ)) = (-7205873 / 134217728 : ℚ) := by
    have hv : (0 + (-7205873 / 134217728 : ℚ)) = (-7205873 / 134217728 : ℚ) := by norm_num
    rw [hv, roundF32_eq (-7205873 / 134217728 : ℚ) (-5) (-14411746) (by norm_num)
      (by rw [abs_of_neg (by norm_num)]; norm_num) (by rw [abs_of_neg (by norm_num)]; norm_num)
      (by norm_num) (by norm_num)]
    norm_num
  have h2 : roundF32 ((-7205873 / 134217728 : ℚ) + (-7205873 / 134217728 : ℚ)) = (-7205873 / 67108864 : ℚ) := by
    have hv : ((-7205873 / 134217728 : ℚ) + (-7205873 / 134217728 : ℚ)) = (-7205873 / 67108864 : ℚ) := by norm_num
    rw [hv, roundF32_eq (-7205873 / 67108864 : ℚ) (-4) (-14411746) (by norm_num)
      (by rw [abs_of_neg (by norm_num)]; norm_num) (by rw [abs_of_neg (by norm_num)]; norm_num)
      (by norm_num) (by norm_num)]
    norm_num
  have h3 : roundF32 ((-7205873 / 67108864 : ℚ) + (-7205873 / 134217728 : ℚ)) = (-5404405 / 33554432 : ℚ) := by
    have hv : ((-7205873 / 67108864 : ℚ) + (-7205873 / 134217728 : ℚ)) = (-21617619 / 134217728 : ℚ) := by norm_num
    have hm : (-21617619 / 134217728 : ℚ) / 2 ^ ((-3 : ℤ) - 23) = (((-10808810 : ℤ) : ℚ)) + 1 / 2 := by norm_num
    rw [hv, roundF32_of_binade (-21617619 / 134217728 : ℚ) (-3) (-10808810) (by norm_num)
      (by rw [abs_of_neg (by norm_num)]; norm_num) (by rw [abs_of_neg (by norm_num)]; norm_num)
      (by rw [hm, roundHalfEven_half]; decide)]
    norm_num
  have h4 : roundF32 ((-5404405 / 33554432 : ℚ) / 3) = (-14411747 / 268435456 : ℚ) := by
    have hv : ((-5404405 / 33554432 : ℚ) / 3) = (-5404405 / 100663296 : ℚ) := by norm_num
    rw [hv, roundF32_eq (-5404405 / 100663296 : ℚ) (-5) (-14411747) (by norm_num)
      (by rw [abs_of_neg (by norm_num)]; norm_num) (by rw [abs_of_neg (by norm_num)]; norm_num)
      (by norm_num) (by norm_num)]
    norm_num
  have hn : ((([(-7205873 / 134217728 : ℚ), (-7205873 / 134217728 : ℚ), (-7205873 / 134217728 : ℚ)] : List ℚ).length : ℕ) : ℚ) = 3 := by
    simp only [List.length_cons, List.length_nil]
    norm_num
  unfold averageGainReduction32
  rw [hn]
  simp only [List.foldl_cons, List.foldl_nil]
  rw [h1, h2, h3]
  exact h4

/-- C26, counterexample.  Three processed channels with the same clamped gain reduction
`-7205873 / 2^27 = -0.05368793...` dB (three manual channels, master gain +6 dB, block 15
after `reset()`): the binary32 sum `g + g + g` rounds, and the binary32 mean
`-14411747 / 2^28` is below `g`, which is the minimum `peakGainReduction` holds.  So
`peakGainReduction ≤ averageGainReduction` fails. -/
theorem statistics_mean_counterexample :
    ((-30 : ℚ) ≤ -7205873 / 134217728 ∧ (-7205873 / 134217728 : ℚ) ≤ 0) ∧
    averageGainReduction32 [-7205873 / 134217728, -7205873 / 134217728, -7205873 / 134217728] =
      -14411747 / 268435456 ∧
    peakGainReduction32 [-7205873 / 134217728, -7205873 / 134217728, -7205873 / 134217728] =
      -7205873 / 134217728 ∧
    ¬ (peakGainReduction32
        [-7205873 / 134217728, -7205873 / 134217728, -7205873 / 134217728] ≤
      averageGainReduction32
        [-7205873 / 134217728, -7205873 / 134217728, -7205873 / 134217728]) := by
  have havg := averageGainReduction32_three
  have hpk : peakGainReduction32
      [-7205873 / 134217728, -7205873 / 134217728, -7205873 / 134217728] =
        -7205873 / 134217728 := by
    simp only [peakGainReduction32, List.foldl_cons, List.foldl_nil]
    norm_num
  refine ⟨⟨by norm_num, by norm_num⟩, havg, hpk, ?_⟩
  rw [hpk, havg]
  norm_num

end Binary32

end WDSP
